import Mathlib

/-!
# http-latency-test: the streaming order-statistics engine

A shallow embedding of `Statistics`, `newStats` and `Statistics.addTime` of
`http-latency-test.go`, together with the two library functions they call
(`slices.BinarySearch`, `slices.Insert`) and the `float64` arithmetic used for the
mean and the standard deviation.

* `time.Duration` is an `int64` count of nanoseconds: modelled as `Int`, the range
  `minInt64 ≤ t ≤ maxInt64` being a hypothesis where it matters.
* `len`, slice indices: `Nat` (a slice never holds `2^63 / 99` elements, so
  `len * 99` does not wrap).
* A panic (index out of range) is `none`.
* A finite `float64` is the rational it denotes; every operation rounds the exact
  result to the nearest binary64 value, ties to even.
-/

namespace HttpLatencyTest

/-! ## int64 durations -/

/-- The constant `math.MaxInt64`. -/
def maxInt64 : Int := 9223372036854775807

/-- The constant `math.MinInt64`. -/
def minInt64 : Int := -9223372036854775808

/-- The values an `int64` (hence a `time.Duration`) can take. -/
def isInt64 (t : Int) : Prop := minInt64 ≤ t ∧ t ≤ maxInt64

instance (t : Int) : Decidable (isInt64 t) := by unfold isInt64; infer_instance

/-- The constant `time.Second`, in nanoseconds. -/
def Second : Int := 1000000000

/-- The constant `time.Millisecond`, in nanoseconds. -/
def Millisecond : Int := 1000000

/-! ## float64 -/

/-- Round a rational to the nearest integer, ties to the even one. -/
def roundHalfEven (q : ℚ) : Int :=
  let f := ⌊q⌋
  let r := q - f
  if r < 1 / 2 then f
  else if 1 / 2 < r then f + 1
  else if f % 2 = 0 then f else f + 1

/-- Exponent of the binary64 unit in the last place at the magnitude of `q ≠ 0`:
with `e = Int.log 2 |q|`, that is `2 ^ e ≤ |q| < 2 ^ (e + 1)`, a binary64 value has 53
significant bits, so its last bit weighs `2 ^ (e - 52)`; the spacing is never finer
than the subnormal one, `2 ^ (-1074)`. -/
def ulpExp (q : ℚ) : Int := max (Int.log 2 |q| - 52) (-1074)

/-- Rounding to binary64, round-to-nearest-even. Overflow to infinity is not modelled:
it needs a magnitude of `2 ^ 1024`, while `Seconds` is below `2 ^ 34` in magnitude and
the sums formed in `addTime` stay below `len * 2 ^ 70`. The two zeros are not
distinguished (nothing here divides by a zero or prints one). -/
def rnd (q : ℚ) : ℚ :=
  if q = 0 then 0 else (roundHalfEven (q / (2 : ℚ) ^ ulpExp q) : ℚ) * (2 : ℚ) ^ ulpExp q

/-- The float64 sum `a + b`. -/
def fadd (a b : ℚ) : ℚ := rnd (a + b)

/-- The float64 difference `a - b`. -/
def fsub (a b : ℚ) : ℚ := rnd (a - b)

/-- The float64 product `a * b`. -/
def fmul (a b : ℚ) : ℚ := rnd (a * b)

/-- The float64 quotient `a / b` (for `b ≠ 0`). -/
def fdiv (a b : ℚ) : ℚ := rnd (a / b)

/-- The conversion `float64(n)` of an integer. -/
def ofInt (n : Int) : ℚ := rnd (n : ℚ)

/-- The function `math.Sqrt` on a float64 `a ≥ 0` (in `addTime` its argument is a rounded
sum of squares over a positive count, never negative): the correctly rounded square
root. With `k` chosen so that `a * 4 ^ k ≥ 2 ^ 110`, the integer `s = ⌊√(a * 4 ^ k)⌋` has
at least 55 bits, so no binary64 value and no midpoint of two lies strictly between `s`
and `s + 1`; when `√(a * 4 ^ k)` is not `s` itself, rounding `s + 1/2` rounds the root. -/
def fsqrt (a : ℚ) : ℚ :=
  if a ≤ 0 then 0
  else
    let k : Int := 56 - Int.log 2 a / 2
    let scaled : ℚ := a * (4 : ℚ) ^ k
    let s : Nat := Nat.sqrt ⌊scaled⌋₊
    let sticky : ℚ := if ((s * s : Nat) : ℚ) = scaled then 0 else 1 / 2
    rnd (((s : ℚ) + sticky) / (2 : ℚ) ^ k)

/-- The method `Duration.Seconds` of package `time`:
`sec := d / Second; nsec := d % Second; return float64(sec) + float64(nsec)/1e9`
(Go's `/` and `%` truncate toward zero). -/
def Seconds (d : Int) : ℚ :=
  let sec := Int.tdiv d Second
  let nsec := Int.tmod d Second
  fadd (ofInt sec) (fdiv (ofInt nsec) 1000000000)

/-- The conversion `time.Duration(f)` of a float64: truncation toward zero. When the
truncated value does not fit in an `int64` the result is implementation-dependent
(Go specification, "Conversions"); `conv` supplies it. -/
def toDuration (conv : ℚ → Int) (f : ℚ) : Int :=
  let n : Int := if 0 ≤ f then ⌊f⌋ else ⌈f⌉
  if minInt64 ≤ n ∧ n ≤ maxInt64 then n else conv f

/-! ## The two functions of package `slices` that `addTime` calls -/

/-- The loop of `slices.BinarySearch`:
`for i < j { h := int(uint(i+j) >> 1); if cmp.Less(x[h], target) { i = h + 1 } else { j = h } }`.
The first argument bounds the number of iterations; `none` is an index out of range
(or an exhausted bound). -/
def binarySearchLoop (x : List Int) (target : Int) : Nat → Nat → Nat → Option Nat
  | 0, i, j => if i < j then none else some i
  | fuel + 1, i, j =>
    if i < j then
      let h := (i + j) / 2
      match x[h]? with
      | none => none
      | some xh =>
        if xh < target then binarySearchLoop x target fuel (h + 1) j
        else binarySearchLoop x target fuel i h
    else some i

/-- The function `slices.BinarySearch(x, target)`: starts the loop at `i, j := 0, n` and
returns `i, (i < n && x[i] == target)`. Every iteration shrinks `j - i`, so `n`
iterations are enough (`binarySearchLoop_sorted`). -/
def BinarySearch (x : List Int) (target : Int) : Option (Nat × Bool) :=
  let n := x.length
  match binarySearchLoop x target n 0 n with
  | none => none
  | some i => some (i, decide (i < n) && (x[i]? == some target))

/-- The function `slices.Insert(s, i, v)`: panics when `i > len(s)`, otherwise returns
`s[:i]`, then `v`, then `s[i:]`. -/
def Insert (s : List Int) (i : Nat) (v : Int) : Option (List Int) :=
  if i ≤ s.length then some (s.take i ++ v :: s.drop i) else none

/-! ## Statistics -/

/-- The struct `Statistics`. -/
structure Statistics where
  times : List Int
  current : Int
  avg : Int
  max : Int
  min : Int
  sd : Int
  p50 : Int
  p75 : Int
  p90 : Int
  p95 : Int
  p99 : Int
  deriving DecidableEq, Repr

/-- The constructor `newStats`. -/
def newStats : Statistics :=
  { times := [], current := 0, avg := 0, max := 0, min := maxInt64, sd := 0,
    p50 := 0, p75 := 0, p90 := 0, p95 := 0, p99 := 0 }

/-- The local `avgSeconds` of `addTime` once divided by the count:
`avgSeconds := 0.0; for _, t := range s.times { avgSeconds += t.Seconds() };
avgSeconds /= float64(len(s.times))`. -/
def avgSeconds (times : List Int) : ℚ :=
  fdiv (times.foldl (fun acc t => fadd acc (Seconds t)) 0) (ofInt times.length)

/-- The local `sdSeconds` of `addTime` after the square root:
`sdSeconds := 0.0; for _, t := range s.times { sdSeconds += (t.Seconds() - avgSeconds) *
(t.Seconds() - avgSeconds) }; sdSeconds = math.Sqrt(sdSeconds / float64(len(s.times)))`.
The product and the sum are rounded separately, as a build without fused multiply-add
does (amd64 by default); `sdSecondsOn` covers both evaluations. -/
def sdSeconds (times : List Int) : ℚ :=
  let avg := avgSeconds times
  fsqrt (fdiv
    (times.foldl
      (fun acc t => fadd acc (fmul (fsub (Seconds t) avg) (fsub (Seconds t) avg))) 0)
    (ofInt times.length))

/-- The method `Statistics.addTime`. `conv` is the platform's result for an out-of-range
float64-to-int64 conversion (see `toDuration`); `none` is a panic. -/
def addTime (conv : ℚ → Int) (s : Statistics) (t : Int) : Option Statistics :=
  match BinarySearch s.times t with
  | none => none
  | some (i, _) =>
    match Insert s.times i t with
    | none => none
    | some times =>
      let max := if t > s.max then t else s.max
      let min := if t < s.min then t else s.min
      let avg := toDuration conv (fmul (avgSeconds times) (ofInt Second))
      let sd := toDuration conv (fmul (sdSeconds times) (ofInt Second))
      match times[times.length / 2]?, times[times.length * 3 / 4]?,
          times[times.length * 9 / 10]?, times[times.length * 19 / 20]?,
          times[times.length * 99 / 100]? with
      | some p50, some p75, some p90, some p95, some p99 =>
        some { times := times, current := t, avg := avg, max := max, min := min, sd := sd,
               p50 := p50, p75 := p75, p90 := p90, p95 := p95, p99 := p99 }
      | _, _, _, _, _ => none

/-- Feeding a sequence of durations one by one to `addTime`, as the loop of `main` does
with the durations it measures. -/
def feed (conv : ℚ → Int) (s : Statistics) : List Int → Option Statistics
  | [] => some s
  | t :: ts =>
    match addTime conv s t with
    | none => none
    | some s1 => feed conv s1 ts

/-- A fused multiply-add: `x * y + z` with one rounding. -/
def fma (x y z : ℚ) : ℚ := rnd (x * y + z)

/-- The local `sdSeconds` of `addTime` after the square root, for either way a Go
compiler may evaluate `sdSeconds += d * d` of line 69 (the language allows an
implementation to fuse `x*y + z`): with `fused` the product is not rounded before the
addition, as on arm64; without it product and sum are rounded separately, as on amd64 by
default, which is `sdSeconds`. No other statement of `addTime` has a product feeding a
sum. -/
def sdSecondsOn (fused : Bool) (times : List Int) : ℚ :=
  let avg := avgSeconds times
  fsqrt (fdiv
    (times.foldl
      (fun acc t =>
        if fused then fma (fsub (Seconds t) avg) (fsub (Seconds t) avg) acc
        else fadd acc (fmul (fsub (Seconds t) avg) (fsub (Seconds t) avg))) 0)
    (ofInt times.length))

/-- The method `Statistics.addTime` on a build that evaluates line 69 as `sdSecondsOn fused`
does; with `fused = false` it is `addTime`. -/
def addTimeOn (fused : Bool) (conv : ℚ → Int) (s : Statistics) (t : Int) : Option Statistics :=
  match BinarySearch s.times t with
  | none => none
  | some (i, _) =>
    match Insert s.times i t with
    | none => none
    | some times =>
      let max := if t > s.max then t else s.max
      let min := if t < s.min then t else s.min
      let avg := toDuration conv (fmul (avgSeconds times) (ofInt Second))
      let sd := toDuration conv (fmul (sdSecondsOn fused times) (ofInt Second))
      match times[times.length / 2]?, times[times.length * 3 / 4]?,
          times[times.length * 9 / 10]?, times[times.length * 19 / 20]?,
          times[times.length * 99 / 100]? with
      | some p50, some p75, some p90, some p95, some p99 =>
        some { times := times, current := t, avg := avg, max := max, min := min, sd := sd,
               p50 := p50, p75 := p75, p90 := p90, p95 := p95, p99 := p99 }
      | _, _, _, _, _ => none

/-- Feeding a sequence of durations one by one to `addTimeOn`. -/
def feedOn (fused : Bool) (conv : ℚ → Int) (s : Statistics) : List Int → Option Statistics
  | [] => some s
  | t :: ts =>
    match addTimeOn fused conv s t with
    | none => none
    | some s1 => feedOn fused conv s1 ts

/-! ## The formatter and the driver loop -/

/-- The method `Duration.Milliseconds` of package `time`: `int64(d) / 1e6`, Go's integer
division, which truncates toward zero. -/
def Milliseconds (d : Int) : Int := Int.tdiv d 1000000

/-- The verb `%d` of package `fmt` on an integer: its decimal digits, with a leading
minus sign when it is negative. -/
def fmtD (n : Int) : String :=
  if n < 0 then "-" ++ Nat.repr n.natAbs else Nat.repr n.natAbs

/-- The scan of `fmt.Sprintf` over the format, for formats whose only verb is `%d` and
integer operands: a `%d` is replaced by the next operand (by `%!d(MISSING)` when none is
left), every other character is copied. Operands left over at the end, for which Go
appends an `%!(EXTRA ...)` note, are not modelled; `getString` passes as many operands as
its format has verbs. -/
def sprintfAux : List Char → List Int → List Char
  | '%' :: 'd' :: cs, a :: as => (fmtD a).toList ++ sprintfAux cs as
  | '%' :: 'd' :: cs, [] => "%!d(MISSING)".toList ++ sprintfAux cs []
  | c :: cs, as => c :: sprintfAux cs as
  | [], _ => []

/-- The function `fmt.Sprintf(format, args...)`, see `sprintfAux`. -/
def Sprintf (format : String) (args : List Int) : String :=
  String.mk (sprintfAux format.toList args)

/-- The method `Statistics.getString`. It assigns nothing, so it is a function of the
state. -/
def getString (s : Statistics) : String :=
  Sprintf
    ("Count: %d | Current: %dms\n" ++
      "Min: %dms | Max: %dms | Avg: %dms +/- Std: %dms\n" ++
      "p50: %dms | p75: %dms | p90: %dms | p95: %dms | p99: %dms\n")
    [(s.times.length : Int), Milliseconds s.current, Milliseconds s.min, Milliseconds s.max,
      Milliseconds s.avg, Milliseconds s.sd, Milliseconds s.p50, Milliseconds s.p75,
      Milliseconds s.p90, Milliseconds s.p95, Milliseconds s.p99]

/-- A call `s.getString()` through the pointer receiver, in state-passing form: the text
returned and the state the receiver points to after the call. The body of the method is
the single statement `return fmt.Sprintf(...)`; it reads the eleven operands and assigns
no field. -/
def getStringCall (s : Statistics) : String × Statistics := (getString s, s)

/-- What one call of `getRequest` returned: the measured duration `time.Since(t0)` and the
error of `http.Get` (`none` for `nil`, otherwise its message). -/
structure Response where
  t : Int
  err : Option String

/-- What `main` writes: to standard output (`fmt.Printf`) or to the live display
(`fmt.Fprint(writer, ...)`). -/
inductive Output where
  | stdout (text : String)
  | display (text : String)

/-- One pass through the body of the `for` loop of `main`, given what `getRequest`
returned: print the error if there is one, call `stats.addTime(t)`, show
`stats.getString()`, and evaluate the `break` test
`*count > 0 && len(stats.times) >= *count`. The result is the new state, what was
written, and whether the loop breaks. -/
def loopBody (conv : ℚ → Int) (count : Int) (stats : Statistics) (r : Response) :
    Option (Statistics × List Output × Bool) :=
  let printed : List Output :=
    match r.err with
    | some e => [Output.stdout ("Error: " ++ e ++ "\n")]
    | none => []
  match addTime conv stats r.t with
  | none => none
  | some s1 =>
    some (s1, printed ++ [Output.display (getString s1)],
      decide (count > 0 ∧ (s1.times.length : Int) ≥ count))

/-- The `for` loop of `main` run against the successive results of `getRequest`: it stops
at the `break`, or when the given results are used up (the state and output so far of a
run that is still going). -/
def mainLoop (conv : ℚ → Int) (count : Int) :
    Statistics → List Response → Option (Statistics × List Output)
  | s, [] => some (s, [])
  | s, r :: rs =>
    match loopBody conv count s r with
    | none => none
    | some (s1, out, true) => some (s1, out)
    | some (s1, out, false) =>
      match mainLoop conv count s1 rs with
      | none => none
      | some (s2, out2) => some (s2, out ++ out2)

/-! ## Predicates used to state the properties -/

/-- Position `r` splits `x` at `t`: everything before it is smaller than `t`, everything
from it on is at least `t`. -/
def IsLowerBound (x : List Int) (t : Int) (r : Nat) : Prop :=
  r ≤ x.length ∧ (∀ k v, x[k]? = some v → k < r → v < t) ∧
    (∀ k v, x[k]? = some v → r ≤ k → t ≤ v)

/-- What one successful `addTime(t)` has written into the struct, read off the body of
the method: the new slice, `current`, the two running extremes, the two float64
aggregates and the five percentile reads. -/
structure Step (conv : ℚ → Int) (s : Statistics) (t : Int) (r : Nat) (s1 : Statistics) :
    Prop where
  times : s1.times = s.times.take r ++ t :: s.times.drop r
  current : s1.current = t
  max : s1.max = if t > s.max then t else s.max
  min : s1.min = if t < s.min then t else s.min
  avg : s1.avg = toDuration conv (fmul (avgSeconds s1.times) (ofInt Second))
  sd : s1.sd = toDuration conv (fmul (sdSeconds s1.times) (ofInt Second))
  p50 : s1.times[s1.times.length / 2]? = some s1.p50
  p75 : s1.times[s1.times.length * 3 / 4]? = some s1.p75
  p90 : s1.times[s1.times.length * 9 / 10]? = some s1.p90
  p95 : s1.times[s1.times.length * 19 / 20]? = some s1.p95
  p99 : s1.times[s1.times.length * 99 / 100]? = some s1.p99

/-- The order-statistics part of the state after the samples `ts` have been fed to a
fresh `newStats()`: the slice is the sorted rearrangement of `ts`; `max` is at least `0`
and every sample, and is `0` or a sample; `min` is at most `math.MaxInt64` and every
sample, and is `math.MaxInt64` or a sample. -/
structure Reach (ts : List Int) (s : Statistics) : Prop where
  sorted : s.times.Sorted (· ≤ ·)
  perm : s.times.Perm ts
  max_nonneg : 0 ≤ s.max
  max_ge : ∀ t ∈ ts, t ≤ s.max
  max_mem : s.max = 0 ∨ s.max ∈ ts
  min_le_top : s.min ≤ maxInt64
  min_le : ∀ t ∈ ts, s.min ≤ t
  min_mem : s.min = maxInt64 ∨ s.min ∈ ts

/-- What the last `addTime` call has left in the derived fields. -/
structure Derived (conv : ℚ → Int) (s : Statistics) : Prop where
  avg : s.avg = toDuration conv (fmul (avgSeconds s.times) (ofInt Second))
  sd : s.sd = toDuration conv (fmul (sdSeconds s.times) (ofInt Second))
  p50 : s.times[s.times.length / 2]? = some s.p50
  p75 : s.times[s.times.length * 3 / 4]? = some s.p75
  p90 : s.times[s.times.length * 9 / 10]? = some s.p90
  p95 : s.times[s.times.length * 19 / 20]? = some s.p95
  p99 : s.times[s.times.length * 99 / 100]? = some s.p99

/-! ## Sorted slices and the binary search -/

theorem sorted_getElem?_le {x : List Int} (hs : x.Sorted (· ≤ ·)) {a b : Nat} {va vb : Int}
    (hab : a ≤ b) (ha : x[a]? = some va) (hb : x[b]? = some vb) : va ≤ vb := by
  obtain ⟨ha1, ha2⟩ := List.getElem?_eq_some.mp ha
  obtain ⟨hb1, hb2⟩ := List.getElem?_eq_some.mp hb
  rcases Nat.eq_or_lt_of_le hab with h | h
  · subst h
    rw [← ha2, ← hb2]
  · have := (List.pairwise_iff_getElem.mp hs) a b ha1 hb1 h
    rw [← ha2, ← hb2]
    exact this

/-- The loop of `slices.BinarySearch` on a sorted slice: with the loop invariant
(`x[i-1] < target`, `x[j] >= target`) and a bound of at least `j - i` iterations it
returns a position that splits the slice at the target. -/
theorem binarySearchLoop_sorted (x : List Int) (t : Int) (hs : x.Sorted (· ≤ ·)) :
    ∀ (fuel i j : Nat), i ≤ j → j ≤ x.length → j - i ≤ fuel →
      (∀ k v, x[k]? = some v → k < i → v < t) →
      (∀ k v, x[k]? = some v → j ≤ k → t ≤ v) →
      ∃ r, binarySearchLoop x t fuel i j = some r ∧ IsLowerBound x t r := by
  intro fuel
  induction fuel with
  | zero =>
    intro i j hij hj hf hlo hhi
    have hEq : i = j := by omega
    subst hEq
    exact ⟨i, by simp [binarySearchLoop], hj, hlo, hhi⟩
  | succ n ih =>
    intro i j hij hj hf hlo hhi
    by_cases hlt : i < j
    · have hh : (i + j) / 2 < x.length := by omega
      obtain ⟨xh, hxh⟩ : ∃ xh, x[(i + j) / 2]? = some xh :=
        ⟨x[(i + j) / 2], List.getElem?_eq_getElem hh⟩
      by_cases hc : xh < t
      · obtain ⟨r, hr, hlb⟩ := ih ((i + j) / 2 + 1) j (by omega) hj (by omega)
          (fun k v hk hki =>
            lt_of_le_of_lt (sorted_getElem?_le hs (by omega) hk hxh) hc) hhi
        exact ⟨r, by simp [binarySearchLoop, hlt, hxh, hc, hr], hlb⟩
      · obtain ⟨r, hr, hlb⟩ := ih i ((i + j) / 2) (by omega) (by omega) (by omega) hlo
          (fun k v hk hjk =>
            le_trans (not_lt.mp hc) (sorted_getElem?_le hs hjk hxh hk))
        exact ⟨r, by simp [binarySearchLoop, hlt, hxh, hc, hr], hlb⟩
    · have hEq : i = j := by omega
      subst hEq
      exact ⟨i, by simp [binarySearchLoop], hj, hlo, hhi⟩

/-- On a sorted slice `slices.BinarySearch` returns a position that splits the slice at
the target. -/
theorem BinarySearch_sorted (x : List Int) (t : Int) (hs : x.Sorted (· ≤ ·)) :
    ∃ r b, BinarySearch x t = some (r, b) ∧ IsLowerBound x t r := by
  obtain ⟨r, hr, hlb⟩ := binarySearchLoop_sorted x t hs x.length 0 x.length
    (Nat.zero_le _) (Nat.le_refl _) (by omega) (fun k v _ hk => absurd hk (Nat.not_lt_zero k))
    (fun k v hk hlen => by
      rw [List.getElem?_eq_none hlen] at hk
      cases hk)
  refine ⟨r, decide (r < x.length) && (x[r]? == some t), ?_, hlb⟩
  simp only [BinarySearch, hr]

theorem IsLowerBound.mem_take {x : List Int} {t : Int} {r : Nat} (h : IsLowerBound x t r)
    {v : Int} (hv : v ∈ x.take r) : v < t := by
  obtain ⟨k, hk⟩ := List.mem_iff_getElem?.mp hv
  rw [List.getElem?_take] at hk
  by_cases hkr : k < r
  · rw [if_pos hkr] at hk
    exact h.2.1 k v hk hkr
  · rw [if_neg hkr] at hk
    cases hk

theorem IsLowerBound.mem_drop {x : List Int} {t : Int} {r : Nat} (h : IsLowerBound x t r)
    {v : Int} (hv : v ∈ x.drop r) : t ≤ v := by
  obtain ⟨k, hk⟩ := List.mem_iff_getElem?.mp hv
  rw [List.getElem?_drop] at hk
  exact h.2.2 (r + k) v hk (Nat.le_add_right r k)

/-- Inserting the target at a splitting position keeps a sorted slice sorted. -/
theorem sorted_insert_at {x : List Int} {t : Int} {r : Nat} (hs : x.Sorted (· ≤ ·))
    (h : IsLowerBound x t r) : (x.take r ++ t :: x.drop r).Sorted (· ≤ ·) := by
  have hx : (x.take r ++ x.drop r).Sorted (· ≤ ·) := by
    rw [List.take_append_drop]
    exact hs
  obtain ⟨h1, h2, h3⟩ := List.pairwise_append.mp hx
  refine List.pairwise_append.mpr ⟨h1, List.pairwise_cons.mpr ⟨fun v hv => h.mem_drop hv, h2⟩, ?_⟩
  intro a ha b hb
  rcases List.mem_cons.mp hb with hb | hb
  · subst hb
    exact le_of_lt (h.mem_take ha)
  · exact h3 a ha b hb

/-- Inserting the target anywhere gives a permutation of the slice plus the target. -/
theorem perm_insert_at (x : List Int) (t : Int) (r : Nat) :
    (x.take r ++ t :: x.drop r).Perm (t :: x) := by
  have h := @List.perm_middle _ t (x.take r) (x.drop r)
  rwa [List.take_append_drop] at h

/-! ## One call of `addTime` -/

/-- On a state whose slice is sorted, `addTime` does not panic: the binary search
returns a splitting position `r ≤ len`, `slices.Insert` accepts it, and the five
percentile indices are inside the new slice. -/
theorem addTime_sorted (conv : ℚ → Int) (s : Statistics) (t : Int)
    (hs : s.times.Sorted (· ≤ ·)) :
    ∃ r b s1, BinarySearch s.times t = some (r, b) ∧ IsLowerBound s.times t r ∧
      Insert s.times r t = some (s.times.take r ++ t :: s.times.drop r) ∧
      addTime conv s t = some s1 ∧ Step conv s t r s1 := by
  obtain ⟨r, b, hbs, hlb⟩ := BinarySearch_sorted s.times t hs
  have hins : Insert s.times r t = some (s.times.take r ++ t :: s.times.drop r) := by
    simp [Insert, hlb.1]
  have hlen : (s.times.take r ++ t :: s.times.drop r).length = s.times.length + 1 := by
    have := hlb.1
    simp only [List.length_append, List.length_take, List.length_cons, List.length_drop]
    omega
  generalize hT : s.times.take r ++ t :: s.times.drop r = T at hins hlen
  have b50 : T.length / 2 < T.length := by omega
  have b75 : T.length * 3 / 4 < T.length := by omega
  have b90 : T.length * 9 / 10 < T.length := by omega
  have b95 : T.length * 19 / 20 < T.length := by omega
  have b99 : T.length * 99 / 100 < T.length := by omega
  have e50 : T[T.length / 2]? = some T[T.length / 2] := List.getElem?_eq_getElem b50
  have e75 : T[T.length * 3 / 4]? = some T[T.length * 3 / 4] := List.getElem?_eq_getElem b75
  have e90 : T[T.length * 9 / 10]? = some T[T.length * 9 / 10] := List.getElem?_eq_getElem b90
  have e95 : T[T.length * 19 / 20]? = some T[T.length * 19 / 20] :=
    List.getElem?_eq_getElem b95
  have e99 : T[T.length * 99 / 100]? = some T[T.length * 99 / 100] :=
    List.getElem?_eq_getElem b99
  have hadd : addTime conv s t = some
      { times := T, current := t,
        avg := toDuration conv (fmul (avgSeconds T) (ofInt Second)),
        max := if t > s.max then t else s.max,
        min := if t < s.min then t else s.min,
        sd := toDuration conv (fmul (sdSeconds T) (ofInt Second)),
        p50 := T[T.length / 2], p75 := T[T.length * 3 / 4],
        p90 := T[T.length * 9 / 10], p95 := T[T.length * 19 / 20],
        p99 := T[T.length * 99 / 100] } := by
    simp only [addTime, hbs, hins, e50, e75, e90, e95, e99]
  exact ⟨r, b, _, hbs, hlb, hT ▸ hins, hadd,
    ⟨hT.symm, rfl, rfl, rfl, rfl, rfl, e50, e75, e90, e95, e99⟩⟩

/-! ## Reachable states -/

theorem reach_newStats : Reach [] newStats :=
  ⟨List.sorted_nil, List.Perm.refl _, le_refl _, fun _ h => absurd h (List.not_mem_nil _),
    Or.inl rfl, le_refl _, fun _ h => absurd h (List.not_mem_nil _), Or.inl rfl⟩

theorem Step.derived {conv : ℚ → Int} {s s1 : Statistics} {t : Int} {r : Nat}
    (h : Step conv s t r s1) : Derived conv s1 :=
  ⟨h.avg, h.sd, h.p50, h.p75, h.p90, h.p95, h.p99⟩

/-- One `addTime` keeps the reachable-state description, for the samples plus `t`. -/
theorem Step.reach {conv : ℚ → Int} {s s1 : Statistics} {t : Int} {r : Nat} {pre : List Int}
    (h : Step conv s t r s1) (hlb : IsLowerBound s.times t r) (hr : Reach pre s) :
    Reach (pre ++ [t]) s1 := by
  have hmem : ∀ v, v ∈ pre ++ [t] ↔ v ∈ pre ∨ v = t := by
    intro v
    simp [List.mem_append]
  refine ⟨?_, ?_, ?_, ?_, ?_, ?_, ?_, ?_⟩
  · rw [h.times]
    exact sorted_insert_at hr.sorted hlb
  · rw [h.times]
    exact (perm_insert_at s.times t r).trans
      ((List.Perm.cons t hr.perm).trans (List.perm_append_singleton t pre).symm)
  · rw [h.max]
    have := hr.max_nonneg
    split <;> omega
  · intro v hv
    rw [h.max]
    rcases (hmem v).mp hv with hv | hv
    · have := hr.max_ge v hv
      split <;> omega
    · subst hv
      split <;> omega
  · rw [h.max]
    split
    · exact Or.inr ((hmem _).mpr (Or.inr rfl))
    · rcases hr.max_mem with h0 | h0
      · exact Or.inl h0
      · exact Or.inr ((hmem _).mpr (Or.inl h0))
  · rw [h.min]
    have := hr.min_le_top
    split <;> omega
  · intro v hv
    rw [h.min]
    rcases (hmem v).mp hv with hv | hv
    · have := hr.min_le v hv
      split <;> omega
    · subst hv
      split <;> omega
  · rw [h.min]
    split
    · exact Or.inr ((hmem _).mpr (Or.inr rfl))
    · rcases hr.min_mem with h0 | h0
      · exact Or.inl h0
      · exact Or.inr ((hmem _).mpr (Or.inl h0))

/-- Feeding any samples to a reachable state succeeds and gives a reachable state. -/
theorem feed_reach (conv : ℚ → Int) (ts : List Int) :
    ∀ (pre : List Int) (s : Statistics), Reach pre s →
      ∃ s1, feed conv s ts = some s1 ∧ Reach (pre ++ ts) s1 ∧
        (ts ≠ [] → Derived conv s1) := by
  induction ts with
  | nil =>
    intro pre s hr
    exact ⟨s, rfl, by simpa using hr, fun h => absurd rfl h⟩
  | cons t ts ih =>
    intro pre s hr
    obtain ⟨r, b, s1, _, hlb, _, hadd, hstep⟩ := addTime_sorted conv s t hr.sorted
    obtain ⟨s2, hfeed, hr2, hd2⟩ := ih (pre ++ [t]) s1 (hstep.reach hlb hr)
    refine ⟨s2, by simp only [feed, hadd, hfeed], by simpa using hr2, fun _ => ?_⟩
    cases ts with
    | nil =>
      simp only [feed, Option.some.injEq] at hfeed
      subst hfeed
      exact hstep.derived
    | cons u us => exact hd2 (List.cons_ne_nil u us)

/-- The state after feeding `ts` to a fresh `newStats()`. -/
theorem feed_newStats (conv : ℚ → Int) (ts : List Int) :
    ∃ s, feed conv newStats ts = some s ∧ Reach ts s ∧ (ts ≠ [] → Derived conv s) := by
  simpa using feed_reach conv ts [] newStats reach_newStats

/-! ## float64: facts about the rounding -/

theorem roundHalfEven_sub_le (q : ℚ) : |(roundHalfEven q : ℚ) - q| ≤ 1 / 2 := by
  have h1 : (⌊q⌋ : ℚ) ≤ q := Int.floor_le q
  have h2 : q < (⌊q⌋ : ℚ) + 1 := Int.lt_floor_add_one q
  unfold roundHalfEven
  simp only
  split_ifs with ha hb hc
  · rw [abs_le]; constructor <;> linarith
  · rw [abs_le]; push_cast; constructor <;> linarith
  · rw [abs_le]; constructor <;> linarith
  · rw [abs_le]; push_cast; constructor <;> linarith

/-- A rational within less than one half of an integer rounds to it; at exactly one
half, it rounds to it when it is even. -/
theorem roundHalfEven_eq (q : ℚ) (n : Int)
    (h : |q - n| < 1 / 2 ∨ (|q - n| = 1 / 2 ∧ n % 2 = 0)) : roundHalfEven q = n := by
  have h1 : (⌊q⌋ : ℚ) ≤ q := Int.floor_le q
  have h2 : q < (⌊q⌋ : ℚ) + 1 := Int.lt_floor_add_one q
  have hcast : ∀ a b : Int, (a : ℚ) < (b : ℚ) + 1 → a ≤ b := by
    intro a b hab
    have : (a : ℚ) < ((b + 1 : Int) : ℚ) := by push_cast; exact hab
    have := Int.cast_lt.mp this
    omega
  unfold roundHalfEven
  simp only
  rcases h with h | ⟨h, hev⟩
  · rw [abs_lt] at h
    have hle : ⌊q⌋ ≤ n := hcast _ _ (by linarith)
    have hge : n ≤ ⌊q⌋ + 1 := by
      have := hcast n (⌊q⌋ + 1) (by push_cast; linarith)
      exact this
    rcases (by omega : n = ⌊q⌋ ∨ n = ⌊q⌋ + 1) with hn | hn
    · have hq : (n : ℚ) = (⌊q⌋ : ℚ) := by rw [hn]
      rw [if_pos (by linarith)]
      exact hn.symm
    · have hq : (n : ℚ) = (⌊q⌋ : ℚ) + 1 := by rw [hn]; push_cast; rfl
      rw [if_neg (by linarith), if_pos (by linarith)]
      exact hn.symm
  · have hle : ⌊q⌋ ≤ n := hcast _ _ (by have := (abs_le.mp (le_of_eq h)).2; linarith)
    have hge : n ≤ ⌊q⌋ + 1 := by
      have := hcast n (⌊q⌋ + 1) (by push_cast; have := (abs_le.mp (le_of_eq h)).1; linarith)
      exact this
    rcases (by omega : n = ⌊q⌋ ∨ n = ⌊q⌋ + 1) with hn | hn
    · have hq : (n : ℚ) = (⌊q⌋ : ℚ) := by rw [hn]
      have hr : q - (⌊q⌋ : ℚ) = 1 / 2 := by
        rw [hq, abs_of_nonneg (by linarith)] at h
        exact h
      rw [if_neg (by linarith), if_neg (by linarith), if_pos (by rw [← hn]; exact hev)]
      exact hn.symm
    · have hq : (n : ℚ) = (⌊q⌋ : ℚ) + 1 := by rw [hn]; push_cast; rfl
      have hr : q - (⌊q⌋ : ℚ) = 1 / 2 := by
        rw [hq, abs_of_nonpos (by linarith)] at h
        linarith
      have hodd : ¬ (⌊q⌋ % 2 = 0) := by omega
      rw [if_neg (by linarith), if_neg (by linarith), if_neg hodd]
      exact hn.symm

theorem roundHalfEven_intCast (n : Int) : roundHalfEven (n : ℚ) = n :=
  roundHalfEven_eq _ n (Or.inl (by simp))

theorem roundHalfEven_nonneg {q : ℚ} (h : 0 ≤ q) : 0 ≤ roundHalfEven q := by
  have h1 : 0 ≤ ⌊q⌋ := Int.floor_nonneg.mpr h
  unfold roundHalfEven
  simp only
  split_ifs <;> omega

theorem two_zpow_pos (e : Int) : (0 : ℚ) < (2 : ℚ) ^ e := zpow_pos (by norm_num) e

/-- Characterisation of the binary exponent of a non-zero rational. -/
theorem log_abs_bounds {q : ℚ} (hq : q ≠ 0) :
    (2 : ℚ) ^ Int.log 2 |q| ≤ |q| ∧ |q| < (2 : ℚ) ^ (Int.log 2 |q| + 1) := by
  have hpos : 0 < |q| := abs_pos.mpr hq
  have h1 := Int.zpow_log_le_self (b := 2) (by norm_num) hpos
  have h2 := Int.lt_zpow_succ_log_self (b := 2) (by norm_num) |q|
  simp only [Nat.cast_ofNat] at h1 h2
  exact ⟨h1, h2⟩

theorem log_abs_eq {q : ℚ} {e : Int} (h1 : (2 : ℚ) ^ e ≤ |q|) (h2 : |q| < (2 : ℚ) ^ (e + 1)) :
    Int.log 2 |q| = e := by
  have hpos : 0 < |q| := lt_of_lt_of_le (two_zpow_pos e) h1
  have a : e ≤ Int.log 2 |q| := by
    apply (Int.zpow_le_iff_le_log (b := 2) (by norm_num) hpos).mp
    simpa using h1
  have b : Int.log 2 |q| < e + 1 := by
    apply (Int.lt_zpow_iff_log_lt (b := 2) (by norm_num) hpos).mp
    simpa using h2
  omega

theorem rnd_zero : rnd 0 = 0 := by simp [rnd]

theorem rnd_of_ne_zero {q : ℚ} (hq : q ≠ 0) :
    rnd q = (roundHalfEven (q / (2 : ℚ) ^ ulpExp q) : ℚ) * (2 : ℚ) ^ ulpExp q := by
  simp [rnd, hq]

/-- Evaluating a rounding from a certificate: the binade `e` of `q` and the integer
significand `n` nearest to `q / 2 ^ (e - 52)`. -/
theorem rnd_eq_of {q : ℚ} {e n : Int} (h1 : (2 : ℚ) ^ e ≤ |q|) (h2 : |q| < (2 : ℚ) ^ (e + 1))
    (he : -1022 ≤ e)
    (hn : |q / (2 : ℚ) ^ (e - 52) - n| < 1 / 2 ∨
      (|q / (2 : ℚ) ^ (e - 52) - n| = 1 / 2 ∧ n % 2 = 0)) :
    rnd q = (n : ℚ) * (2 : ℚ) ^ (e - 52) := by
  have hq : q ≠ 0 := by
    intro h
    rw [h, abs_zero] at h1
    exact absurd h1 (not_le.mpr (two_zpow_pos e))
  have hu : ulpExp q = e - 52 := by
    unfold ulpExp
    rw [log_abs_eq h1 h2]
    omega
  rw [rnd_of_ne_zero hq, hu, roundHalfEven_eq _ n hn]

/-- The rounding error is at most half a unit in the last place. -/
theorem rnd_abs_sub_le {q : ℚ} (hq : q ≠ 0) : |rnd q - q| ≤ (2 : ℚ) ^ ulpExp q / 2 := by
  have hu := two_zpow_pos (ulpExp q)
  have h := roundHalfEven_sub_le (q / (2 : ℚ) ^ ulpExp q)
  have e : rnd q - q =
      ((roundHalfEven (q / (2 : ℚ) ^ ulpExp q) : ℚ) - q / (2 : ℚ) ^ ulpExp q) *
        (2 : ℚ) ^ ulpExp q := by
    rw [rnd_of_ne_zero hq]
    field_simp
  rw [e, abs_mul, abs_of_pos hu]
  calc _ ≤ 1 / 2 * (2 : ℚ) ^ ulpExp q := mul_le_mul_of_nonneg_right h (le_of_lt hu)
    _ = (2 : ℚ) ^ ulpExp q / 2 := by ring

theorem rnd_nonneg {q : ℚ} (h : 0 ≤ q) : 0 ≤ rnd q := by
  by_cases hq : q = 0
  · rw [hq, rnd_zero]
  · rw [rnd_of_ne_zero hq]
    have hu := two_zpow_pos (ulpExp q)
    have : 0 ≤ roundHalfEven (q / (2 : ℚ) ^ ulpExp q) :=
      roundHalfEven_nonneg (div_nonneg h (le_of_lt hu))
    exact mul_nonneg (by exact_mod_cast this) (le_of_lt hu)

/-- A value with a significand below `2 ^ 53` and an exponent of at least `-1074` is a
binary64 value: rounding leaves it unchanged. -/
theorem rnd_exact (m x : Int) (hm : |m| < 2 ^ 53) (hx : -1074 ≤ x) :
    rnd ((m : ℚ) * (2 : ℚ) ^ x) = (m : ℚ) * (2 : ℚ) ^ x := by
  by_cases hm0 : m = 0
  · simp [hm0, rnd_zero]
  have hq : (m : ℚ) * (2 : ℚ) ^ x ≠ 0 :=
    mul_ne_zero (by exact_mod_cast hm0) (ne_of_gt (two_zpow_pos x))
  obtain ⟨hlo, _⟩ := log_abs_bounds hq
  set e := Int.log 2 |(m : ℚ) * (2 : ℚ) ^ x| with he
  have habs : |(m : ℚ) * (2 : ℚ) ^ x| < (2 : ℚ) ^ (53 + x) := by
    rw [abs_mul, abs_of_pos (two_zpow_pos x), zpow_add₀ (by norm_num)]
    apply mul_lt_mul_of_pos_right _ (two_zpow_pos x)
    have : ((|m| : Int) : ℚ) < ((2 ^ 53 : Int) : ℚ) := Int.cast_lt.mpr hm
    rw [Int.cast_abs] at this
    norm_num at this ⊢
    exact this
  have hlt : e < 53 + x :=
    (zpow_lt_zpow_iff_right₀ (by norm_num : (1 : ℚ) < 2)).mp (lt_of_le_of_lt hlo habs)
  have hux : ulpExp ((m : ℚ) * (2 : ℚ) ^ x) ≤ x := by
    unfold ulpExp
    rw [← he]
    omega
  obtain ⟨d, hd⟩ : ∃ d : Nat, x = ulpExp ((m : ℚ) * (2 : ℚ) ^ x) + d :=
    ⟨(x - ulpExp ((m : ℚ) * (2 : ℚ) ^ x)).toNat, by omega⟩
  rw [rnd_of_ne_zero hq]
  have hdiv : (m : ℚ) * (2 : ℚ) ^ x / (2 : ℚ) ^ ulpExp ((m : ℚ) * (2 : ℚ) ^ x) =
      ((m * 2 ^ d : Int) : ℚ) := by
    have hu := two_zpow_pos (ulpExp ((m : ℚ) * (2 : ℚ) ^ x))
    rw [div_eq_iff (ne_of_gt hu)]
    nth_rewrite 1 [hd]
    rw [zpow_add₀ (by norm_num), zpow_natCast]
    push_cast
    ring
  rw [hdiv, roundHalfEven_intCast, ← hdiv]
  field_simp

/-- A rounded value is a binary64 value: rounding is idempotent. -/
theorem rnd_idem (q : ℚ) : rnd (rnd q) = rnd q := by
  by_cases hq : q = 0
  · rw [hq, rnd_zero, rnd_zero]
  obtain ⟨_, hhi⟩ := log_abs_bounds hq
  have hu := two_zpow_pos (ulpExp q)
  have hx : -1074 ≤ ulpExp q := le_max_right _ _
  have hge : Int.log 2 |q| - 52 ≤ ulpExp q := le_max_left _ _
  set N := roundHalfEven (q / (2 : ℚ) ^ ulpExp q) with hN
  have hr : rnd q = (N : ℚ) * (2 : ℚ) ^ ulpExp q := rnd_of_ne_zero hq
  have hquot : |q / (2 : ℚ) ^ ulpExp q| < 2 ^ 53 := by
    rw [abs_div, abs_of_pos hu, div_lt_iff₀ hu]
    calc |q| < (2 : ℚ) ^ (Int.log 2 |q| + 1) := hhi
      _ ≤ (2 : ℚ) ^ (53 + ulpExp q) := zpow_le_zpow_right₀ (by norm_num) (by omega)
      _ = 2 ^ 53 * (2 : ℚ) ^ ulpExp q := by
        rw [zpow_add₀ (by norm_num)]
        norm_num
  have hNq : |(N : ℚ)| < 2 ^ 53 + 1 := by
    have h := roundHalfEven_sub_le (q / (2 : ℚ) ^ ulpExp q)
    rw [← hN] at h
    have := abs_sub_abs_le_abs_sub (N : ℚ) (q / (2 : ℚ) ^ ulpExp q)
    linarith
  have hNle : |N| ≤ 2 ^ 53 := by
    have : ((|N| : Int) : ℚ) < ((2 ^ 53 + 1 : Int) : ℚ) := by
      rw [Int.cast_abs]
      norm_num at hNq ⊢
      exact hNq
    have := Int.cast_lt.mp this
    omega
  rw [hr]
  rcases lt_or_eq_of_le hNle with hlt | heq
  · exact rnd_exact N (ulpExp q) hlt hx
  · have hN2 : N = 2 * (N / 2) := by
      rcases abs_cases N with ⟨h1, _⟩ | ⟨h1, _⟩ <;> omega
    have hrew : (N : ℚ) * (2 : ℚ) ^ ulpExp q = ((N / 2 : Int) : ℚ) * (2 : ℚ) ^ (ulpExp q + 1) := by
      rw [zpow_add₀ (by norm_num)]
      nth_rewrite 1 [hN2]
      push_cast
      ring
    rw [hrew]
    exact rnd_exact (N / 2) (ulpExp q + 1)
      (by rcases abs_cases N with ⟨h1, _⟩ | ⟨h1, _⟩ <;>
            rcases abs_cases (N / 2) with ⟨h2, _⟩ | ⟨h2, _⟩ <;> omega)
      (by omega)

theorem ofInt_exact (n : Int) (h : |n| < 2 ^ 53) : ofInt n = (n : ℚ) := by
  have := rnd_exact n 0 h (by norm_num)
  simpa [ofInt] using this

/-- Evaluating the rounding of a positive rational from a certificate, without absolute
values: the binade `e` of `q` and the integer `n` with `n - 1/2 < q / 2 ^ (e - 52) < n + 1/2`. -/
theorem rnd_eq_of_pos {q : ℚ} (e n : Int) (h1 : (2 : ℚ) ^ e ≤ q) (h2 : q < (2 : ℚ) ^ (e + 1))
    (he : -1022 ≤ e) (hlo : (n : ℚ) - 1 / 2 < q / (2 : ℚ) ^ (e - 52))
    (hhi : q / (2 : ℚ) ^ (e - 52) < (n : ℚ) + 1 / 2) :
    rnd q = (n : ℚ) * (2 : ℚ) ^ (e - 52) := by
  have hpos : 0 < q := lt_of_lt_of_le (two_zpow_pos e) h1
  have habs : |q| = q := abs_of_pos hpos
  exact rnd_eq_of (by rw [habs]; exact h1) (by rw [habs]; exact h2) he
    (Or.inl (by rw [abs_lt]; constructor <;> linarith))

/-- In the normal range the relative rounding error is at most `2 ^ (-53)`. -/
theorem rnd_rel {x : ℚ} (h0 : 0 ≤ x) (h : x = 0 ∨ (2 : ℚ) ^ (-1022 : Int) ≤ x) :
    (1 - 1 / 2 ^ 53) * x ≤ rnd x ∧ rnd x ≤ (1 + 1 / 2 ^ 53) * x := by
  rcases h with h | h
  · subst h
    simp [rnd_zero]
  · have hpos : 0 < x := lt_of_lt_of_le (two_zpow_pos _) h
    have hx : x ≠ 0 := ne_of_gt hpos
    have habs : |x| = x := abs_of_pos hpos
    obtain ⟨hlo, _⟩ := log_abs_bounds hx
    have he : -1022 ≤ Int.log 2 |x| := by
      apply (Int.zpow_le_iff_le_log (b := 2) (by norm_num) (abs_pos.mpr hx)).mp
      rw [habs]
      simpa using h
    have hu : ulpExp x = Int.log 2 |x| - 52 := by
      unfold ulpExp
      omega
    have herr := rnd_abs_sub_le hx
    rw [hu, zpow_sub₀ (by norm_num : (2 : ℚ) ≠ 0)] at herr
    have h52 : (2 : ℚ) ^ (52 : Int) = 2 ^ 52 := by norm_num
    rw [h52] at herr
    rw [habs] at hlo herr
    have hb : |rnd x - x| ≤ x / 2 ^ 53 := by
      calc |rnd x - x| ≤ (2 : ℚ) ^ Int.log 2 x / 2 ^ 52 / 2 := herr
        _ = (2 : ℚ) ^ Int.log 2 x / 2 ^ 53 := by ring
        _ ≤ x / 2 ^ 53 := div_le_div_of_nonneg_right hlo (by norm_num)
    rw [abs_le] at hb
    constructor <;> linarith [hb.1, hb.2]

theorem ofInt_one : ofInt 1 = 1 := by
  have := ofInt_exact 1 (by norm_num)
  simpa using this

theorem ofInt_zero : ofInt 0 = 0 := by simp [ofInt, rnd_zero]

theorem ofInt_Second : ofInt Second = 1000000000 := by
  have := ofInt_exact Second (by norm_num [Second])
  simpa [Second] using this

/-- The method `Seconds` returns a float64. -/
theorem rnd_Seconds (t : Int) : rnd (Seconds t) = Seconds t := by
  simp only [Seconds, fadd]
  exact rnd_idem _

/-- With one sample the mean in seconds is that sample in seconds. -/
theorem avgSeconds_singleton (t : Int) : avgSeconds [t] = Seconds t := by
  simp only [avgSeconds, List.foldl, fadd, fdiv, zero_add, List.length_singleton,
    Nat.cast_one, ofInt_one, div_one, rnd_Seconds]

/-- With one sample the deviation in seconds is zero. -/
theorem sdSeconds_singleton (t : Int) : sdSeconds [t] = 0 := by
  simp only [sdSeconds, avgSeconds_singleton, List.foldl, fadd, fmul, fsub, fdiv, sub_self,
    rnd_zero, mul_zero, zero_add, List.length_singleton, Nat.cast_one, ofInt_one, div_one,
    fsqrt, le_refl, if_true]

theorem toDuration_of_floor {conv : ℚ → Int} {f : ℚ} (h0 : 0 ≤ f) (hr : isInt64 ⌊f⌋) :
    toDuration conv f = ⌊f⌋ := by
  unfold toDuration
  simp only [if_pos h0]
  exact if_pos hr

theorem toDuration_zero (conv : ℚ → Int) : toDuration conv 0 = 0 := by
  rw [toDuration_of_floor (le_refl _) (by simp [isInt64, minInt64, maxInt64])]
  simp

/-- The seconds of a non-negative `int64` duration, with the two exact conversions
removed. -/
theorem Seconds_of_nonneg {t : Int} (h0 : 0 ≤ t) (h64 : t ≤ maxInt64) :
    Seconds t = rnd (((t / Second : Int) : ℚ) + rnd (((t % Second : Int) : ℚ) / 1000000000)) := by
  have hs : (0 : Int) ≤ Second := by norm_num [Second]
  have e1 : Int.tdiv t Second = t / Second := Int.tdiv_eq_ediv h0 hs
  have e2 : Int.tmod t Second = t % Second := Int.tmod_eq_emod h0 hs
  have b1 : |t / Second| < 2 ^ 53 := by
    have : 0 ≤ t / Second := Int.ediv_nonneg h0 hs
    have : t / Second ≤ t := Int.ediv_le_self _ h0
    rw [abs_of_nonneg ‹0 ≤ t / Second›]
    unfold maxInt64 at h64
    unfold Second at *
    omega
  have b2 : |t % Second| < 2 ^ 53 := by
    have : 0 ≤ t % Second := Int.emod_nonneg _ (by norm_num [Second])
    have : t % Second < Second := Int.emod_lt_of_pos _ (by norm_num [Second])
    rw [abs_of_nonneg ‹0 ≤ t % Second›]
    unfold Second at *
    omega
  simp only [Seconds, e1, e2, fadd, fdiv, ofInt_exact _ b1, ofInt_exact _ b2]

theorem tiny_le_of_le {x : ℚ} (h : 1 / 2 ^ 40 ≤ x) : (2 : ℚ) ^ (-1022 : Int) ≤ x := by
  have h1 : (2 : ℚ) ^ (-1022 : Int) ≤ (2 : ℚ) ^ (-40 : Int) :=
    zpow_le_zpow_right₀ (by norm_num) (by norm_num)
  have h2 : (2 : ℚ) ^ (-40 : Int) = 1 / 2 ^ 40 := by norm_num
  exact le_trans (le_trans h1 (le_of_eq h2)) h

/-- The float64 product `Seconds(t) * 1e9` of a duration `1 ≤ t < 2 ^ 51` is strictly
within one nanosecond of `t`: each of the three roundings on the way (the quotient
`nsec / 1e9`, the sum with `sec`, the product) has relative error at most `2 ^ (-53)`. -/
theorem seconds_round_trip {t : Int} (h1 : 1 ≤ t) (h51 : t < 2 ^ 51) :
    (t : ℚ) - 1 < fmul (Seconds t) (ofInt Second) ∧
      fmul (Seconds t) (ofInt Second) < (t : ℚ) + 1 := by
  have h0 : 0 ≤ t := by omega
  have h64 : t ≤ maxInt64 := by unfold maxInt64; omega
  have hsec : (0 : Int) < Second := by norm_num [Second]
  rw [Seconds_of_nonneg h0 h64, ofInt_Second, fmul]
  -- the two integer parts
  have hs0 : (0 : ℚ) ≤ ((t / Second : Int) : ℚ) := by
    exact_mod_cast Int.ediv_nonneg h0 (le_of_lt hsec)
  have hn0 : (0 : ℚ) ≤ ((t % Second : Int) : ℚ) := by
    exact_mod_cast Int.emod_nonneg t (ne_of_gt hsec)
  have hsplit : ((t / Second : Int) : ℚ) * 1000000000 + ((t % Second : Int) : ℚ) = (t : ℚ) := by
    have := Int.ediv_add_emod t Second
    have h2 : ((Second * (t / Second) + t % Second : Int) : ℚ) = (t : ℚ) := by rw [this]
    push_cast at h2
    simp only [Second] at h2 ⊢
    push_cast at h2
    linarith
  have hT1 : (1 : ℚ) ≤ (t : ℚ) := by exact_mod_cast h1
  have hT51 : (t : ℚ) < 2 ^ 51 := by exact_mod_cast h51
  generalize ((t / Second : Int) : ℚ) = s at hs0 hsplit
  have hn01 : ((t % Second : Int) : ℚ) = 0 ∨ (1 : ℚ) ≤ ((t % Second : Int) : ℚ) := by
    rcases (by have := Int.emod_nonneg t (ne_of_gt hsec); omega :
      t % Second = 0 ∨ 1 ≤ t % Second) with h | h
    · left
      exact_mod_cast h
    · right
      exact_mod_cast h
  generalize ((t % Second : Int) : ℚ) = n at hn0 hsplit hn01
  generalize (t : ℚ) = T at hsplit hT1 hT51
  -- first rounding: the quotient
  have hy0 : 0 ≤ n / 1000000000 := by positivity
  have hy : n / 1000000000 = 0 ∨ (2 : ℚ) ^ (-1022 : Int) ≤ n / 1000000000 := by
    rcases hn01 with h | h
    · left
      rw [h]
      norm_num
    · right
      apply tiny_le_of_le
      rw [le_div_iff₀ (by norm_num)]
      norm_num
      linarith
  obtain ⟨ha1, ha2⟩ := rnd_rel hy0 hy
  generalize rnd (n / 1000000000) = a at ha1 ha2
  -- second rounding: the sum
  have hx2lo : (1 - 1 / 2 ^ 53) * (T / 1000000000) ≤ s + a := by
    have : T / 1000000000 = s + n / 1000000000 := by rw [← hsplit]; ring
    rw [this]
    nlinarith
  have hx2hi : s + a ≤ (1 + 1 / 2 ^ 53) * (T / 1000000000) := by
    have : T / 1000000000 = s + n / 1000000000 := by rw [← hsplit]; ring
    rw [this]
    nlinarith
  have hTq : 1 / 1000000000 ≤ T / 1000000000 :=
    div_le_div_of_nonneg_right hT1 (by norm_num)
  have hx20 : 0 ≤ s + a := by nlinarith
  have hx2 : s + a = 0 ∨ (2 : ℚ) ^ (-1022 : Int) ≤ s + a := by
    right
    apply tiny_le_of_le
    nlinarith
  obtain ⟨hS1, hS2⟩ := rnd_rel hx20 hx2
  generalize rnd (s + a) = S at hS1 hS2
  -- third rounding: the product
  have hx3lo : (1 - 1 / 2 ^ 53) * ((1 - 1 / 2 ^ 53) * T) ≤ S * 1000000000 := by nlinarith
  have hx3hi : S * 1000000000 ≤ (1 + 1 / 2 ^ 53) * ((1 + 1 / 2 ^ 53) * T) := by nlinarith
  have hx30 : 0 ≤ S * 1000000000 := by nlinarith
  have hx3 : S * 1000000000 = 0 ∨ (2 : ℚ) ^ (-1022 : Int) ≤ S * 1000000000 := by
    right
    apply tiny_le_of_le
    nlinarith
  obtain ⟨hP1, hP2⟩ := rnd_rel hx30 hx3
  generalize rnd (S * 1000000000) = P at hP1 hP2
  constructor <;> nlinarith

/-- Certificate for a rounding away from a tie, with the value spelled out. -/
theorem rnd_eq_of_pos_val {q v : ℚ} (e n : Int) (h1 : (2 : ℚ) ^ e ≤ q)
    (h2 : q < (2 : ℚ) ^ (e + 1)) (he : -1022 ≤ e)
    (hlo : (n : ℚ) - 1 / 2 < q / (2 : ℚ) ^ (e - 52))
    (hhi : q / (2 : ℚ) ^ (e - 52) < (n : ℚ) + 1 / 2)
    (hv : (n : ℚ) * (2 : ℚ) ^ (e - 52) = v) : rnd q = v := by
  rw [← hv]
  exact rnd_eq_of_pos e n h1 h2 he hlo hhi

/-- Certificate for a rounding at a tie: the even neighbour is taken. -/
theorem rnd_eq_of_pos_tie {q v : ℚ} (e n : Int) (h1 : (2 : ℚ) ^ e ≤ q)
    (h2 : q < (2 : ℚ) ^ (e + 1)) (he : -1022 ≤ e)
    (htie : (q / (2 : ℚ) ^ (e - 52) - (n : ℚ)) ^ 2 = 1 / 4) (hev : n % 2 = 0)
    (hv : (n : ℚ) * (2 : ℚ) ^ (e - 52) = v) : rnd q = v := by
  have hpos : 0 < q := lt_of_lt_of_le (two_zpow_pos e) h1
  have habs : |q| = q := abs_of_pos hpos
  have hh : |q / (2 : ℚ) ^ (e - 52) - (n : ℚ)| = 1 / 2 := by
    have h4 : (1 / 4 : ℚ) = (1 / 2) ^ 2 := by norm_num
    rw [h4] at htie
    have := abs_eq_abs.mpr (sq_eq_sq_iff_eq_or_eq_neg.mp htie)
    rw [this]
    norm_num
  rw [← hv]
  exact rnd_eq_of (by rw [habs]; exact h1) (by rw [habs]; exact h2) he (Or.inr ⟨hh, hev⟩)

/-- The seconds of a duration below one second: one rounded quotient. -/
theorem Seconds_of_lt_Second {t : Int} (h0 : 0 ≤ t) (h1 : t < Second) :
    Seconds t = rnd ((t : ℚ) / 1000000000) := by
  have h64 : t ≤ maxInt64 := by
    unfold Second at h1
    unfold maxInt64
    omega
  rw [Seconds_of_nonneg h0 h64, Int.ediv_eq_zero_of_lt h0 h1, Int.emod_eq_of_lt h0 h1,
    Int.cast_zero, zero_add, rnd_idem]

/-- One `addTime` on a fresh `newStats()`: the slice, the deviation and the mean. -/
theorem addTime_single (conv : ℚ → Int) (t : Int) :
    ∃ s, addTime conv newStats t = some s ∧ s.times = [t] ∧ s.sd = 0 ∧
      s.avg = toDuration conv (fmul (Seconds t) (ofInt Second)) := by
  obtain ⟨r, b, s, _, _, _, hadd, hstep⟩ :=
    addTime_sorted conv newStats t List.sorted_nil
  have ht : s.times = [t] := by
    rw [hstep.times]
    simp [newStats]
  refine ⟨s, hadd, ht, ?_, ?_⟩
  · rw [hstep.sd, ht, sdSeconds_singleton]
    simp only [fmul, zero_mul, rnd_zero]
    exact toDuration_zero conv
  · rw [hstep.avg, ht, avgSeconds_singleton]

theorem Seconds_15ns : Seconds 15 = (4533471823554859 : ℚ) / 302231454903657293676544 := by
  rw [Seconds_of_lt_Second (by norm_num) (by norm_num [Second])]
  exact rnd_eq_of_pos_val (-26) 4533471823554859 (by norm_num) (by norm_num) (by norm_num)
    (by norm_num) (by norm_num) (by norm_num)

theorem round_trip_15ns :
    fmul (Seconds 15) (ofInt Second) = (8444249301319679 : ℚ) / 562949953421312 := by
  rw [Seconds_15ns, ofInt_Second]
  unfold fmul
  exact rnd_eq_of_pos_val 3 8444249301319679 (by norm_num) (by norm_num) (by norm_num)
    (by norm_num) (by norm_num) (by norm_num)

/-! ## float64: the runs evaluated below -/

theorem Seconds_100ms : Seconds 100000000 = ((3602879701896397 : ℚ) / 36028797018963968) := by
  rw [Seconds_of_lt_Second (by norm_num) (by norm_num [Second])]
  exact rnd_eq_of_pos_val (-4) 7205759403792794 (by norm_num) (by norm_num) (by norm_num)
      (by norm_num) (by norm_num) (by norm_num)

theorem Seconds_200ms : Seconds 200000000 = ((3602879701896397 : ℚ) / 18014398509481984) := by
  rw [Seconds_of_lt_Second (by norm_num) (by norm_num [Second])]
  exact rnd_eq_of_pos_val (-3) 7205759403792794 (by norm_num) (by norm_num) (by norm_num)
      (by norm_num) (by norm_num) (by norm_num)

theorem Seconds_300ms : Seconds 300000000 = ((5404319552844595 : ℚ) / 18014398509481984) := by
  rw [Seconds_of_lt_Second (by norm_num) (by norm_num [Second])]
  exact rnd_eq_of_pos_val (-2) 5404319552844595 (by norm_num) (by norm_num) (by norm_num)
      (by norm_num) (by norm_num) (by norm_num)

theorem Seconds_400ms : Seconds 400000000 = ((3602879701896397 : ℚ) / 9007199254740992) := by
  rw [Seconds_of_lt_Second (by norm_num) (by norm_num [Second])]
  exact rnd_eq_of_pos_val (-2) 7205759403792794 (by norm_num) (by norm_num) (by norm_num)
      (by norm_num) (by norm_num) (by norm_num)

theorem Seconds_500ms : Seconds 500000000 = ((1 : ℚ) / 2) := by
  rw [Seconds_of_lt_Second (by norm_num) (by norm_num [Second])]
  exact rnd_eq_of_pos_val (-1) 4503599627370496 (by norm_num) (by norm_num) (by norm_num)
      (by norm_num) (by norm_num) (by norm_num)

theorem sum_100ms :
    fadd (0 : ℚ) ((3602879701896397 : ℚ) / 36028797018963968) =
      ((3602879701896397 : ℚ) / 36028797018963968) := by
  unfold fadd
  exact rnd_eq_of_pos_val (-4) 7205759403792794 (by norm_num) (by norm_num) (by norm_num)
      (by norm_num) (by norm_num) (by norm_num)

theorem sum_200ms :
    fadd ((3602879701896397 : ℚ) / 36028797018963968)
        ((3602879701896397 : ℚ) / 18014398509481984) =
      ((1351079888211149 : ℚ) / 4503599627370496) := by
  unfold fadd
  exact rnd_eq_of_pos_tie (-2) 5404319552844596 (by norm_num) (by norm_num) (by norm_num)
      (by norm_num) (by norm_num) (by norm_num)

theorem sum_300ms :
    fadd ((1351079888211149 : ℚ) / 4503599627370496)
        ((5404319552844595 : ℚ) / 18014398509481984) =
      ((1351079888211149 : ℚ) / 2251799813685248) := by
  unfold fadd
  exact rnd_eq_of_pos_tie (-1) 5404319552844596 (by norm_num) (by norm_num) (by norm_num)
      (by norm_num) (by norm_num) (by norm_num)

theorem sum_400ms :
    fadd ((1351079888211149 : ℚ) / 2251799813685248)
        ((3602879701896397 : ℚ) / 9007199254740992) =
      (1 : ℚ) := by
  unfold fadd
  exact rnd_eq_of_pos_tie (0) 4503599627370496 (by norm_num) (by norm_num) (by norm_num)
      (by norm_num) (by norm_num) (by norm_num)

theorem sum_500ms : fadd (1 : ℚ) ((1 : ℚ) / 2) = ((3 : ℚ) / 2) := by
  unfold fadd
  exact rnd_eq_of_pos_val (0) 6755399441055744 (by norm_num) (by norm_num) (by norm_num)
      (by norm_num) (by norm_num) (by norm_num)

theorem mean_scenario :
    fdiv ((3 : ℚ) / 2) (5 : ℚ) =
      ((5404319552844595 : ℚ) / 18014398509481984) := by
  unfold fdiv
  exact rnd_eq_of_pos_val (-2) 5404319552844595 (by norm_num) (by norm_num) (by norm_num)
      (by norm_num) (by norm_num) (by norm_num)

theorem mean_scenario_ns :
    fmul ((5404319552844595 : ℚ) / 18014398509481984) (1000000000 : ℚ) =
      (300000000 : ℚ) := by
  unfold fmul
  exact rnd_eq_of_pos_val (28) 5033164800000000 (by norm_num) (by norm_num) (by norm_num)
      (by norm_num) (by norm_num) (by norm_num)

theorem ofInt_five : ofInt ((5 : Nat) : Int) = 5 := by
  have := ofInt_exact 5 (by norm_num)
  simpa using this

/-- The scan over five samples, unfolded. -/
theorem avgSeconds_five (a b c d e : Int) :
    avgSeconds [a, b, c, d, e] =
      fdiv (fadd (fadd (fadd (fadd (fadd 0 (Seconds a)) (Seconds b)) (Seconds c))
        (Seconds d)) (Seconds e)) (ofInt ((5 : Nat) : Int)) := by
  rw [avgSeconds, List.foldl_cons, List.foldl_cons, List.foldl_cons, List.foldl_cons,
    List.foldl_cons, List.foldl_nil]
  rfl

/-- The float64 mean-in-seconds times `1e9` for the samples 100ms, ..., 500ms. -/
theorem avg_scenario :
    fmul (avgSeconds [100000000, 200000000, 300000000, 400000000, 500000000]) (ofInt Second) =
      300000000 := by
  rw [avgSeconds_five, Seconds_100ms, Seconds_200ms, Seconds_300ms, Seconds_400ms,
    Seconds_500ms, sum_100ms, sum_200ms, sum_300ms, sum_400ms, sum_500ms, ofInt_five,
    mean_scenario, ofInt_Second, mean_scenario_ns]

/-! ## Order statistics: sortedness, extremes, percentiles -/

/-- C1. Sortedness invariant: for every finite sequence of durations fed one by one to
`addTime` starting from `newStats()`, after every call (that is, after every prefix of
the sequence) the call has returned and the stored slice `times` is non-decreasing. -/
theorem C1_times_sorted_after_every_call (conv : ℚ → Int) (ts : List Int) (n : Nat) :
    ∃ s, feed conv newStats (ts.take n) = some s ∧ s.times.Sorted (· ≤ ·) := by
  obtain ⟨s, hf, hr, _⟩ := feed_newStats conv (ts.take n)
  exact ⟨s, hf, hr.sorted⟩

/-- C2. Append-only store: on every state whose `times` is sorted and for every duration
`t`, `addTime(t)` returns, `len(times)` grows by exactly one and the new `times` is a
permutation of the old `times` plus `t`; and after feeding the samples `ts` to a fresh
`newStats()`, `times` is exactly the ascending sort of `ts` (sorted, a permutation of
`ts`, of the same length). -/
theorem C2_append_only_sorted_store (conv : ℚ → Int) (s : Statistics) (t : Int)
    (ts : List Int) (hs : s.times.Sorted (· ≤ ·)) :
    (∃ s1, addTime conv s t = some s1 ∧ s1.times.length = s.times.length + 1 ∧
      s1.times.Perm (t :: s.times)) ∧
    (∃ sN, feed conv newStats ts = some sN ∧ sN.times = ts.insertionSort (· ≤ ·) ∧
      sN.times.Sorted (· ≤ ·) ∧ sN.times.Perm ts ∧ sN.times.length = ts.length) := by
  constructor
  · obtain ⟨r, b, s1, _, _, _, hadd, hstep⟩ := addTime_sorted conv s t hs
    have hp : s1.times.Perm (t :: s.times) := by
      rw [hstep.times]
      exact perm_insert_at s.times t r
    exact ⟨s1, hadd, by simpa using hp.length_eq, hp⟩
  · obtain ⟨sN, hf, hr, _⟩ := feed_newStats conv ts
    refine ⟨sN, hf, ?_, hr.sorted, hr.perm, hr.perm.length_eq⟩
    exact List.eq_of_perm_of_sorted (hr.perm.trans (List.perm_insertionSort _ ts).symm)
      hr.sorted (List.sorted_insertionSort _ ts)

/-- C2 at a concrete input: the sorted store `[1, 3]`, the sample `2`, the run `[3, 1, 2]`. -/
theorem C2_append_only_sorted_store_witness :
    ({ newStats with times := [1, 3] } : Statistics).times.Sorted (· ≤ ·) ∧
    ((∃ s1, addTime (fun _ => 0) { newStats with times := [1, 3] } 2 = some s1 ∧
        s1.times.length = ({ newStats with times := [1, 3] } : Statistics).times.length + 1 ∧
        s1.times.Perm (2 :: ({ newStats with times := [1, 3] } : Statistics).times)) ∧
      (∃ sN, feed (fun _ => 0) newStats [3, 1, 2] = some sN ∧
        sN.times = [3, 1, 2].insertionSort (· ≤ ·) ∧
        sN.times.Sorted (· ≤ ·) ∧ sN.times.Perm [3, 1, 2] ∧
        sN.times.length = [3, 1, 2].length)) :=
  ⟨by simp [newStats],
    C2_append_only_sorted_store (fun _ => 0) { newStats with times := [1, 3] } 2 [3, 1, 2]
      (by simp [newStats])⟩

/-- C3. Extremes correctness: for every sequence of `N ≥ 1` non-negative durations
(`int64` values) fed to `addTime` from `newStats()`, in whatever order they come, the
field `min` is the smallest sample of the sequence and the field `max` is the largest. -/
theorem C3_extremes_correct (conv : ℚ → Int) (ts : List Int) (hne : ts ≠ [])
    (hnn : ∀ t ∈ ts, 0 ≤ t ∧ t ≤ maxInt64) :
    ∃ s, feed conv newStats ts = some s ∧
      (s.min ∈ ts ∧ ∀ t ∈ ts, s.min ≤ t) ∧ (s.max ∈ ts ∧ ∀ t ∈ ts, t ≤ s.max) := by
  obtain ⟨s, hf, hr, _⟩ := feed_newStats conv ts
  obtain ⟨t0, ht0⟩ := List.exists_mem_of_ne_nil ts hne
  refine ⟨s, hf, ⟨?_, hr.min_le⟩, ⟨?_, hr.max_ge⟩⟩
  · rcases hr.min_mem with h | h
    · have h1 := hr.min_le t0 ht0
      have h2 := (hnn t0 ht0).2
      have : s.min = t0 := by omega
      rw [this]
      exact ht0
    · exact h
  · rcases hr.max_mem with h | h
    · have h1 := hr.max_ge t0 ht0
      have h2 := (hnn t0 ht0).1
      have : s.max = t0 := by omega
      rw [this]
      exact ht0
    · exact h

/-- C3 at a concrete input: the run `[5, 2, 9]`. -/
theorem C3_extremes_correct_witness :
    ([5, 2, 9] : List Int) ≠ [] ∧ (∀ t ∈ ([5, 2, 9] : List Int), 0 ≤ t ∧ t ≤ maxInt64) ∧
    ∃ s, feed (fun _ => 0) newStats [5, 2, 9] = some s ∧
      (s.min ∈ ([5, 2, 9] : List Int) ∧ ∀ t ∈ ([5, 2, 9] : List Int), s.min ≤ t) ∧
      (s.max ∈ ([5, 2, 9] : List Int) ∧ ∀ t ∈ ([5, 2, 9] : List Int), t ≤ s.max) :=
  ⟨by decide, by decide,
    C3_extremes_correct (fun _ => 0) [5, 2, 9] (by decide) (by decide)⟩

/-- The integer index `n * a / b` of the code is the floor of `n` times the exact
quantile `a / b`. -/
theorem floor_mul_quantile (n a b : Nat) :
    ⌊(n : ℚ) * ((a : ℚ) / (b : ℚ))⌋₊ = n * a / b := by
  rw [← mul_div_assoc, ← Nat.cast_mul]
  exact Nat.floor_div_eq_div (n * a) b

/-- C4. Percentile rule: after `N ≥ 1` `addTime` calls from `newStats()`, `p50`, `p75`,
`p90`, `p95` and `p99` are the elements of the sorted store at the 0-based indices
`floor(N * q)` for `q = 0.50, 0.75, 0.90, 0.95, 0.99` taken as exact rationals; the
integer indices of the code, `N/2`, `N*3/4`, `N*9/10`, `N*19/20`, `N*99/100`, are these
floors for every `N`. -/
theorem C4_percentile_rule (conv : ℚ → Int) (ts : List Int) (hne : ts ≠ []) :
    (∃ s, feed conv newStats ts = some s ∧ s.times.length = ts.length ∧
      s.times.Sorted (· ≤ ·) ∧
      s.times[⌊(ts.length : ℚ) * (0.50 : ℚ)⌋₊]? = some s.p50 ∧
      s.times[⌊(ts.length : ℚ) * (0.75 : ℚ)⌋₊]? = some s.p75 ∧
      s.times[⌊(ts.length : ℚ) * (0.90 : ℚ)⌋₊]? = some s.p90 ∧
      s.times[⌊(ts.length : ℚ) * (0.95 : ℚ)⌋₊]? = some s.p95 ∧
      s.times[⌊(ts.length : ℚ) * (0.99 : ℚ)⌋₊]? = some s.p99) ∧
    (∀ N : Nat, N / 2 = ⌊(N : ℚ) * (0.50 : ℚ)⌋₊ ∧ N * 3 / 4 = ⌊(N : ℚ) * (0.75 : ℚ)⌋₊ ∧
      N * 9 / 10 = ⌊(N : ℚ) * (0.90 : ℚ)⌋₊ ∧ N * 19 / 20 = ⌊(N : ℚ) * (0.95 : ℚ)⌋₊ ∧
      N * 99 / 100 = ⌊(N : ℚ) * (0.99 : ℚ)⌋₊) := by
  have hidx : ∀ N : Nat, N / 2 = ⌊(N : ℚ) * (0.50 : ℚ)⌋₊ ∧
      N * 3 / 4 = ⌊(N : ℚ) * (0.75 : ℚ)⌋₊ ∧
      N * 9 / 10 = ⌊(N : ℚ) * (0.90 : ℚ)⌋₊ ∧ N * 19 / 20 = ⌊(N : ℚ) * (0.95 : ℚ)⌋₊ ∧
      N * 99 / 100 = ⌊(N : ℚ) * (0.99 : ℚ)⌋₊ := by
    intro N
    have e50 : (0.50 : ℚ) = ((1 : Nat) : ℚ) / ((2 : Nat) : ℚ) := by norm_num
    have e75 : (0.75 : ℚ) = ((3 : Nat) : ℚ) / ((4 : Nat) : ℚ) := by norm_num
    have e90 : (0.90 : ℚ) = ((9 : Nat) : ℚ) / ((10 : Nat) : ℚ) := by norm_num
    have e95 : (0.95 : ℚ) = ((19 : Nat) : ℚ) / ((20 : Nat) : ℚ) := by norm_num
    have e99 : (0.99 : ℚ) = ((99 : Nat) : ℚ) / ((100 : Nat) : ℚ) := by norm_num
    rw [e50, e75, e90, e95, e99, floor_mul_quantile, floor_mul_quantile, floor_mul_quantile,
      floor_mul_quantile, floor_mul_quantile, Nat.mul_one]
    exact ⟨rfl, rfl, rfl, rfl, rfl⟩
  refine ⟨?_, hidx⟩
  obtain ⟨s, hf, hr, hd⟩ := feed_newStats conv ts
  obtain ⟨h50, h75, h90, h95, h99⟩ := hidx ts.length
  have hlen : s.times.length = ts.length := hr.perm.length_eq
  have d := hd hne
  refine ⟨s, hf, hlen, hr.sorted, ?_, ?_, ?_, ?_, ?_⟩
  · rw [← h50, ← hlen]
    exact d.p50
  · rw [← h75, ← hlen]
    exact d.p75
  · rw [← h90, ← hlen]
    exact d.p90
  · rw [← h95, ← hlen]
    exact d.p95
  · rw [← h99, ← hlen]
    exact d.p99

/-- C4 at a concrete input: the run `[4, 1, 3]`. -/
theorem C4_percentile_rule_witness :
    ([4, 1, 3] : List Int) ≠ [] ∧
    ((∃ s, feed (fun _ => 0) newStats [4, 1, 3] = some s ∧
      s.times.length = ([4, 1, 3] : List Int).length ∧
      s.times.Sorted (· ≤ ·) ∧
      s.times[⌊(([4, 1, 3] : List Int).length : ℚ) * (0.50 : ℚ)⌋₊]? = some s.p50 ∧
      s.times[⌊(([4, 1, 3] : List Int).length : ℚ) * (0.75 : ℚ)⌋₊]? = some s.p75 ∧
      s.times[⌊(([4, 1, 3] : List Int).length : ℚ) * (0.90 : ℚ)⌋₊]? = some s.p90 ∧
      s.times[⌊(([4, 1, 3] : List Int).length : ℚ) * (0.95 : ℚ)⌋₊]? = some s.p95 ∧
      s.times[⌊(([4, 1, 3] : List Int).length : ℚ) * (0.99 : ℚ)⌋₊]? = some s.p99) ∧
    (∀ N : Nat, N / 2 = ⌊(N : ℚ) * (0.50 : ℚ)⌋₊ ∧ N * 3 / 4 = ⌊(N : ℚ) * (0.75 : ℚ)⌋₊ ∧
      N * 9 / 10 = ⌊(N : ℚ) * (0.90 : ℚ)⌋₊ ∧ N * 19 / 20 = ⌊(N : ℚ) * (0.95 : ℚ)⌋₊ ∧
      N * 99 / 100 = ⌊(N : ℚ) * (0.99 : ℚ)⌋₊)) :=
  ⟨by decide, C4_percentile_rule (fun _ => 0) [4, 1, 3] (by decide)⟩

/-- C5. `addTime` cannot fail: for every state reachable from `newStats()` and every
duration `t`, the binary search returns an insertion index `i ≤ len(times)`, so
`slices.Insert` accepts it; after the insertion `len ≥ 1` and each of the five
percentile indices `len/2`, `len*3/4`, `len*9/10`, `len*19/20`, `len*99/100` is
strictly below `len`; and `addTime` returns (no index-out-of-range panic). -/
theorem C5_addTime_cannot_fail (conv : ℚ → Int) (ts : List Int) (t : Int) :
    ∃ s, feed conv newStats ts = some s ∧
      ∃ i b times s1, BinarySearch s.times t = some (i, b) ∧ i ≤ s.times.length ∧
        Insert s.times i t = some times ∧ 1 ≤ times.length ∧
        times.length / 2 < times.length ∧ times.length * 3 / 4 < times.length ∧
        times.length * 9 / 10 < times.length ∧ times.length * 19 / 20 < times.length ∧
        times.length * 99 / 100 < times.length ∧
        addTime conv s t = some s1 ∧ s1.times = times := by
  obtain ⟨s, hf, hr, _⟩ := feed_newStats conv ts
  obtain ⟨r, b, s1, hbs, hlb, hins, hadd, hstep⟩ := addTime_sorted conv s t hr.sorted
  have hlen : (s.times.take r ++ t :: s.times.drop r).length = s.times.length + 1 := by
    simpa using (perm_insert_at s.times t r).length_eq
  refine ⟨s, hf, r, b, _, s1, hbs, hlb.1, hins, ?_, ?_, ?_, ?_, ?_, ?_, hadd, hstep.times⟩ <;>
    omega

/-- An element read from the slice is one of its elements. -/
theorem mem_of_getElem? {x : List Int} {k : Nat} {v : Int} (h : x[k]? = some v) : v ∈ x :=
  List.mem_iff_getElem?.mpr ⟨k, h⟩

/-- C6. Percentile monotonicity: for every sequence of `N ≥ 1` samples fed to `addTime`
from `newStats()`, the resulting fields satisfy
`min ≤ p50 ≤ p75 ≤ p90 ≤ p95 ≤ p99 ≤ max`. -/
theorem C6_percentile_monotonicity (conv : ℚ → Int) (ts : List Int) (hne : ts ≠ []) :
    ∃ s, feed conv newStats ts = some s ∧ s.min ≤ s.p50 ∧ s.p50 ≤ s.p75 ∧
      s.p75 ≤ s.p90 ∧ s.p90 ≤ s.p95 ∧ s.p95 ≤ s.p99 ∧ s.p99 ≤ s.max := by
  obtain ⟨s, hf, hr, hd⟩ := feed_newStats conv ts
  have d := hd hne
  refine ⟨s, hf, ?_, ?_, ?_, ?_, ?_, ?_⟩
  · exact hr.min_le _ (hr.perm.mem_iff.mp (mem_of_getElem? d.p50))
  · exact sorted_getElem?_le hr.sorted (by omega) d.p50 d.p75
  · exact sorted_getElem?_le hr.sorted (by omega) d.p75 d.p90
  · exact sorted_getElem?_le hr.sorted (by omega) d.p90 d.p95
  · exact sorted_getElem?_le hr.sorted (by omega) d.p95 d.p99
  · exact hr.max_ge _ (hr.perm.mem_iff.mp (mem_of_getElem? d.p99))

/-- C6 at a concrete input: the run `[7, -2, 7, 0]`. -/
theorem C6_percentile_monotonicity_witness :
    ([7, -2, 7, 0] : List Int) ≠ [] ∧
    ∃ s, feed (fun _ => 0) newStats [7, -2, 7, 0] = some s ∧ s.min ≤ s.p50 ∧
      s.p50 ≤ s.p75 ∧ s.p75 ≤ s.p90 ∧ s.p90 ≤ s.p95 ∧ s.p95 ≤ s.p99 ∧ s.p99 ≤ s.max :=
  ⟨by decide, C6_percentile_monotonicity (fun _ => 0) [7, -2, 7, 0] (by decide)⟩

/-- Two reachable states for the same multiset of samples hold the same slice and the
same running extremes. -/
theorem Reach.unique {ts1 ts2 : List Int} {s1 s2 : Statistics} (h1 : Reach ts1 s1)
    (h2 : Reach ts2 s2) (hp : ts1.Perm ts2) :
    s1.times = s2.times ∧ s1.min = s2.min ∧ s1.max = s2.max := by
  refine ⟨?_, ?_, ?_⟩
  · exact List.eq_of_perm_of_sorted (h1.perm.trans (hp.trans h2.perm.symm)) h1.sorted
      h2.sorted
  · have a : s1.min ≤ s2.min := by
      rcases h2.min_mem with h | h
      · rw [h]
        exact h1.min_le_top
      · exact h1.min_le _ (hp.mem_iff.mpr h)
    have b : s2.min ≤ s1.min := by
      rcases h1.min_mem with h | h
      · rw [h]
        exact h2.min_le_top
      · exact h2.min_le _ (hp.mem_iff.mp h)
    omega
  · have a : s1.max ≤ s2.max := by
      rcases h1.max_mem with h | h
      · rw [h]
        exact h2.max_nonneg
      · exact h2.max_ge _ (hp.mem_iff.mp h)
    have b : s2.max ≤ s1.max := by
      rcases h2.max_mem with h | h
      · rw [h]
        exact h1.max_nonneg
      · exact h1.max_ge _ (hp.mem_iff.mpr h)
    omega

/-- C7. Order-independence: for every two sequences of samples that are permutations of
each other, feeding each to `addTime` from a fresh `newStats()` yields the same final
`times` slice and identical final `min`, `max`, `avg`, `sd`, `p50`, `p75`, `p90`, `p95`
and `p99` (`avg` and `sd` come from one fixed scan of that same sorted slice). -/
theorem C7_order_independence (conv : ℚ → Int) (ts1 ts2 : List Int) (hp : ts1.Perm ts2) :
    ∃ s1 s2, feed conv newStats ts1 = some s1 ∧ feed conv newStats ts2 = some s2 ∧
      s1.times = s2.times ∧ s1.min = s2.min ∧ s1.max = s2.max ∧ s1.avg = s2.avg ∧
      s1.sd = s2.sd ∧ s1.p50 = s2.p50 ∧ s1.p75 = s2.p75 ∧ s1.p90 = s2.p90 ∧
      s1.p95 = s2.p95 ∧ s1.p99 = s2.p99 := by
  obtain ⟨s1, hf1, hr1, hd1⟩ := feed_newStats conv ts1
  obtain ⟨s2, hf2, hr2, hd2⟩ := feed_newStats conv ts2
  obtain ⟨ht, hmin, hmax⟩ := hr1.unique hr2 hp
  refine ⟨s1, s2, hf1, hf2, ht, hmin, hmax, ?_⟩
  by_cases hne : ts1 = []
  · subst hne
    have h2 : ts2 = [] := (List.Perm.nil_eq hp).symm
    subst h2
    simp only [feed, Option.some.injEq] at hf1 hf2
    subst hf1
    subst hf2
    exact ⟨rfl, rfl, rfl, rfl, rfl, rfl, rfl⟩
  · have hne2 : ts2 ≠ [] := fun h => hne (List.Perm.eq_nil (h ▸ hp))
    have d1 := hd1 hne
    have d2 := hd2 hne2
    have some_inj : ∀ {a b : Int} {o : Option Int}, o = some a → o = some b → a = b := by
      intro a b o ha hb
      rw [ha] at hb
      exact Option.some.inj hb
    refine ⟨?_, ?_, ?_, ?_, ?_, ?_, ?_⟩
    · rw [d1.avg, d2.avg, ht]
    · rw [d1.sd, d2.sd, ht]
    · exact some_inj d1.p50 (ht ▸ d2.p50)
    · exact some_inj d1.p75 (ht ▸ d2.p75)
    · exact some_inj d1.p90 (ht ▸ d2.p90)
    · exact some_inj d1.p95 (ht ▸ d2.p95)
    · exact some_inj d1.p99 (ht ▸ d2.p99)

/-- C7 at a concrete input: the runs `[3, 1, 2]` and `[2, 3, 1]`. -/
theorem C7_order_independence_witness :
    ([3, 1, 2] : List Int).Perm [2, 3, 1] ∧
    ∃ s1 s2, feed (fun _ => 0) newStats [3, 1, 2] = some s1 ∧
      feed (fun _ => 0) newStats [2, 3, 1] = some s2 ∧
      s1.times = s2.times ∧ s1.min = s2.min ∧ s1.max = s2.max ∧ s1.avg = s2.avg ∧
      s1.sd = s2.sd ∧ s1.p50 = s2.p50 ∧ s1.p75 = s2.p75 ∧ s1.p90 = s2.p90 ∧
      s1.p95 = s2.p95 ∧ s1.p99 = s2.p99 :=
  ⟨by decide, C7_order_independence (fun _ => 0) [3, 1, 2] [2, 3, 1] (by decide)⟩

/-- C8. Single-sample collapse (order statistics): for every non-negative duration `t`
(an `int64`), `newStats()` followed by one `addTime(t)` gives
`min = max = p50 = p75 = p90 = p95 = p99 = t`. -/
theorem C8_single_sample_order_statistics (conv : ℚ → Int) (t : Int) (h0 : 0 ≤ t)
    (h64 : t ≤ maxInt64) :
    ∃ s, addTime conv newStats t = some s ∧ s.min = t ∧ s.max = t ∧ s.p50 = t ∧
      s.p75 = t ∧ s.p90 = t ∧ s.p95 = t ∧ s.p99 = t := by
  obtain ⟨r, b, s, _, _, _, hadd, hstep⟩ :=
    addTime_sorted conv newStats t List.sorted_nil
  have ht : s.times = [t] := by
    rw [hstep.times]
    simp [newStats]
  have hread : ∀ (k : Nat) (v : Int), k = 0 → s.times[k]? = some v → v = t := by
    intro k v hk hv
    subst hk
    rw [ht] at hv
    simpa using hv.symm
  have hl : s.times.length = 1 := by rw [ht]; rfl
  refine ⟨s, hadd, ?_, ?_, ?_, ?_, ?_, ?_, ?_⟩
  · rw [hstep.min]
    simp only [newStats]
    split <;> omega
  · rw [hstep.max]
    simp only [newStats]
    split <;> omega
  · exact hread _ _ (by rw [hl]) hstep.p50
  · exact hread _ _ (by rw [hl]) hstep.p75
  · exact hread _ _ (by rw [hl]) hstep.p90
  · exact hread _ _ (by rw [hl]) hstep.p95
  · exact hread _ _ (by rw [hl]) hstep.p99

/-- C8 at a concrete input: the sample `42`. -/
theorem C8_single_sample_order_statistics_witness :
    (0 : Int) ≤ 42 ∧ (42 : Int) ≤ maxInt64 ∧
    ∃ s, addTime (fun _ => 0) newStats 42 = some s ∧ s.min = 42 ∧ s.max = 42 ∧
      s.p50 = 42 ∧ s.p75 = 42 ∧ s.p90 = 42 ∧ s.p95 = 42 ∧ s.p99 = 42 :=
  ⟨by decide, by decide,
    C8_single_sample_order_statistics (fun _ => 0) 42 (by decide) (by decide)⟩

/-! ## Mean and deviation -/

/-- C9, amended. Single-sample collapse (mean and deviation): for every non-negative
duration `t` (an `int64`), `newStats()` followed by one `addTime(t)` gives `sd = 0`, and
`avg` is obtained by converting `t` to float64 seconds, dividing by 1, multiplying by
one second and truncating to a whole nanosecond; for `t < 2 ^ 51` ns that value is `t`
or `t - 1` (the float64 round trip through seconds can lose the last nanosecond). -/
theorem C9_single_sample_mean_and_deviation (conv : ℚ → Int) (t : Int) (h0 : 0 ≤ t)
    (h64 : t ≤ maxInt64) :
    ∃ s, addTime conv newStats t = some s ∧ s.sd = 0 ∧
      s.avg = toDuration conv (fmul (fdiv (Seconds t) (ofInt 1)) (ofInt Second)) ∧
      (t < 2 ^ 51 → t - 1 ≤ s.avg ∧ s.avg ≤ t) := by
  obtain ⟨s, hadd, _, hsd, havg⟩ := addTime_single conv t
  have hdiv : fdiv (Seconds t) (ofInt 1) = Seconds t := by
    rw [ofInt_one, fdiv, div_one, rnd_Seconds]
  refine ⟨s, hadd, hsd, by rw [hdiv]; exact havg, fun h51 => ?_⟩
  rw [havg]
  rcases (by omega : t = 0 ∨ 1 ≤ t) with ht | ht
  · subst ht
    have hz : fmul (Seconds 0) (ofInt Second) = 0 := by
      rw [Seconds_of_lt_Second (le_refl _) (by norm_num [Second])]
      simp [fmul, rnd_zero]
    rw [hz, toDuration_zero]
    omega
  · obtain ⟨hlo, hhi⟩ := seconds_round_trip ht h51
    have hP0 : 0 ≤ fmul (Seconds t) (ofInt Second) := by
      have : (1 : ℚ) ≤ (t : ℚ) := by exact_mod_cast ht
      linarith
    have hfl1 : t - 1 ≤ ⌊fmul (Seconds t) (ofInt Second)⌋ := by
      apply Int.le_floor.mpr
      push_cast
      exact le_of_lt hlo
    have hfl2 : ⌊fmul (Seconds t) (ofInt Second)⌋ ≤ t := by
      have : ⌊fmul (Seconds t) (ofInt Second)⌋ < t + 1 := by
        apply Int.floor_lt.mpr
        push_cast
        exact hhi
      omega
    rw [toDuration_of_floor hP0 (by
      unfold isInt64 minInt64
      unfold maxInt64 at *
      constructor <;> omega)]
    exact ⟨hfl1, hfl2⟩

/-- C9 at a concrete input: the sample `1000` ns. -/
theorem C9_single_sample_mean_and_deviation_witness :
    (0 : Int) ≤ 1000 ∧ (1000 : Int) ≤ maxInt64 ∧
    ∃ s, addTime (fun _ => 0) newStats 1000 = some s ∧ s.sd = 0 ∧
      s.avg = toDuration (fun _ => 0) (fmul (fdiv (Seconds 1000) (ofInt 1)) (ofInt Second)) ∧
      ((1000 : Int) < 2 ^ 51 → 1000 - 1 ≤ s.avg ∧ s.avg ≤ 1000) :=
  ⟨by decide, by decide,
    C9_single_sample_mean_and_deviation (fun _ => 0) 1000 (by decide) (by decide)⟩

/-- C9 as stated fails at `t = 15` ns: `Seconds` gives the float64 nearest to `1.5e-8`,
its product with `1e9` rounds to `15 - 2 ^ (-49)`, and the truncation is `14`, not `15`. -/
theorem C9_counterexample_15ns :
    (0 : Int) ≤ 15 ∧ (15 : Int) ≤ maxInt64 ∧
    ∃ s, addTime (fun _ => 0) newStats 15 = some s ∧ s.avg = 14 ∧ s.avg ≠ 15 := by
  obtain ⟨s, hadd, _, _, havg⟩ := addTime_single (fun _ => 0) 15
  have h14 : s.avg = 14 := by
    rw [havg, round_trip_15ns]
    have hfl : ⌊(8444249301319679 : ℚ) / 562949953421312⌋ = 14 := by
      rw [Int.floor_eq_iff]
      norm_num
    rw [toDuration_of_floor (by norm_num) (by rw [hfl]; decide), hfl]
  exact ⟨by decide, by decide, s, hadd, h14, by rw [h14]; decide⟩

/-- C10. Concrete scenario: feeding 100ms, 200ms, 300ms, 400ms, 500ms in that order to
`addTime` from `newStats()` yields final `min = 100ms`, `max = 500ms`, `avg = 300ms`,
`p50` = the element at index 2 = 300ms, and `p90` = the element at index 4 = 500ms. -/
theorem C10_concrete_scenario (conv : ℚ → Int) :
    ∃ s, feed conv newStats [100 * Millisecond, 200 * Millisecond, 300 * Millisecond,
        400 * Millisecond, 500 * Millisecond] = some s ∧
      s.min = 100 * Millisecond ∧ s.max = 500 * Millisecond ∧ s.avg = 300 * Millisecond ∧
      s.times[2]? = some s.p50 ∧ s.p50 = 300 * Millisecond ∧
      s.times[4]? = some s.p90 ∧ s.p90 = 500 * Millisecond := by
  have hts : [100 * Millisecond, 200 * Millisecond, 300 * Millisecond, 400 * Millisecond,
      500 * Millisecond] = [100000000, 200000000, 300000000, 400000000, 500000000] := by
    norm_num [Millisecond]
  have e1 : 100 * Millisecond = 100000000 := by norm_num [Millisecond]
  have e3 : 300 * Millisecond = 300000000 := by norm_num [Millisecond]
  have e5 : 500 * Millisecond = 500000000 := by norm_num [Millisecond]
  rw [hts, e1, e3, e5]
  obtain ⟨s, hf, hr, hd⟩ :=
    feed_newStats conv [100000000, 200000000, 300000000, 400000000, 500000000]
  have d := hd (by simp)
  have ht : s.times = [100000000, 200000000, 300000000, 400000000, 500000000] :=
    List.eq_of_perm_of_sorted hr.perm hr.sorted (by simp)
  have hmin1 := hr.min_le 100000000 (by simp)
  have hmax5 := hr.max_ge 500000000 (by simp)
  have hmin : s.min = 100000000 := by
    rcases hr.min_mem with h | h
    · rw [h] at hmin1
      exact absurd hmin1 (by decide)
    · simp only [List.mem_cons, List.mem_singleton, List.not_mem_nil, or_false] at h
      omega
  have hmax : s.max = 500000000 := by
    rcases hr.max_mem with h | h
    · rw [h] at hmax5
      exact absurd hmax5 (by decide)
    · simp only [List.mem_cons, List.mem_singleton, List.not_mem_nil, or_false] at h
      omega
  have h50 := d.p50
  have h90 := d.p90
  rw [ht] at h50 h90
  have p50 : s.p50 = 300000000 := by simpa using h50.symm
  have p90 : s.p90 = 500000000 := by simpa using h90.symm
  refine ⟨s, hf, hmin, hmax, ?_, ?_, p50, ?_, p90⟩
  · rw [d.avg, ht, avg_scenario]
    have hfl : ⌊(300000000 : ℚ)⌋ = 300000000 := by simp
    rw [toDuration_of_floor (by norm_num) (by rw [hfl]; decide), hfl]
  · rw [ht, p50]
    rfl
  · rw [ht, p90]
    rfl

/-! ## Further order statistics -/

/-- C14, amended. Percentile indices are always in range: for every `N ≥ 1` samples fed
to `addTime` from `newStats()`, each of the five indices the code computes, `N/2`,
`N*3/4`, `N*9/10`, `N*19/20`, `N*99/100`, is strictly below the count `N = len(times)`,
so the unguarded reads `s.times[...]` succeed and return the five fields. -/
theorem C14_percentile_index_in_range (conv : ℚ → Int) (ts : List Int) (hne : ts ≠ []) :
    ∃ s, feed conv newStats ts = some s ∧ s.times.length = ts.length ∧
      ts.length / 2 < ts.length ∧ ts.length * 3 / 4 < ts.length ∧
      ts.length * 9 / 10 < ts.length ∧ ts.length * 19 / 20 < ts.length ∧
      ts.length * 99 / 100 < ts.length ∧
      s.times[ts.length / 2]? = some s.p50 ∧ s.times[ts.length * 3 / 4]? = some s.p75 ∧
      s.times[ts.length * 9 / 10]? = some s.p90 ∧
      s.times[ts.length * 19 / 20]? = some s.p95 ∧
      s.times[ts.length * 99 / 100]? = some s.p99 := by
  obtain ⟨s, hf, hr, hd⟩ := feed_newStats conv ts
  have d := hd hne
  have hlen : s.times.length = ts.length := hr.perm.length_eq
  have hpos : 0 < ts.length := List.length_pos.mpr hne
  refine ⟨s, hf, hlen, by omega, by omega, by omega, by omega, by omega, ?_, ?_, ?_, ?_, ?_⟩
  · rw [← hlen]; exact d.p50
  · rw [← hlen]; exact d.p75
  · rw [← hlen]; exact d.p90
  · rw [← hlen]; exact d.p95
  · rw [← hlen]; exact d.p99

/-- C14 at a concrete input: the run `[8]`, the smallest count. -/
theorem C14_percentile_index_in_range_witness :
    ([8] : List Int) ≠ [] ∧
    ∃ s, feed (fun _ => 0) newStats [8] = some s ∧ s.times.length = ([8] : List Int).length ∧
      ([8] : List Int).length / 2 < ([8] : List Int).length ∧
      ([8] : List Int).length * 3 / 4 < ([8] : List Int).length ∧
      ([8] : List Int).length * 9 / 10 < ([8] : List Int).length ∧
      ([8] : List Int).length * 19 / 20 < ([8] : List Int).length ∧
      ([8] : List Int).length * 99 / 100 < ([8] : List Int).length ∧
      s.times[([8] : List Int).length / 2]? = some s.p50 ∧
      s.times[([8] : List Int).length * 3 / 4]? = some s.p75 ∧
      s.times[([8] : List Int).length * 9 / 10]? = some s.p90 ∧
      s.times[([8] : List Int).length * 19 / 20]? = some s.p95 ∧
      s.times[([8] : List Int).length * 99 / 100]? = some s.p99 :=
  ⟨by decide, C14_percentile_index_in_range (fun _ => 0) [8] (by decide)⟩

/-- C14 as stated fails: no run of `N ≥ 1` samples leaves `addTime` with a percentile
index equal to the count `N = len(times)`. -/
theorem C14_no_index_equals_count :
    ¬ ∃ (conv : ℚ → Int) (ts : List Int), ts ≠ [] ∧ ∃ s, feed conv newStats ts = some s ∧
      (s.times.length / 2 = s.times.length ∨ s.times.length * 3 / 4 = s.times.length ∨
        s.times.length * 9 / 10 = s.times.length ∨
        s.times.length * 19 / 20 = s.times.length ∨
        s.times.length * 99 / 100 = s.times.length) := by
  rintro ⟨conv, ts, hne, s, hf, h⟩
  obtain ⟨s1, hf1, hr, _⟩ := feed_newStats conv ts
  rw [hf] at hf1
  have hs : s = s1 := Option.some.inj hf1
  subst hs
  have hlen : s.times.length = ts.length := hr.perm.length_eq
  have hpos : 0 < ts.length := List.length_pos.mpr hne
  omega

/-- The first element of a sorted slice is below every element, the last one above. -/
theorem sorted_head_le_last {x : List Int} (hs : x.Sorted (· ≤ ·)) {v a b : Int}
    (hv : v ∈ x) (ha : x[0]? = some a) (hb : x[x.length - 1]? = some b) : a ≤ v ∧ v ≤ b := by
  obtain ⟨k, hk⟩ := List.mem_iff_getElem?.mp hv
  have hlt : k < x.length := (List.getElem?_eq_some.mp hk).1
  exact ⟨sorted_getElem?_le hs (Nat.zero_le k) ha hk,
    sorted_getElem?_le hs (by omega) hk hb⟩

/-- C15. Incremental extremes agree with the sorted store: for every sequence of `N ≥ 1`
non-negative samples (`int64` values) fed to `addTime` from `newStats()`, the
incrementally tracked `min` equals `times[0]` and the incrementally tracked `max` equals
`times[N-1]`. -/
theorem C15_extremes_are_first_and_last (conv : ℚ → Int) (ts : List Int) (hne : ts ≠ [])
    (hnn : ∀ t ∈ ts, 0 ≤ t ∧ t ≤ maxInt64) :
    ∃ s, feed conv newStats ts = some s ∧ s.times.length = ts.length ∧
      s.times[0]? = some s.min ∧ s.times[ts.length - 1]? = some s.max := by
  obtain ⟨s, hf, hr, _⟩ := feed_newStats conv ts
  have hlen : s.times.length = ts.length := hr.perm.length_eq
  have hpos : 0 < ts.length := List.length_pos.mpr hne
  obtain ⟨t0, ht0⟩ := List.exists_mem_of_ne_nil ts hne
  have hmin : s.min ∈ ts := by
    rcases hr.min_mem with h | h
    · have h1 := hr.min_le t0 ht0
      have h2 := (hnn t0 ht0).2
      have : s.min = t0 := by omega
      rw [this]
      exact ht0
    · exact h
  have hmax : s.max ∈ ts := by
    rcases hr.max_mem with h | h
    · have h1 := hr.max_ge t0 ht0
      have h2 := (hnn t0 ht0).1
      have : s.max = t0 := by omega
      rw [this]
      exact ht0
    · exact h
  have h0 : 0 < s.times.length := by omega
  have hl : s.times.length - 1 < s.times.length := by omega
  have ea : s.times[0]? = some s.times[0] := List.getElem?_eq_getElem h0
  have eb : s.times[s.times.length - 1]? = some s.times[s.times.length - 1] :=
    List.getElem?_eq_getElem hl
  have b1 := sorted_head_le_last hr.sorted (hr.perm.mem_iff.mpr hmin) ea eb
  have b2 := sorted_head_le_last hr.sorted (hr.perm.mem_iff.mpr hmax) ea eb
  have m1 := hr.min_le _ (hr.perm.mem_iff.mp (mem_of_getElem? ea))
  have m2 := hr.max_ge _ (hr.perm.mem_iff.mp (mem_of_getElem? eb))
  refine ⟨s, hf, hlen, ?_, ?_⟩
  · rw [ea]
    exact congrArg some (by omega)
  · rw [← hlen, eb]
    exact congrArg some (by omega)

/-- C15 at a concrete input: the run `[5, 2, 9]`. -/
theorem C15_extremes_are_first_and_last_witness :
    ([5, 2, 9] : List Int) ≠ [] ∧ (∀ t ∈ ([5, 2, 9] : List Int), 0 ≤ t ∧ t ≤ maxInt64) ∧
    ∃ s, feed (fun _ => 0) newStats [5, 2, 9] = some s ∧
      s.times.length = ([5, 2, 9] : List Int).length ∧
      s.times[0]? = some s.min ∧ s.times[([5, 2, 9] : List Int).length - 1]? = some s.max :=
  ⟨by decide, by decide,
    C15_extremes_are_first_and_last (fun _ => 0) [5, 2, 9] (by decide) (by decide)⟩

/-- A splitting position is the number of elements strictly smaller than the target. -/
theorem IsLowerBound.eq_countP {x : List Int} {t : Int} {r : Nat} (h : IsLowerBound x t r) :
    r = x.countP (fun v => decide (v < t)) := by
  have hx : x.countP (fun v => decide (v < t)) =
      (x.take r).countP (fun v => decide (v < t)) +
        (x.drop r).countP (fun v => decide (v < t)) := by
    rw [← List.countP_append, List.take_append_drop]
  have h1 : (x.take r).countP (fun v => decide (v < t)) = (x.take r).length :=
    List.countP_eq_length.mpr (fun v hv => decide_eq_true (h.mem_take hv))
  have h2 : (x.drop r).countP (fun v => decide (v < t)) = 0 :=
    List.countP_eq_zero.mpr (fun v hv => by
      have := h.mem_drop hv
      simp only [decide_eq_true_eq, not_lt]
      exact this)
  rw [hx, h1, h2, List.length_take, Nat.add_zero, Nat.min_eq_left h.1]

/-- C17. Leftmost insertion point: for every sorted store and every duration `t`, the
index at which `addTime` inserts `t` equals the number of stored elements strictly
smaller than `t`; in the new slice `t` sits at that index, every element before it is
`< t` and every element after it is `≥ t` (a sample equal to stored ones goes before
them). -/
theorem C17_leftmost_insertion_point (conv : ℚ → Int) (s : Statistics) (t : Int)
    (hs : s.times.Sorted (· ≤ ·)) :
    ∃ i b s1, BinarySearch s.times t = some (i, b) ∧
      i = s.times.countP (fun v => decide (v < t)) ∧
      addTime conv s t = some s1 ∧ s1.times = s.times.take i ++ t :: s.times.drop i ∧
      s1.times[i]? = some t ∧
      (∀ k v, s1.times[k]? = some v → k < i → v < t) ∧
      (∀ k v, s1.times[k]? = some v → i < k → t ≤ v) := by
  obtain ⟨r, b, s1, hbs, hlb, _, hadd, hstep⟩ := addTime_sorted conv s t hs
  have hlen : (s.times.take r).length = r := by
    rw [List.length_take]
    exact Nat.min_eq_left hlb.1
  refine ⟨r, b, s1, hbs, hlb.eq_countP, hadd, hstep.times, ?_, ?_, ?_⟩
  · rw [hstep.times, List.getElem?_append_right (by omega), hlen, Nat.sub_self,
      List.getElem?_cons_zero]
  · intro k v hk hlt
    rw [hstep.times, List.getElem?_append_left (by omega)] at hk
    exact hlb.mem_take (mem_of_getElem? hk)
  · intro k v hk hlt
    rw [hstep.times, List.getElem?_append_right (by omega), hlen] at hk
    obtain ⟨j, hj⟩ : ∃ j, k - r = j + 1 := ⟨k - r - 1, by omega⟩
    rw [hj, List.getElem?_cons_succ] at hk
    exact hlb.mem_drop (mem_of_getElem? hk)

/-- C17 at a concrete input: the sorted store `[1, 2, 2, 3]` and the sample `2`. -/
theorem C17_leftmost_insertion_point_witness :
    ({ newStats with times := [1, 2, 2, 3] } : Statistics).times.Sorted (· ≤ ·) ∧
    ∃ i b s1, BinarySearch ({ newStats with times := [1, 2, 2, 3] } : Statistics).times 2 =
        some (i, b) ∧
      i = ({ newStats with times := [1, 2, 2, 3] } : Statistics).times.countP
        (fun v => decide (v < 2)) ∧
      addTime (fun _ => 0) { newStats with times := [1, 2, 2, 3] } 2 = some s1 ∧
      s1.times = ({ newStats with times := [1, 2, 2, 3] } : Statistics).times.take i ++
        2 :: ({ newStats with times := [1, 2, 2, 3] } : Statistics).times.drop i ∧
      s1.times[i]? = some 2 ∧
      (∀ k v, s1.times[k]? = some v → k < i → v < 2) ∧
      (∀ k v, s1.times[k]? = some v → i < k → 2 ≤ v) :=
  ⟨by simp [newStats],
    C17_leftmost_insertion_point (fun _ => 0) { newStats with times := [1, 2, 2, 3] } 2
      (by simp [newStats])⟩

/-- C18. Extremes without the non-negativity precondition: for every sequence of
`N ≥ 1` signed durations (`int64` values) fed to `addTime` from `newStats()`, `min` is
the smallest sample, while `max` is the larger of `0` and the largest sample; so when
every sample is negative `max` stays `0` and is not a sample. -/
theorem C18_extremes_signed (conv : ℚ → Int) (ts : List Int) (hne : ts ≠ [])
    (h64 : ∀ t ∈ ts, minInt64 ≤ t ∧ t ≤ maxInt64) :
    ∃ s, feed conv newStats ts = some s ∧
      (s.min ∈ ts ∧ ∀ t ∈ ts, s.min ≤ t) ∧
      (∃ m ∈ ts, (∀ t ∈ ts, t ≤ m) ∧ s.max = max 0 m) ∧
      ((∀ t ∈ ts, t < 0) → s.max = 0 ∧ s.max ∉ ts) := by
  obtain ⟨s, hf, hr, _⟩ := feed_newStats conv ts
  obtain ⟨t0, ht0⟩ := List.exists_mem_of_ne_nil ts hne
  have hmin : s.min ∈ ts := by
    rcases hr.min_mem with h | h
    · have h1 := hr.min_le t0 ht0
      have h2 := (h64 t0 ht0).2
      have : s.min = t0 := by omega
      rw [this]
      exact ht0
    · exact h
  -- the largest sample
  obtain ⟨m, hm, hmax⟩ : ∃ m ∈ ts, ∀ t ∈ ts, t ≤ m := by
    have hs := hr.sorted
    have hpos : 0 < s.times.length := by
      rw [hr.perm.length_eq]
      exact List.length_pos.mpr hne
    have hl : s.times.length - 1 < s.times.length := by omega
    have ea : s.times[0]? = some s.times[0] := List.getElem?_eq_getElem hpos
    have eb : s.times[s.times.length - 1]? = some s.times[s.times.length - 1] :=
      List.getElem?_eq_getElem hl
    exact ⟨_, hr.perm.mem_iff.mp (mem_of_getElem? eb), fun t ht =>
      (sorted_head_le_last hs (hr.perm.mem_iff.mpr ht) ea eb).2⟩
  have hsmax : s.max = max 0 m := by
    have h1 := hr.max_ge m hm
    have h2 := hr.max_nonneg
    rcases hr.max_mem with h | h
    · rw [h] at h1
      rw [h, max_eq_left h1]
    · have h3 := hmax _ h
      have : s.max = m := by omega
      rw [this] at h2
      rw [this, max_eq_right h2]
  refine ⟨s, hf, ⟨hmin, hr.min_le⟩, ⟨m, hm, hmax, hsmax⟩, fun hneg => ?_⟩
  have hm0 : m < 0 := hneg m hm
  have h0 : s.max = 0 := by rw [hsmax, max_eq_left (le_of_lt hm0)]
  refine ⟨h0, fun hin => ?_⟩
  have := hneg _ hin
  omega

/-- C18 at a concrete input: the all-negative run `[-15, -3]`. -/
theorem C18_extremes_signed_witness :
    ([-15, -3] : List Int) ≠ [] ∧
    (∀ t ∈ ([-15, -3] : List Int), minInt64 ≤ t ∧ t ≤ maxInt64) ∧
    ∃ s, feed (fun _ => 0) newStats [-15, -3] = some s ∧
      (s.min ∈ ([-15, -3] : List Int) ∧ ∀ t ∈ ([-15, -3] : List Int), s.min ≤ t) ∧
      (∃ m ∈ ([-15, -3] : List Int), (∀ t ∈ ([-15, -3] : List Int), t ≤ m) ∧
        s.max = max 0 m) ∧
      ((∀ t ∈ ([-15, -3] : List Int), t < 0) → s.max = 0 ∧ s.max ∉ ([-15, -3] : List Int)) :=
  ⟨by decide, by decide, C18_extremes_signed (fun _ => 0) [-15, -3] (by decide) (by decide)⟩

/-! ## The formatter and the driver loop -/

/-- Text without a `%` is copied by the scan of `fmt.Sprintf`. -/
theorem sprintfAux_literal (lit rest : List Char) (args : List Int) (h : '%' ∉ lit) :
    sprintfAux (lit ++ rest) args = lit ++ sprintfAux rest args := by
  induction lit with
  | nil => rfl
  | cons c l ih =>
    have hc : c ≠ '%' := fun e => h (e ▸ List.mem_cons_self _ _)
    have hl : '%' ∉ l := fun e => h (List.mem_cons_of_mem _ e)
    rw [List.cons_append, List.cons_append, ← ih hl]
    exact sprintfAux.eq_3 _ _ _ (fun _ _ _ h1 _ _ => hc h1) (fun _ h1 _ _ => hc h1)

/-- Text without a `%`, then `%d`: the text, then the next operand in decimal. -/
theorem sprintfAux_verb (lit rest : List Char) (a : Int) (args : List Int) (h : '%' ∉ lit) :
    sprintfAux (lit ++ '%' :: 'd' :: rest) (a :: args) =
      lit ++ ((fmtD a).data ++ sprintfAux rest args) := by
  rw [sprintfAux_literal _ _ _ h]
  rfl

/-- The format of `getString`, cut at its eleven verbs. -/
theorem getString_format_split :
    ("Count: %d | Current: %dms\n" ++
      "Min: %dms | Max: %dms | Avg: %dms +/- Std: %dms\n" ++
      "p50: %dms | p75: %dms | p90: %dms | p95: %dms | p99: %dms\n").toList =
    "Count: ".data ++ '%' :: 'd' :: (" | Current: ".data ++ '%' :: 'd' ::
    ("ms\nMin: ".data ++ '%' :: 'd' :: ("ms | Max: ".data ++ '%' :: 'd' ::
    ("ms | Avg: ".data ++ '%' :: 'd' :: ("ms +/- Std: ".data ++ '%' :: 'd' ::
    ("ms\np50: ".data ++ '%' :: 'd' :: ("ms | p75: ".data ++ '%' :: 'd' ::
    ("ms | p90: ".data ++ '%' :: 'd' :: ("ms | p95: ".data ++ '%' :: 'd' ::
    ("ms | p99: ".data ++ '%' :: 'd' :: ("ms\n".data ++ []))))))))))) := by
  decide

/-- The text `getString` returns. -/
theorem getString_eq (s : Statistics) :
    getString s =
      "Count: " ++ fmtD s.times.length ++ " | Current: " ++ fmtD (Milliseconds s.current) ++
      "ms\nMin: " ++ fmtD (Milliseconds s.min) ++ "ms | Max: " ++ fmtD (Milliseconds s.max) ++
      "ms | Avg: " ++ fmtD (Milliseconds s.avg) ++ "ms +/- Std: " ++
      fmtD (Milliseconds s.sd) ++
      "ms\np50: " ++ fmtD (Milliseconds s.p50) ++ "ms | p75: " ++ fmtD (Milliseconds s.p75) ++
      "ms | p90: " ++ fmtD (Milliseconds s.p90) ++ "ms | p95: " ++ fmtD (Milliseconds s.p95) ++
      "ms | p99: " ++ fmtD (Milliseconds s.p99) ++ "ms\n" := by
  apply String.ext
  simp only [String.data_append]
  unfold getString Sprintf
  show sprintfAux (String.toList _) _ = _
  rw [getString_format_split]
  rw [sprintfAux_verb _ _ _ _ (by decide), sprintfAux_verb _ _ _ _ (by decide),
    sprintfAux_verb _ _ _ _ (by decide), sprintfAux_verb _ _ _ _ (by decide),
    sprintfAux_verb _ _ _ _ (by decide), sprintfAux_verb _ _ _ _ (by decide),
    sprintfAux_verb _ _ _ _ (by decide), sprintfAux_verb _ _ _ _ (by decide),
    sprintfAux_verb _ _ _ _ (by decide), sprintfAux_verb _ _ _ _ (by decide),
    sprintfAux_verb _ _ _ _ (by decide), sprintfAux_literal _ _ _ (by decide)]
  simp only [sprintfAux, List.append_nil, List.append_assoc]

/-- The method `Milliseconds` truncates toward zero: the magnitude is the magnitude in
nanoseconds divided by `1,000,000` and rounded down, the sign is kept. -/
theorem Milliseconds_trunc (d : Int) :
    (Milliseconds d).natAbs = d.natAbs / 1000000 ∧ (0 ≤ d → 0 ≤ Milliseconds d) ∧
      (d ≤ 0 → Milliseconds d ≤ 0) := by
  refine ⟨?_, ?_, ?_⟩
  · unfold Milliseconds
    rw [Int.natAbs_tdiv]
    rfl
  · intro h
    exact Int.tdiv_nonneg h (by norm_num)
  · intro h
    have : 0 ≤ (-d).tdiv 1000000 := Int.tdiv_nonneg (by omega) (by norm_num)
    rw [Int.neg_tdiv] at this
    unfold Milliseconds
    omega

/-- The decimal digit characters read back as their digit. -/
theorem digitChar_spec (k : Nat) (hk : k < 10) :
    (Nat.digitChar k).isDigit = true ∧ (Nat.digitChar k).toNat - 48 = k := by
  interval_cases k <;> exact ⟨by decide, by decide⟩

/-- The digit scan behind `Nat.repr`: it puts in front of `ds` a non-empty list of decimal
digit characters that reads back, most significant digit first, as `n`. -/
theorem toDigitsCore_spec (fuel : Nat) :
    ∀ (n : Nat) (ds : List Char), n < fuel →
      ∃ l : List Char, Nat.toDigitsCore 10 fuel n ds = l ++ ds ∧ l ≠ [] ∧
        (∀ c ∈ l, c.isDigit = true) ∧
        l.foldl (fun a c => 10 * a + (c.toNat - 48)) 0 = n := by
  induction fuel with
  | zero => intro n ds h; exact absurd h (Nat.not_lt_zero n)
  | succ fuel ih =>
    intro n ds hn
    obtain ⟨hd1, hd2⟩ := digitChar_spec (n % 10) (Nat.mod_lt n (by norm_num))
    unfold Nat.toDigitsCore
    simp only
    split_ifs with h0
    · refine ⟨[Nat.digitChar (n % 10)], rfl, by simp, ?_, ?_⟩
      · intro c hc
        rw [List.mem_singleton] at hc
        rw [hc]
        exact hd1
      · simp only [List.foldl_cons, List.foldl_nil, Nat.mul_zero, Nat.zero_add]
        rw [hd2]
        have : n / 10 = 0 := h0
        omega
    · have hlt : n / 10 < fuel := by omega
      obtain ⟨l, hl, _, hdig, hval⟩ := ih (n / 10) (Nat.digitChar (n % 10) :: ds) hlt
      refine ⟨l ++ [Nat.digitChar (n % 10)], ?_, by simp, ?_, ?_⟩
      · rw [hl, List.append_assoc]
        rfl
      · intro c hc
        rcases List.mem_append.mp hc with h | h
        · exact hdig c h
        · rw [List.mem_singleton] at h
          rw [h]
          exact hd1
      · rw [List.foldl_append, hval]
        simp only [List.foldl_cons, List.foldl_nil]
        rw [hd2]
        omega

/-- The verb `%d` renders an integer in decimal: an optional minus sign, then a
non-empty list of digit characters that reads back as the absolute value. -/
theorem fmtD_decimal (n : Int) :
    ∃ ds : List Char, (fmtD n).toList = (if n < 0 then ['-'] else []) ++ ds ∧ ds ≠ [] ∧
      (∀ c ∈ ds, c.isDigit = true) ∧
      ds.foldl (fun a c => 10 * a + (c.toNat - 48)) 0 = n.natAbs := by
  obtain ⟨l, hl, hne, hdig, hval⟩ := toDigitsCore_spec (n.natAbs + 1) n.natAbs [] (by omega)
  rw [List.append_nil] at hl
  have hrepr : (Nat.repr n.natAbs).toList = l := by
    rw [← hl]
    rfl
  refine ⟨l, ?_, hne, hdig, hval⟩
  unfold fmtD
  split_ifs with h
  · rw [String.toList, String.data_append, ← String.toList, ← String.toList, hrepr]
    rfl
  · rw [hrepr]
    rfl

/-- C16. Formatter values: for every `Statistics` state, `getString` renders, in this
order, the count `len(times)` and then `current`, `min`, `max`, `avg`, `sd`, `p50`, `p75`,
`p90`, `p95`, `p99`, each as its whole-millisecond value, in the fixed three-line layout;
each number is printed in decimal (an optional minus sign, then digits that read back as
the absolute value); the millisecond value is the nanoseconds integer-divided by
`1,000,000`, truncated toward zero and not rounded to nearest (`1999999` ns is `1` ms,
`-1999999` ns is `-1` ms, and a state with `avg = 199999999` ns prints `Avg: 199ms`); and
the call leaves the state unchanged. -/
theorem C16_getString_values (s : Statistics) :
    getString s =
      "Count: " ++ fmtD s.times.length ++ " | Current: " ++ fmtD (Milliseconds s.current) ++
      "ms\nMin: " ++ fmtD (Milliseconds s.min) ++ "ms | Max: " ++ fmtD (Milliseconds s.max) ++
      "ms | Avg: " ++ fmtD (Milliseconds s.avg) ++ "ms +/- Std: " ++
      fmtD (Milliseconds s.sd) ++
      "ms\np50: " ++ fmtD (Milliseconds s.p50) ++ "ms | p75: " ++ fmtD (Milliseconds s.p75) ++
      "ms | p90: " ++ fmtD (Milliseconds s.p90) ++ "ms | p95: " ++ fmtD (Milliseconds s.p95) ++
      "ms | p99: " ++ fmtD (Milliseconds s.p99) ++ "ms\n" ∧
    (∀ n : Int, ∃ ds : List Char,
      (fmtD n).toList = (if n < 0 then ['-'] else []) ++ ds ∧ ds ≠ [] ∧
      (∀ c ∈ ds, c.isDigit = true) ∧
      ds.foldl (fun a c => 10 * a + (c.toNat - 48)) 0 = n.natAbs) ∧
    (∀ d : Int, (Milliseconds d).natAbs = d.natAbs / 1000000 ∧
      (0 ≤ d → 0 ≤ Milliseconds d) ∧ (d ≤ 0 → Milliseconds d ≤ 0)) ∧
    Milliseconds 1999999 = 1 ∧ Milliseconds (-1999999) = -1 ∧
    getString
        { times := [100000000, 200000000, 300000000], current := -1999999,
          avg := 199999999, max := 300000000, min := 100000000, sd := 81649658,
          p50 := 200000000, p75 := 300000000, p90 := 300000000, p95 := 300000000,
          p99 := 300000000 } =
      "Count: 3 | Current: -1ms\nMin: 100ms | Max: 300ms | Avg: 199ms +/- Std: 81ms\n" ++
        "p50: 200ms | p75: 300ms | p90: 300ms | p95: 300ms | p99: 300ms\n" ∧
    (getStringCall s).1 = getString s ∧ (getStringCall s).2 = s :=
  ⟨getString_eq s, fmtD_decimal, Milliseconds_trunc, by decide, by decide, by decide, rfl, rfl⟩

/-- The state after one pass through the loop body is the one `addTime` returns for the
measured duration, whatever the error was. -/
theorem loopBody_state (conv : ℚ → Int) (count : Int) (stats : Statistics) (t : Int)
    (err : Option String) :
    (loopBody conv count stats ⟨t, err⟩).map (fun p => p.1) = addTime conv stats t := by
  unfold loopBody
  cases addTime conv stats t <;> rfl

/-- C11. Failure inclusion: one pass through the driver loop records the measured
duration via `addTime` whether or not `getRequest` returned an error (the error is only
printed); a run that measures 50ms for a successful call and 70ms for a failed call,
with a `count` flag that does not stop it after the first sample, ends with
`len(times) = 2` and `max = 70ms`. -/
theorem C11_failed_call_is_recorded (conv : ℚ → Int) (count : Int) (e : String)
    (hc : count ≤ 0 ∨ 2 ≤ count) :
    (∀ (stats : Statistics) (t : Int) (err : Option String),
      (loopBody conv count stats ⟨t, err⟩).map (fun p => p.1) = addTime conv stats t) ∧
    ∃ s out, mainLoop conv count newStats
        [⟨50 * Millisecond, none⟩, ⟨70 * Millisecond, some e⟩] = some (s, out) ∧
      s.times = [50 * Millisecond, 70 * Millisecond] ∧ s.times.length = 2 ∧
      s.max = 70 * Millisecond ∧ Output.stdout ("Error: " ++ e ++ "\n") ∈ out := by
  refine ⟨fun stats t err => loopBody_state conv count stats t err, ?_⟩
  obtain ⟨r1, b1, s1, _, _, _, hadd1, hstep1⟩ :=
    addTime_sorted conv newStats (50 * Millisecond) List.sorted_nil
  have hr1 : Reach ([] ++ [50 * Millisecond]) s1 := hstep1.reach ‹_› reach_newStats
  obtain ⟨r2, b2, s2, _, _, _, hadd2, hstep2⟩ :=
    addTime_sorted conv s1 (70 * Millisecond) hr1.sorted
  have hr2 : Reach ([] ++ [50 * Millisecond] ++ [70 * Millisecond]) s2 :=
    hstep2.reach ‹_› hr1
  have ht1 : s1.times = [50 * Millisecond] :=
    List.eq_of_perm_of_sorted hr1.perm hr1.sorted (by simp)
  have ht2 : s2.times = [50 * Millisecond, 70 * Millisecond] :=
    List.eq_of_perm_of_sorted hr2.perm hr2.sorted (by simp [Millisecond])
  have hmax : s2.max = 70 * Millisecond := by
    have h1 := hr2.max_ge (70 * Millisecond) (by simp)
    rcases hr2.max_mem with h | h
    · rw [h] at h1
      norm_num [Millisecond] at h1
    · simp only [List.nil_append, List.cons_append, List.mem_cons, List.mem_singleton,
        List.not_mem_nil, or_false] at h
      rcases h with h | h
      · rw [h] at h1
        norm_num [Millisecond] at h1
      · exact h
  have hb1 : decide (count > 0 ∧ (s1.times.length : Int) ≥ count) = false := by
    rw [ht1]
    simp only [List.length_singleton, Nat.cast_one, decide_eq_false_iff_not]
    omega
  have hmain : mainLoop conv count newStats
      [⟨50 * Millisecond, none⟩, ⟨70 * Millisecond, some e⟩] =
      some (s2, [Output.display (getString s1), Output.stdout ("Error: " ++ e ++ "\n"),
        Output.display (getString s2)]) := by
    cases hb2 : decide (count > 0 ∧ (s2.times.length : Int) ≥ count) <;>
      simp [mainLoop, loopBody, hadd1, hb1, hadd2, hb2]
  exact ⟨s2, _, hmain, ht2, by rw [ht2]; rfl, hmax, by simp⟩

/-- C11 at a concrete input: the default `count` flag `0` and the error text `EOF`. -/
theorem C11_failed_call_is_recorded_witness :
    ((0 : Int) ≤ 0 ∨ (2 : Int) ≤ 0) ∧
    ((∀ (stats : Statistics) (t : Int) (err : Option String),
      (loopBody (fun _ => 0) 0 stats ⟨t, err⟩).map (fun p => p.1) =
        addTime (fun _ => 0) stats t) ∧
    ∃ s out, mainLoop (fun _ => 0) 0 newStats
        [⟨50 * Millisecond, none⟩, ⟨70 * Millisecond, some "EOF"⟩] = some (s, out) ∧
      s.times = [50 * Millisecond, 70 * Millisecond] ∧ s.times.length = 2 ∧
      s.max = 70 * Millisecond ∧ Output.stdout ("Error: " ++ "EOF" ++ "\n") ∈ out) :=
  ⟨by decide, C11_failed_call_is_recorded (fun _ => 0) 0 "EOF" (by decide)⟩

/-! ## float64: the mean of many samples -/

theorem tiny_le_of_le_200 {x : ℚ} (h : 1 / 2 ^ 200 ≤ x) : (2 : ℚ) ^ (-1022 : Int) ≤ x := by
  have h1 : (2 : ℚ) ^ (-1022 : Int) ≤ (2 : ℚ) ^ (-200 : Int) :=
    zpow_le_zpow_right₀ (by norm_num) (by norm_num)
  have h2 : (2 : ℚ) ^ (-200 : Int) = 1 / 2 ^ 200 := by
    rw [zpow_neg, one_div]
    norm_cast
  exact le_trans (le_trans h1 (le_of_eq h2)) h

/-- The seconds of a non-negative duration carry two roundings: the value is within the
relative factors `(1 - 2^-53)^2` and `(1 + 2^-53)^2` of the exact `t / 1e9`. -/
theorem Seconds_rel {t : Int} (h0 : 0 ≤ t) (h64 : t ≤ maxInt64) :
    (1 - 1 / 2 ^ 53) ^ 2 * ((t : ℚ) / 1000000000) ≤ Seconds t ∧
      Seconds t ≤ (1 + 1 / 2 ^ 53) ^ 2 * ((t : ℚ) / 1000000000) := by
  have hsec : (0 : Int) < Second := by norm_num [Second]
  rw [Seconds_of_nonneg h0 h64]
  have hs0 : (0 : ℚ) ≤ ((t / Second : Int) : ℚ) := by
    exact_mod_cast Int.ediv_nonneg h0 (le_of_lt hsec)
  have hn0 : (0 : ℚ) ≤ ((t % Second : Int) : ℚ) := by
    exact_mod_cast Int.emod_nonneg t (ne_of_gt hsec)
  have hsplit : ((t / Second : Int) : ℚ) * 1000000000 + ((t % Second : Int) : ℚ) = (t : ℚ) := by
    have := Int.ediv_add_emod t Second
    have h2 : ((Second * (t / Second) + t % Second : Int) : ℚ) = (t : ℚ) := by rw [this]
    push_cast at h2
    simp only [Second] at h2 ⊢
    push_cast at h2
    linarith
  have hs01 : ((t / Second : Int) : ℚ) = 0 ∨ (1 : ℚ) ≤ ((t / Second : Int) : ℚ) := by
    rcases (by have := Int.ediv_nonneg h0 (le_of_lt hsec); omega :
      t / Second = 0 ∨ 1 ≤ t / Second) with h | h
    · left
      exact_mod_cast h
    · right
      exact_mod_cast h
  have hn01 : ((t % Second : Int) : ℚ) = 0 ∨ (1 : ℚ) ≤ ((t % Second : Int) : ℚ) := by
    rcases (by have := Int.emod_nonneg t (ne_of_gt hsec); omega :
      t % Second = 0 ∨ 1 ≤ t % Second) with h | h
    · left
      exact_mod_cast h
    · right
      exact_mod_cast h
  generalize ((t / Second : Int) : ℚ) = s at hs0 hsplit hs01
  generalize ((t % Second : Int) : ℚ) = n at hn0 hsplit hn01
  generalize (t : ℚ) = T at hsplit
  have hy0 : 0 ≤ n / 1000000000 := by positivity
  have hy : n / 1000000000 = 0 ∨ (2 : ℚ) ^ (-1022 : Int) ≤ n / 1000000000 := by
    rcases hn01 with h | h
    · left
      rw [h]
      norm_num
    · right
      apply tiny_le_of_le
      rw [le_div_iff₀ (by norm_num)]
      norm_num
      linarith
  obtain ⟨ha1, ha2⟩ := rnd_rel hy0 hy
  have hTs : T / 1000000000 = s + n / 1000000000 := by rw [← hsplit]; ring
  have hx2 : s + rnd (n / 1000000000) = 0 ∨
      (2 : ℚ) ^ (-1022 : Int) ≤ s + rnd (n / 1000000000) := by
    rcases hs01 with h | h
    · rcases hn01 with h' | h'
      · left
        rw [h, h']
        simp [rnd_zero]
      · right
        apply tiny_le_of_le
        have : 1 / 1000000000 ≤ n / 1000000000 :=
          div_le_div_of_nonneg_right h' (by norm_num)
        nlinarith
    · right
      apply tiny_le_of_le
      nlinarith
  generalize rnd (n / 1000000000) = a at ha1 ha2 hx2
  have hx20 : 0 ≤ s + a := by nlinarith
  obtain ⟨hS1, hS2⟩ := rnd_rel hx20 hx2
  generalize rnd (s + a) = S at hS1 hS2
  rw [hTs]
  constructor <;> nlinarith

/-- Bernoulli: `n` roundings down lose at most `n * 2^-53`. -/
theorem lo_pow_ge (n : Nat) : 1 - (n : ℚ) / 2 ^ 53 ≤ (1 - 1 / 2 ^ 53 : ℚ) ^ n := by
  have h := one_add_mul_le_pow (a := (-(1 / 2 ^ 53) : ℚ)) (by norm_num) n
  have e1 : (1 + -(1 / 2 ^ 53) : ℚ) = 1 - 1 / 2 ^ 53 := by ring
  rw [e1] at h
  calc 1 - (n : ℚ) / 2 ^ 53 = 1 + (n : ℚ) * -(1 / 2 ^ 53) := by ring
    _ ≤ _ := h

theorem lo_pow_pos (n : Nat) : (0 : ℚ) < (1 - 1 / 2 ^ 53 : ℚ) ^ n := pow_pos (by norm_num) n

theorem lo_pow_le_one (n : Nat) : (1 - 1 / 2 ^ 53 : ℚ) ^ n ≤ 1 :=
  pow_le_one₀ (by norm_num) (by norm_num)

theorem hi_pow_ge_one (n : Nat) : (1 : ℚ) ≤ (1 + 1 / 2 ^ 53 : ℚ) ^ n :=
  one_le_pow₀ (by norm_num)

/-- `n` roundings up: `(1 + 2^-53)^n * (1 - n * 2^-53) ≤ 1`. -/
theorem hi_pow_mul_le (n : Nat) (hn : (n : ℚ) ≤ 2 ^ 53) :
    (1 + 1 / 2 ^ 53 : ℚ) ^ n * (1 - (n : ℚ) / 2 ^ 53) ≤ 1 := by
  have h1 : (1 + 1 / 2 ^ 53 : ℚ) ^ n * (1 - 1 / 2 ^ 53 : ℚ) ^ n ≤ 1 := by
    rw [← mul_pow]
    exact pow_le_one₀ (by norm_num) (by norm_num)
  have h2 : 0 ≤ 1 - (n : ℚ) / 2 ^ 53 := by
    rw [sub_nonneg, div_le_one (by norm_num)]
    exact hn
  calc (1 + 1 / 2 ^ 53 : ℚ) ^ n * (1 - (n : ℚ) / 2 ^ 53)
      ≤ (1 + 1 / 2 ^ 53 : ℚ) ^ n * (1 - 1 / 2 ^ 53 : ℚ) ^ n :=
        mul_le_mul_of_nonneg_left (lo_pow_ge n) (le_trans zero_le_one (hi_pow_ge_one n))
    _ ≤ 1 := h1

/-- With at most `2^52` roundings the lower factor stays above one half. -/
theorem lo_pow_ge_half (n : Nat) (hn : n ≤ 2 ^ 52) : (1 / 2 : ℚ) ≤ (1 - 1 / 2 ^ 53 : ℚ) ^ n := by
  have h := lo_pow_ge n
  have : (n : ℚ) ≤ 2 ^ 52 := by exact_mod_cast hn
  have : (n : ℚ) / 2 ^ 53 ≤ 1 / 2 := by
    rw [div_le_iff₀ (by norm_num)]
    norm_num
    linarith
  linarith

/-- The float64 scan `acc += t.Seconds()` over non-negative durations: if the running
value carries `m` relative roundings of an exact `a / 1e9`, then after the scan it
carries `m + len` roundings of the exact `(a + sum) / 1e9`. -/
theorem sum_rel (ts : List Int) :
    ∀ (acc : ℚ) (a : Int) (m : Nat), (∀ t ∈ ts, 0 ≤ t ∧ t ≤ maxInt64) → 0 ≤ a → 2 ≤ m →
      m + ts.length ≤ 2 ^ 52 →
      (1 - 1 / 2 ^ 53) ^ m * ((a : ℚ) / 1000000000) ≤ acc →
      acc ≤ (1 + 1 / 2 ^ 53) ^ m * ((a : ℚ) / 1000000000) →
      (1 - 1 / 2 ^ 53) ^ (m + ts.length) * (((a + ts.sum : Int) : ℚ) / 1000000000) ≤
          ts.foldl (fun acc t => fadd acc (Seconds t)) acc ∧
        ts.foldl (fun acc t => fadd acc (Seconds t)) acc ≤
          (1 + 1 / 2 ^ 53) ^ (m + ts.length) * (((a + ts.sum : Int) : ℚ) / 1000000000) := by
  induction ts with
  | nil =>
    intro acc a m _ _ _ _ hlo hhi
    simp only [List.length_nil, Nat.add_zero, List.sum_nil, Int.add_zero, List.foldl_nil]
    exact ⟨hlo, hhi⟩
  | cons t ts ih =>
    intro acc a m hts ha hm hlen hlo hhi
    have ht := hts t (List.mem_cons_self _ _)
    have hts1 : ∀ u ∈ ts, 0 ≤ u ∧ u ≤ maxInt64 := fun u hu => hts u (List.mem_cons_of_mem _ hu)
    simp only [List.length_cons] at hlen
    obtain ⟨hS1, hS2⟩ := Seconds_rel ht.1 ht.2
    have ha0 : (0 : ℚ) ≤ (a : ℚ) := by exact_mod_cast ha
    have ht0 : (0 : ℚ) ≤ (t : ℚ) := by exact_mod_cast ht.1
    have hA : (0 : ℚ) ≤ (a : ℚ) / 1000000000 := by positivity
    have hX : (0 : ℚ) ≤ (t : ℚ) / 1000000000 := by positivity
    have hcm := lo_pow_pos m
    have hcm1 := lo_pow_le_one m
    have hdm := hi_pow_ge_one m
    have hc2 : (1 - 1 / 2 ^ 53 : ℚ) ^ m ≤ (1 - 1 / 2 ^ 53 : ℚ) ^ 2 :=
      pow_le_pow_of_le_one (by norm_num) (by norm_num) hm
    have hd2 : (1 + 1 / 2 ^ 53 : ℚ) ^ 2 ≤ (1 + 1 / 2 ^ 53 : ℚ) ^ m :=
      pow_le_pow_right₀ (by norm_num) hm
    have hhalf := lo_pow_ge_half m (by omega)
    generalize (1 - 1 / 2 ^ 53 : ℚ) ^ 2 = c2 at hS1 hc2
    generalize (1 + 1 / 2 ^ 53 : ℚ) ^ 2 = d2 at hS2 hd2
    -- the exact sum so far
    have hz1 : (1 - 1 / 2 ^ 53 : ℚ) ^ m * (((a + t : Int) : ℚ) / 1000000000) ≤
        acc + Seconds t := by
      push_cast
      have : (1 - 1 / 2 ^ 53 : ℚ) ^ m * ((t : ℚ) / 1000000000) ≤ c2 * ((t : ℚ) / 1000000000) :=
        mul_le_mul_of_nonneg_right hc2 hX
      rw [add_div, mul_add]
      linarith
    have hz2 : acc + Seconds t ≤
        (1 + 1 / 2 ^ 53 : ℚ) ^ m * (((a + t : Int) : ℚ) / 1000000000) := by
      push_cast
      have : d2 * ((t : ℚ) / 1000000000) ≤ (1 + 1 / 2 ^ 53 : ℚ) ^ m * ((t : ℚ) / 1000000000) :=
        mul_le_mul_of_nonneg_right hd2 hX
      rw [add_div, mul_add]
      linarith
    have hat : (0 : ℚ) ≤ ((a + t : Int) : ℚ) := by exact_mod_cast (by omega : 0 ≤ a + t)
    have hz0 : 0 ≤ acc + Seconds t :=
      le_trans (mul_nonneg (le_of_lt hcm) (by positivity)) hz1
    have hz : acc + Seconds t = 0 ∨ (2 : ℚ) ^ (-1022 : Int) ≤ acc + Seconds t := by
      rcases (by omega : a + t = 0 ∨ 1 ≤ a + t) with h | h
      · left
        rw [h] at hz2
        simp only [Int.cast_zero, zero_div, mul_zero] at hz2
        exact le_antisymm hz2 hz0
      · right
        apply tiny_le_of_le
        have h1 : (1 : ℚ) ≤ ((a + t : Int) : ℚ) := by exact_mod_cast h
        have h2 : (1 : ℚ) / 1000000000 ≤ ((a + t : Int) : ℚ) / 1000000000 :=
          div_le_div_of_nonneg_right h1 (by norm_num)
        have h3 : (1 / 2 : ℚ) * (1 / 1000000000) ≤
            (1 - 1 / 2 ^ 53 : ℚ) ^ m * (((a + t : Int) : ℚ) / 1000000000) :=
          mul_le_mul hhalf h2 (by norm_num) (le_of_lt hcm)
        have h4 : (1 : ℚ) / 2 ^ 40 ≤ 1 / 2 * (1 / 1000000000) := by norm_num
        linarith
    obtain ⟨hr1, hr2⟩ := rnd_rel hz0 hz
    have hstep1 : (1 - 1 / 2 ^ 53 : ℚ) ^ (m + 1) * (((a + t : Int) : ℚ) / 1000000000) ≤
        fadd acc (Seconds t) := by
      rw [pow_succ, mul_comm ((1 - 1 / 2 ^ 53 : ℚ) ^ m), mul_assoc]
      exact le_trans (mul_le_mul_of_nonneg_left hz1 (by norm_num)) hr1
    have hstep2 : fadd acc (Seconds t) ≤
        (1 + 1 / 2 ^ 53 : ℚ) ^ (m + 1) * (((a + t : Int) : ℚ) / 1000000000) := by
      rw [pow_succ, mul_comm ((1 + 1 / 2 ^ 53 : ℚ) ^ m), mul_assoc]
      exact le_trans hr2 (mul_le_mul_of_nonneg_left hz2 (by norm_num))
    have := ih (fadd acc (Seconds t)) (a + t) (m + 1) hts1 (by omega) (by omega) (by omega)
      hstep1 hstep2
    simp only [List.foldl_cons, List.length_cons, List.sum_cons]
    have e1 : m + (ts.length + 1) = m + 1 + ts.length := by omega
    have e2 : a + (t + ts.sum) = a + t + ts.sum := by ring
    rw [e1, e2]
    exact this

/-- The float64 mean in seconds of at most `2^52 - 4` non-negative `int64` durations
carries `N + 3` relative roundings. -/
theorem avgSeconds_rel_gen (ts : List Int) (hne : ts ≠ [])
    (hts64 : ∀ t ∈ ts, 0 ≤ t ∧ t ≤ maxInt64) (hN52 : ts.length + 4 ≤ 2 ^ 52) :
    (1 - 1 / 2 ^ 53 : ℚ) ^ (ts.length + 3) *
        (((ts.sum : Int) : ℚ) / 1000000000 / (ts.length : ℚ)) ≤ avgSeconds ts ∧
      avgSeconds ts ≤ (1 + 1 / 2 ^ 53 : ℚ) ^ (ts.length + 3) *
        (((ts.sum : Int) : ℚ) / 1000000000 / (ts.length : ℚ)) := by
  have hNpos : 0 < ts.length := List.length_pos.mpr hne
  have hsum0 : 0 ≤ ts.sum := List.sum_nonneg (fun t ht => (hts64 t ht).1)
  -- the scan
  obtain ⟨hF1, hF2⟩ := sum_rel ts 0 0 2 hts64 (le_refl _) (le_refl _) (by omega)
    (by simp) (by simp)
  rw [Int.zero_add] at hF1 hF2
  have hofN : ofInt (ts.length : Int) = (ts.length : ℚ) := by
    have := ofInt_exact (ts.length : Int) (by
      rw [abs_of_nonneg (by omega)]
      omega)
    simpa using this
  unfold avgSeconds fdiv
  rw [hofN]
  have hNq : (0 : ℚ) < (ts.length : ℚ) := by exact_mod_cast hNpos
  have hNle : (ts.length : ℚ) ≤ 2 ^ 52 := by
    have : (ts.length : ℚ) + 4 ≤ 2 ^ 52 := by exact_mod_cast hN52
    linarith
  have hS0 : (0 : ℚ) ≤ ((ts.sum : Int) : ℚ) := by exact_mod_cast hsum0
  have hS01 : ((ts.sum : Int) : ℚ) = 0 ∨ (1 : ℚ) ≤ ((ts.sum : Int) : ℚ) := by
    rcases (by omega : ts.sum = 0 ∨ 1 ≤ ts.sum) with h | h
    · left
      exact_mod_cast h
    · right
      exact_mod_cast h
  generalize ((ts.sum : Int) : ℚ) = Sg at hF1 hF2 hS0 hS01
  generalize List.foldl (fun acc t => fadd acc (Seconds t)) 0 ts = F at hF1 hF2
  have hlen : ∃ N : Nat, ts.length = N := ⟨_, rfl⟩
  obtain ⟨N, hN⟩ := hlen
  rw [hN] at hF1 hF2 hNq hNle hN52 ⊢
  clear hN hofN hNpos
  -- first the quotient by the count
  have hL2 := lo_pow_pos (2 + N)
  have hL2h := lo_pow_ge_half (2 + N) (by omega)
  have hz1lo : (1 - 1 / 2 ^ 53 : ℚ) ^ (2 + N) * (Sg / 1000000000 / N) ≤ F / N := by
    rw [← mul_div_assoc]
    exact div_le_div_of_nonneg_right hF1 (le_of_lt hNq)
  have hz1hi : F / N ≤ (1 + 1 / 2 ^ 53 : ℚ) ^ (2 + N) * (Sg / 1000000000 / N) := by
    rw [← mul_div_assoc]
    exact div_le_div_of_nonneg_right hF2 (le_of_lt hNq)
  have hμs0 : 0 ≤ Sg / 1000000000 / N := by positivity
  have hz10 : 0 ≤ F / N := le_trans (mul_nonneg (le_of_lt hL2) hμs0) hz1lo
  have hz1 : F / N = 0 ∨ (2 : ℚ) ^ (-1022 : Int) ≤ F / N := by
    rcases hS01 with h | h
    · left
      rw [h] at hz1hi
      simp only [zero_div, mul_zero] at hz1hi
      exact le_antisymm hz1hi hz10
    · right
      apply tiny_le_of_le_200
      have h1 : (1 : ℚ) / 1000000000 / 2 ^ 52 ≤ Sg / 1000000000 / N :=
        div_le_div₀ (by positivity) (div_le_div_of_nonneg_right h (by norm_num)) hNq hNle
      have h3 : (1 / 2 : ℚ) * (1 / 1000000000 / 2 ^ 52) ≤
          (1 - 1 / 2 ^ 53 : ℚ) ^ (2 + N) * (Sg / 1000000000 / N) :=
        mul_le_mul hL2h h1 (by norm_num) (le_of_lt hL2)
      have h4 : (1 : ℚ) / 2 ^ 200 ≤ 1 / 2 * (1 / 1000000000 / 2 ^ 52) := by norm_num
      linarith
  obtain ⟨hA1, hA2⟩ := rnd_rel hz10 hz1
  generalize rnd (F / N) = A at hA1 hA2
  have hAlo : (1 - 1 / 2 ^ 53 : ℚ) ^ (2 + N + 1) * (Sg / 1000000000 / N) ≤ A := by
    rw [pow_succ, mul_comm ((1 - 1 / 2 ^ 53 : ℚ) ^ (2 + N)), mul_assoc]
    exact le_trans (mul_le_mul_of_nonneg_left hz1lo (by norm_num)) hA1
  have hAhi : A ≤ (1 + 1 / 2 ^ 53 : ℚ) ^ (2 + N + 1) * (Sg / 1000000000 / N) := by
    rw [pow_succ, mul_comm ((1 + 1 / 2 ^ 53 : ℚ) ^ (2 + N)), mul_assoc]
    exact le_trans hA2 (mul_le_mul_of_nonneg_left hz1hi (by norm_num))
  have e3 : N + 3 = 2 + N + 1 := by omega
  rw [e3]
  exact ⟨hAlo, hAhi⟩

/-- The float64 mean in seconds of `N ≥ 1` samples in `[0, M]`, with
`(N + 4) * (M + 1) ≤ 2^52`: it carries `N + 3` roundings of the exact mean in seconds
`sum / 1e9 / N`. -/
theorem avgSeconds_rel (ts : List Int) (M : Int) (hne : ts ≠ [])
    (hts : ∀ t ∈ ts, 0 ≤ t ∧ t ≤ M) (hsize : ((ts.length : Int) + 4) * (M + 1) ≤ 2 ^ 52) :
    (1 - 1 / 2 ^ 53 : ℚ) ^ (ts.length + 3) *
        (((ts.sum : Int) : ℚ) / 1000000000 / (ts.length : ℚ)) ≤ avgSeconds ts ∧
      avgSeconds ts ≤ (1 + 1 / 2 ^ 53 : ℚ) ^ (ts.length + 3) *
        (((ts.sum : Int) : ℚ) / 1000000000 / (ts.length : ℚ)) := by
  obtain ⟨t0, ht0⟩ := List.exists_mem_of_ne_nil ts hne
  have hM0 : 0 ≤ M := le_trans (hts t0 ht0).1 (hts t0 ht0).2
  have hN52 : ts.length + 4 ≤ 2 ^ 52 := by
    have : ((ts.length : Int) + 4) * 1 ≤ ((ts.length : Int) + 4) * (M + 1) :=
      Int.mul_le_mul_of_nonneg_left (by omega) (by omega)
    omega
  have hM64 : M ≤ maxInt64 := by
    have : 1 * (M + 1) ≤ ((ts.length : Int) + 4) * (M + 1) :=
      Int.mul_le_mul_of_nonneg_right (by omega) (by omega)
    unfold maxInt64
    omega
  exact avgSeconds_rel_gen ts hne
    (fun t ht => ⟨(hts t ht).1, le_trans (hts t ht).2 hM64⟩) hN52

/-- The float64 mean, back in nanoseconds and before truncation, of `N ≥ 1` samples in
`[0, M]` with `(N + 4) * (M + 1) ≤ 2^52`: it carries `N + 4` roundings, so it is
non-negative and lies within `[μ - 1/2, μ + 1)` of the exact mean `μ = sum / N`. -/
theorem mean_product_bounds (ts : List Int) (M : Int) (hne : ts ≠ [])
    (hts : ∀ t ∈ ts, 0 ≤ t ∧ t ≤ M) (hsize : ((ts.length : Int) + 4) * (M + 1) ≤ 2 ^ 52) :
    0 ≤ fmul (avgSeconds ts) (ofInt Second) ∧
      ((ts.sum : Int) : ℚ) / (ts.length : ℚ) - 1 / 2 ≤ fmul (avgSeconds ts) (ofInt Second) ∧
      fmul (avgSeconds ts) (ofInt Second) <
        ((ts.sum : Int) : ℚ) / (ts.length : ℚ) + 1 := by
  obtain ⟨hAlo, hAhi⟩ := avgSeconds_rel ts M hne hts hsize
  obtain ⟨t0, ht0⟩ := List.exists_mem_of_ne_nil ts hne
  have hM0 : 0 ≤ M := le_trans (hts t0 ht0).1 (hts t0 ht0).2
  have hNpos : 0 < ts.length := List.length_pos.mpr hne
  have hN52 : ts.length + 4 ≤ 2 ^ 52 := by
    have : ((ts.length : Int) + 4) * 1 ≤ ((ts.length : Int) + 4) * (M + 1) :=
      Int.mul_le_mul_of_nonneg_left (by omega) (by omega)
    omega
  have hsum0 : 0 ≤ ts.sum := List.sum_nonneg (fun t ht => (hts t ht).1)
  have hsumM : ts.sum ≤ ts.length * M := by
    have := List.sum_le_card_nsmul ts M (fun t ht => (hts t ht).2)
    simpa using this
  unfold fmul
  rw [ofInt_Second]
  have hNq : (0 : ℚ) < (ts.length : ℚ) := by exact_mod_cast hNpos
  have hNle : (ts.length : ℚ) ≤ 2 ^ 52 := by
    have : (ts.length : ℚ) + 4 ≤ 2 ^ 52 := by exact_mod_cast hN52
    linarith
  have hS0 : (0 : ℚ) ≤ ((ts.sum : Int) : ℚ) := by exact_mod_cast hsum0
  have hS01 : ((ts.sum : Int) : ℚ) = 0 ∨ (1 : ℚ) ≤ ((ts.sum : Int) : ℚ) := by
    rcases (by omega : ts.sum = 0 ∨ 1 ≤ ts.sum) with h | h
    · left
      exact_mod_cast h
    · right
      exact_mod_cast h
  have hSM : ((ts.sum : Int) : ℚ) ≤ (ts.length : ℚ) * (M : ℚ) := by exact_mod_cast hsumM
  have hsizeq : ((ts.length : ℚ) + 4) * ((M : ℚ) + 1) ≤ 2 ^ 52 := by exact_mod_cast hsize
  have hMq : (0 : ℚ) ≤ (M : ℚ) := by exact_mod_cast hM0
  generalize ((ts.sum : Int) : ℚ) = Sg at hAlo hAhi hS0 hS01 hSM
  generalize avgSeconds ts = A at hAlo hAhi
  generalize (M : ℚ) = Mq at hSM hsizeq hMq
  obtain ⟨N, hN⟩ : ∃ N : Nat, ts.length = N := ⟨_, rfl⟩
  rw [hN] at hAlo hAhi hNq hNle hSM hsizeq hN52 ⊢
  clear hN hsumM hsize hNpos
  -- the product with one second
  have hμ : Sg / 1000000000 / N * 1000000000 = Sg / N := by
    field_simp
    ring
  have hL3 := lo_pow_pos (N + 3)
  have hL3h := lo_pow_ge_half (N + 3) (by omega)
  have hz2lo : (1 - 1 / 2 ^ 53 : ℚ) ^ (N + 3) * (Sg / N) ≤ A * 1000000000 := by
    rw [← hμ, ← mul_assoc]
    exact mul_le_mul_of_nonneg_right hAlo (by norm_num)
  have hz2hi : A * 1000000000 ≤ (1 + 1 / 2 ^ 53 : ℚ) ^ (N + 3) * (Sg / N) := by
    rw [← hμ, ← mul_assoc]
    exact mul_le_mul_of_nonneg_right hAhi (by norm_num)
  have hμ0 : 0 ≤ Sg / N := by positivity
  have hz20 : 0 ≤ A * 1000000000 := le_trans (mul_nonneg (le_of_lt hL3) hμ0) hz2lo
  have hz2 : A * 1000000000 = 0 ∨ (2 : ℚ) ^ (-1022 : Int) ≤ A * 1000000000 := by
    rcases hS01 with h | h
    · left
      rw [h] at hz2hi
      simp only [zero_div, mul_zero] at hz2hi
      exact le_antisymm hz2hi hz20
    · right
      apply tiny_le_of_le_200
      have h1 : (1 : ℚ) / 2 ^ 52 ≤ Sg / N := div_le_div₀ (by positivity) h hNq hNle
      have h3 : (1 / 2 : ℚ) * (1 / 2 ^ 52) ≤ (1 - 1 / 2 ^ 53 : ℚ) ^ (N + 3) * (Sg / N) :=
        mul_le_mul hL3h h1 (by norm_num) (le_of_lt hL3)
      have h4 : (1 : ℚ) / 2 ^ 200 ≤ 1 / 2 * (1 / 2 ^ 52) := by norm_num
      linarith
  obtain ⟨hP1, hP2⟩ := rnd_rel hz20 hz2
  refine ⟨rnd_nonneg hz20, ?_⟩
  generalize rnd (A * 1000000000) = P at hP1 hP2
  have hPlo : (1 - 1 / 2 ^ 53 : ℚ) ^ (N + 3 + 1) * (Sg / N) ≤ P := by
    rw [pow_succ, mul_comm ((1 - 1 / 2 ^ 53 : ℚ) ^ (N + 3)), mul_assoc]
    exact le_trans (mul_le_mul_of_nonneg_left hz2lo (by norm_num)) hP1
  have hPhi : P ≤ (1 + 1 / 2 ^ 53 : ℚ) ^ (N + 3 + 1) * (Sg / N) := by
    rw [pow_succ, mul_comm ((1 + 1 / 2 ^ 53 : ℚ) ^ (N + 3)), mul_assoc]
    exact le_trans hP2 (mul_le_mul_of_nonneg_left hz2hi (by norm_num))
  clear hP1 hP2 hz2 hz20 hz2lo hz2hi hAlo hAhi hL3 hL3h hμ
  -- the size condition turns the factors into an absolute error
  have hcast : ((N + 3 + 1 : Nat) : ℚ) = (N : ℚ) + 4 := by
    push_cast
    ring
  have hLn := lo_pow_ge (N + 3 + 1)
  have hUn := hi_pow_mul_le (N + 3 + 1) (by rw [hcast]; linarith)
  have hU1 := hi_pow_ge_one (N + 3 + 1)
  rw [hcast] at hLn hUn
  generalize (1 - 1 / 2 ^ 53 : ℚ) ^ (N + 3 + 1) = L at hLn hPlo
  generalize (1 + 1 / 2 ^ 53 : ℚ) ^ (N + 3 + 1) = U at hUn hU1 hPhi
  have hμM : Sg / N ≤ Mq := by
    rw [div_le_iff₀ hNq]
    linarith
  generalize Sg / N = μ at hPlo hPhi hμ0 hμM
  have hq0 : 0 < ((N : ℚ) + 4) / 2 ^ 53 := by positivity
  have hqM : ((N : ℚ) + 4) / 2 ^ 53 * (Mq + 1) ≤ 1 / 2 := by
    rw [div_mul_eq_mul_div, div_le_iff₀ (by norm_num)]
    norm_num
    linarith
  generalize ((N : ℚ) + 4) / 2 ^ 53 = q at hLn hUn hq0 hqM
  have hqμ : q * μ ≤ q * Mq := mul_le_mul_of_nonneg_left hμM (le_of_lt hq0)
  have hqMq : q * Mq ≤ 1 / 2 - q := by linarith
  have hq12 : q ≤ 1 / 2 := by
    have := mul_nonneg (le_of_lt hq0) hMq
    linarith
  constructor
  · have h1 : (1 - q) * μ ≤ L * μ := mul_le_mul_of_nonneg_right hLn hμ0
    linarith
  · have h1 : U * (1 - q) * μ ≤ 1 * μ := mul_le_mul_of_nonneg_right hUn hμ0
    have hU2 : U ≤ 2 := by
      have : U * (1 / 2) ≤ U * (1 - q) :=
        mul_le_mul_of_nonneg_left (by linarith) (by linarith)
      linarith
    have h2 : U * (q * μ) ≤ 2 * (q * μ) :=
      mul_le_mul_of_nonneg_right hU2 (mul_nonneg (le_of_lt hq0) hμ0)
    have h3 : U * μ = U * (1 - q) * μ + U * (q * μ) := by ring
    linarith

/-! ## float64: rounding does not cross a binary64 value -/

/-- The rounded integer satisfies its own certificate. -/
theorem roundHalfEven_spec (q : ℚ) :
    |q - (roundHalfEven q : ℚ)| < 1 / 2 ∨
      (|q - (roundHalfEven q : ℚ)| = 1 / 2 ∧ roundHalfEven q % 2 = 0) := by
  have h1 : (⌊q⌋ : ℚ) ≤ q := Int.floor_le q
  have h2 : q < (⌊q⌋ : ℚ) + 1 := Int.lt_floor_add_one q
  unfold roundHalfEven
  simp only
  split_ifs with ha hb hc
  · left
    rw [abs_lt]
    constructor <;> linarith
  · left
    rw [abs_lt]
    push_cast
    constructor <;> linarith
  · right
    have hr : q - (⌊q⌋ : ℚ) = 1 / 2 := le_antisymm (not_lt.mp hb) (not_lt.mp ha)
    exact ⟨by rw [hr]; norm_num, hc⟩
  · right
    have hr : q - (⌊q⌋ : ℚ) = 1 / 2 := le_antisymm (not_lt.mp hb) (not_lt.mp ha)
    refine ⟨?_, by omega⟩
    push_cast
    have : q - ((⌊q⌋ : ℚ) + 1) = -(1 / 2) := by linarith
    rw [this]
    norm_num

theorem roundHalfEven_neg (q : ℚ) : roundHalfEven (-q) = -roundHalfEven q := by
  apply roundHalfEven_eq
  have e : -q - ((-roundHalfEven q : Int) : ℚ) = -(q - (roundHalfEven q : ℚ)) := by
    push_cast
    ring
  rw [e, abs_neg]
  rcases roundHalfEven_spec q with h | ⟨h, hev⟩
  · exact Or.inl h
  · exact Or.inr ⟨h, by omega⟩

/-- Rounding to binary64 is odd: `rnd (-q) = -rnd q`. -/
theorem rnd_neg (q : ℚ) : rnd (-q) = -rnd q := by
  by_cases hq : q = 0
  · rw [hq, neg_zero, rnd_zero, neg_zero]
  · have hu : ulpExp (-q) = ulpExp q := by
      unfold ulpExp
      rw [abs_neg]
    rw [rnd_of_ne_zero hq, rnd_of_ne_zero (neg_ne_zero.mpr hq), hu, neg_div, roundHalfEven_neg]
    push_cast
    ring

theorem roundHalfEven_le_of_le {q : ℚ} {K : Int} (h : q ≤ (K : ℚ)) : roundHalfEven q ≤ K := by
  have h1 : (⌊q⌋ : ℚ) ≤ q := Int.floor_le q
  have hfl : ⌊q⌋ ≤ K := by
    have : (⌊q⌋ : ℚ) ≤ (K : ℚ) := le_trans h1 h
    exact_mod_cast this
  have hlt : (⌊q⌋ : ℚ) < q → ⌊q⌋ + 1 ≤ K := by
    intro hlt
    have : (⌊q⌋ : ℚ) < (K : ℚ) := lt_of_lt_of_le hlt h
    have : ⌊q⌋ < K := by exact_mod_cast this
    omega
  unfold roundHalfEven
  simp only
  split_ifs with ha hb hc
  · exact hfl
  · exact hlt (by linarith)
  · exact hfl
  · exact hlt (by linarith)

/-- Rounding does not cross a binary64 value from below: if `z ≤ m * 2^x` for a
significand `|m| ≤ 2^53` and an exponent `x ≥ -1074`, then `rnd z ≤ m * 2^x`. -/
theorem rnd_le_of_le {z : ℚ} (m x : Int) (hm : |m| ≤ 2 ^ 53) (hx : -1074 ≤ x)
    (h : z ≤ (m : ℚ) * (2 : ℚ) ^ x) : rnd z ≤ (m : ℚ) * (2 : ℚ) ^ x := by
  by_cases hz : z = 0
  · rw [hz, rnd_zero]
    rw [hz] at h
    exact h
  obtain ⟨hlo, hhi⟩ := log_abs_bounds hz
  have hu := two_zpow_pos (ulpExp z)
  have hxp := two_zpow_pos x
  rw [rnd_of_ne_zero hz]
  by_cases hux : ulpExp z ≤ x
  · -- the bound is a multiple of the spacing at `z`
    obtain ⟨d, hd⟩ : ∃ d : Nat, x = ulpExp z + d := ⟨(x - ulpExp z).toNat, by omega⟩
    have hf : (m : ℚ) * (2 : ℚ) ^ x = ((m * 2 ^ d : Int) : ℚ) * (2 : ℚ) ^ ulpExp z := by
      nth_rewrite 1 [hd]
      rw [zpow_add₀ (by norm_num), zpow_natCast]
      push_cast
      ring
    rw [hf] at h ⊢
    have hq : z / (2 : ℚ) ^ ulpExp z ≤ ((m * 2 ^ d : Int) : ℚ) := by
      rw [div_le_iff₀ hu]
      exact h
    have := roundHalfEven_le_of_le hq
    exact mul_le_mul_of_nonneg_right (by exact_mod_cast this) (le_of_lt hu)
  · -- the spacing at `z` is coarser: `|z|` is at least `|m * 2^x|`
    have hux1 : x < ulpExp z := not_le.mp hux
    have hue : ulpExp z = Int.log 2 |z| - 52 := by
      unfold ulpExp at hux1 ⊢
      omega
    clear hhi
    generalize Int.log 2 |z| = E at hlo hue
    have habsf : |(m : ℚ) * (2 : ℚ) ^ x| ≤ (2 : ℚ) ^ E := by
      rw [abs_mul, abs_of_pos hxp]
      have h1 : |(m : ℚ)| ≤ 2 ^ 53 := by
        have : ((|m| : Int) : ℚ) ≤ ((2 ^ 53 : Int) : ℚ) := Int.cast_le.mpr hm
        rw [Int.cast_abs] at this
        norm_num at this ⊢
        exact this
      calc |(m : ℚ)| * (2 : ℚ) ^ x ≤ 2 ^ 53 * (2 : ℚ) ^ x :=
            mul_le_mul_of_nonneg_right h1 (le_of_lt hxp)
        _ = (2 : ℚ) ^ (53 + x) := by
          rw [zpow_add₀ (by norm_num)]
          norm_num
        _ ≤ (2 : ℚ) ^ E := zpow_le_zpow_right₀ (by norm_num) (by omega)
    have hpow : (2 : ℚ) ^ E = 2 ^ 52 * (2 : ℚ) ^ ulpExp z := by
      rw [hue, zpow_sub₀ (by norm_num)]
      have : (2 : ℚ) ^ (52 : Int) = 2 ^ 52 := by norm_num
      rw [this]
      field_simp
    rcases lt_or_gt_of_ne hz with hneg | hpos
    · -- `z` is negative, so is its rounding, by at least `2^e`
      have hzle : z ≤ -(2 : ℚ) ^ E := by
        rw [abs_of_neg hneg] at hlo
        linarith
      have hq : z / (2 : ℚ) ^ ulpExp z ≤ ((-(2 ^ 52) : Int) : ℚ) := by
        rw [div_le_iff₀ hu]
        push_cast
        rw [hpow] at hzle
        linarith
      have hr := roundHalfEven_le_of_le hq
      have hr1 : (roundHalfEven (z / (2 : ℚ) ^ ulpExp z) : ℚ) ≤ -(2 ^ 52) := by
        have : (roundHalfEven (z / (2 : ℚ) ^ ulpExp z) : ℚ) ≤ ((-(2 ^ 52) : Int) : ℚ) :=
          Int.cast_le.mpr hr
        push_cast at this
        exact this
      have h3 : (roundHalfEven (z / (2 : ℚ) ^ ulpExp z) : ℚ) * (2 : ℚ) ^ ulpExp z ≤
          -(2 ^ 52) * (2 : ℚ) ^ ulpExp z :=
        mul_le_mul_of_nonneg_right hr1 (le_of_lt hu)
      have h4 := (abs_le.mp habsf).1
      rw [hpow] at h4
      linarith
    · -- `z` is positive: then it is the bound itself, a power of two
      rw [abs_of_pos hpos] at hlo
      have hfz : (m : ℚ) * (2 : ℚ) ^ x ≤ z := le_trans (le_abs_self _) (le_trans habsf hlo)
      have hzeq : z = (2 : ℚ) ^ E :=
        le_antisymm (le_trans h (le_trans (le_abs_self _) habsf)) hlo
      have hfeq : (m : ℚ) * (2 : ℚ) ^ x = z := le_antisymm hfz h
      rw [hfeq]
      have hq : z / (2 : ℚ) ^ ulpExp z = ((2 ^ 52 : Int) : ℚ) := by
        rw [div_eq_iff (ne_of_gt hu)]
        have : (((2 ^ 52 : Int) : ℚ)) = 2 ^ 52 := by norm_num
        rw [this, ← hpow]
        exact hzeq
      rw [hq, roundHalfEven_intCast, ← hq]
      apply le_of_eq
      field_simp

/-- Rounding does not cross a binary64 value from above. -/
theorem le_rnd_of_le {z : ℚ} (m x : Int) (hm : |m| ≤ 2 ^ 53) (hx : -1074 ≤ x)
    (h : (m : ℚ) * (2 : ℚ) ^ x ≤ z) : (m : ℚ) * (2 : ℚ) ^ x ≤ rnd z := by
  have h1 : -z ≤ ((-m : Int) : ℚ) * (2 : ℚ) ^ x := by
    push_cast
    linarith
  have h2 := rnd_le_of_le (-m) x (by rw [abs_neg]; exact hm) hx h1
  rw [rnd_neg] at h2
  push_cast at h2
  linarith

theorem fsqrt_nonneg (a : ℚ) : 0 ≤ fsqrt a := by
  unfold fsqrt
  split_ifs with h
  · exact le_refl _
  · simp only
    apply rnd_nonneg
    apply div_nonneg _ (le_of_lt (two_zpow_pos _))
    apply add_nonneg (Nat.cast_nonneg _)
    split_ifs <;> norm_num

/-! ## float64: two single-sample runs evaluated -/

theorem Seconds_1001ms : Seconds 1001000000 = ((2254051613498933 : ℚ) / 2251799813685248) := by
  rw [Seconds_of_nonneg (by norm_num) (by norm_num [maxInt64])]
  have hq : ((1001000000 / Second : Int) : ℚ) = 1 := by norm_num [Second]
  have hr : ((1001000000 % Second : Int) : ℚ) = 1000000 := by norm_num [Second]
  rw [hq, hr]
  have ha : rnd ((1000000 : ℚ) / 1000000000) = ((1152921504606847 : ℚ) / 1152921504606846976) :=
    rnd_eq_of_pos_val (-10) 4611686018427388 (by norm_num) (by norm_num) (by norm_num)
    (by norm_num) (by norm_num) (by norm_num)
  rw [ha]
  exact rnd_eq_of_pos_val (0) 4508103226997866 (by norm_num) (by norm_num) (by norm_num)
    (by norm_num) (by norm_num) (by norm_num)

theorem round_trip_1001ms :
    fmul (Seconds 1001000000) (ofInt Second) = ((8396996607999999 : ℚ) / 8388608) := by
  rw [Seconds_1001ms, ofInt_Second]
  unfold fmul
  exact rnd_eq_of_pos_val (29) 8396996607999999 (by norm_num) (by norm_num) (by norm_num)
    (by norm_num) (by norm_num) (by norm_num)

theorem Seconds_maxInt64 : Seconds 9223372036854775807 = ((4835703278458517 : ℚ) / 524288) := by
  rw [Seconds_of_nonneg (by norm_num) (by norm_num [maxInt64])]
  have hq : ((9223372036854775807 / Second : Int) : ℚ) = 9223372036 := by norm_num [Second]
  have hr : ((9223372036854775807 % Second : Int) : ℚ) = 854775807 := by norm_num [Second]
  rw [hq, hr]
  have ha : rnd ((854775807 : ℚ) / 1000000000) = ((3849568005890515 : ℚ) / 4503599627370496) :=
    rnd_eq_of_pos_val (-1) 7699136011781030 (by norm_num) (by norm_num) (by norm_num)
    (by norm_num) (by norm_num) (by norm_num)
  rw [ha]
  exact rnd_eq_of_pos_val (33) 4835703278458517 (by norm_num) (by norm_num) (by norm_num)
    (by norm_num) (by norm_num) (by norm_num)

theorem round_trip_maxInt64 :
    fmul (Seconds 9223372036854775807) (ofInt Second) = (9223372036854775808 : ℚ) := by
  rw [Seconds_maxInt64, ofInt_Second]
  unfold fmul
  exact rnd_eq_of_pos_val (63) 4503599627370496 (by norm_num) (by norm_num) (by norm_num)
    (by norm_num) (by norm_num) (by norm_num)

/-! ## Mean boundedness -/

/-- The truncated mean of a run: the state reached, with `avg` between `⌊μ - 1/2⌋` and
`μ + 1` for the exact mean `μ`, all in the `int64` range. -/
theorem feed_avg_bounds (conv : ℚ → Int) (ts : List Int) (M : Int) (hne : ts ≠ [])
    (hts : ∀ t ∈ ts, 0 ≤ t ∧ t ≤ M) (hsize : ((ts.length : Int) + 4) * (M + 1) ≤ 2 ^ 52) :
    ∃ s, feed conv newStats ts = some s ∧ Reach ts s ∧ Derived conv s ∧
      s.avg = ⌊fmul (avgSeconds s.times) (ofInt Second)⌋ ∧
      0 ≤ fmul (avgSeconds s.times) (ofInt Second) ∧
      ((ts.sum : Int) : ℚ) / (ts.length : ℚ) - 1 / 2 ≤
        fmul (avgSeconds s.times) (ofInt Second) ∧
      fmul (avgSeconds s.times) (ofInt Second) < ((ts.sum : Int) : ℚ) / (ts.length : ℚ) + 1 := by
  obtain ⟨s, hf, hr, hd⟩ := feed_newStats conv ts
  have d := hd hne
  have hne1 : s.times ≠ [] := fun h => hne (List.Perm.eq_nil (h ▸ hr.perm.symm))
  have hts1 : ∀ t ∈ s.times, 0 ≤ t ∧ t ≤ M := fun t ht => hts t (hr.perm.mem_iff.mp ht)
  have hlen : s.times.length = ts.length := hr.perm.length_eq
  have hsum : s.times.sum = ts.sum := hr.perm.sum_eq
  obtain ⟨hP0, hP1, hP2⟩ := mean_product_bounds s.times M hne1 hts1 (by rw [hlen]; exact hsize)
  rw [hlen, hsum] at hP1 hP2
  obtain ⟨t0, ht0⟩ := List.exists_mem_of_ne_nil ts hne
  have hNpos : 0 < ts.length := List.length_pos.mpr hne
  have hNq : (0 : ℚ) < (ts.length : ℚ) := by exact_mod_cast hNpos
  have hM64 : M + 1 ≤ maxInt64 := by
    have h0 : 0 ≤ M := le_trans (hts t0 ht0).1 (hts t0 ht0).2
    have : 1 * (M + 1) ≤ ((ts.length : Int) + 4) * (M + 1) :=
      Int.mul_le_mul_of_nonneg_right (by omega) (by omega)
    unfold maxInt64
    omega
  have hsumM : ts.sum ≤ ts.length * M := by
    have := List.sum_le_card_nsmul ts M (fun t ht => (hts t ht).2)
    simpa using this
  have hμM : ((ts.sum : Int) : ℚ) / (ts.length : ℚ) ≤ (M : ℚ) := by
    rw [div_le_iff₀ hNq, mul_comm]
    exact_mod_cast hsumM
  have hfl0 : 0 ≤ ⌊fmul (avgSeconds s.times) (ofInt Second)⌋ := Int.floor_nonneg.mpr hP0
  have hflM : ⌊fmul (avgSeconds s.times) (ofInt Second)⌋ < M + 1 := by
    apply Int.floor_lt.mpr
    push_cast
    linarith
  refine ⟨s, hf, hr, d, ?_, hP0, hP1, hP2⟩
  rw [d.avg, toDuration_of_floor hP0 ⟨by unfold minInt64; omega, by omega⟩]

/-- C12, amended. Mean boundedness up to one nanosecond: for every sequence of `N ≥ 1`
non-negative samples, all at most `M`, with `(N + 4) * (M + 1) ≤ 2^52`, fed to `addTime`
from `newStats()`, the resulting fields satisfy `min - 1 ≤ avg ≤ max` (the float64 mean
in seconds, truncated, can fall one nanosecond below `min`, never above `max`). -/
theorem C12_mean_bounded_within_one (conv : ℚ → Int) (ts : List Int) (M : Int)
    (hne : ts ≠ []) (hts : ∀ t ∈ ts, 0 ≤ t ∧ t ≤ M)
    (hsize : ((ts.length : Int) + 4) * (M + 1) ≤ 2 ^ 52) :
    ∃ s, feed conv newStats ts = some s ∧ s.min - 1 ≤ s.avg ∧ s.avg ≤ s.max := by
  obtain ⟨s, hf, hr, _, havg, _, hP1, hP2⟩ := feed_avg_bounds conv ts M hne hts hsize
  have hNpos : 0 < ts.length := List.length_pos.mpr hne
  have hNq : (0 : ℚ) < (ts.length : ℚ) := by exact_mod_cast hNpos
  -- the exact mean lies between `min` and `max`
  have hlo : (ts.length : Int) * s.min ≤ ts.sum := by
    have := List.card_nsmul_le_sum ts s.min (fun t ht => hr.min_le t ht)
    simpa using this
  have hhi : ts.sum ≤ (ts.length : Int) * s.max := by
    have := List.sum_le_card_nsmul ts s.max (fun t ht => hr.max_ge t ht)
    simpa using this
  have hμlo : (s.min : ℚ) ≤ ((ts.sum : Int) : ℚ) / (ts.length : ℚ) := by
    rw [le_div_iff₀ hNq, mul_comm]
    exact_mod_cast hlo
  have hμhi : ((ts.sum : Int) : ℚ) / (ts.length : ℚ) ≤ (s.max : ℚ) := by
    rw [div_le_iff₀ hNq, mul_comm]
    exact_mod_cast hhi
  refine ⟨s, hf, ?_, ?_⟩
  · rw [havg]
    apply Int.le_floor.mpr
    push_cast
    linarith
  · rw [havg]
    have : ⌊fmul (avgSeconds s.times) (ofInt Second)⌋ < s.max + 1 := by
      apply Int.floor_lt.mpr
      push_cast
      linarith
    omega

/-- C12 at a concrete input: the run `[5, 2, 9]` with the bound `M = 9`. -/
theorem C12_mean_bounded_within_one_witness :
    ([5, 2, 9] : List Int) ≠ [] ∧ (∀ t ∈ ([5, 2, 9] : List Int), 0 ≤ t ∧ t ≤ 9) ∧
    ((([5, 2, 9] : List Int).length : Int) + 4) * (9 + 1) ≤ 2 ^ 52 ∧
    ∃ s, feed (fun _ => 0) newStats [5, 2, 9] = some s ∧ s.min - 1 ≤ s.avg ∧ s.avg ≤ s.max :=
  ⟨by decide, by decide, by decide,
    C12_mean_bounded_within_one (fun _ => 0) [5, 2, 9] 9 (by decide) (by decide) (by decide)⟩

/-- C12 as stated fails for the single sample `15` ns: `min = 15` but `avg = 14` (the
float64 product `Seconds(15ns) * 1e9` is `15 - 2^-49`, truncated to `14`). -/
theorem C12_counterexample_avg_below_min :
    ([15] : List Int) ≠ [] ∧ (∀ t ∈ ([15] : List Int), 0 ≤ t) ∧
    ∃ s, feed (fun _ => 0) newStats [15] = some s ∧ s.min = 15 ∧ s.avg = 14 ∧
      ¬ (s.min ≤ s.avg) := by
  obtain ⟨s, hf, hr, hd⟩ := feed_newStats (fun _ => 0) [15]
  have d := hd (by decide)
  have ht : s.times = [15] := List.eq_of_perm_of_sorted hr.perm hr.sorted (by simp)
  have hmin : s.min = 15 := by
    have h1 := hr.min_le 15 (by simp)
    rcases hr.min_mem with h | h
    · rw [h] at h1
      exact absurd h1 (by decide)
    · simpa using h
  have h14 : s.avg = 14 := by
    rw [d.avg, ht, avgSeconds_singleton, round_trip_15ns]
    have hfl : ⌊(8444249301319679 : ℚ) / 562949953421312⌋ = 14 := by
      rw [Int.floor_eq_iff]
      norm_num
    rw [toDuration_of_floor (by norm_num) (by rw [hfl]; decide), hfl]
  exact ⟨by decide, by decide, s, hf, hmin, h14, by rw [hmin, h14]; decide⟩

/-! ## float64: accuracy of the square root -/

/-- The integer square root `s` of a scaled argument of at least `2 ^ 112`, moved to
`s + 1/2` when the argument is not a square, squares to the argument up to the relative
factors `(1 ± 2^-57)^2`. -/
theorem sqrt_scaled_bounds (scaled : ℚ) (h : (2 : ℚ) ^ 112 ≤ scaled) :
    0 < ((Nat.sqrt ⌊scaled⌋₊ : ℚ) +
        if ((Nat.sqrt ⌊scaled⌋₊ * Nat.sqrt ⌊scaled⌋₊ : Nat) : ℚ) = scaled then 0 else 1 / 2) ∧
      (1 - 1 / 2 ^ 57) ^ 2 * scaled ≤
        ((Nat.sqrt ⌊scaled⌋₊ : ℚ) +
          if ((Nat.sqrt ⌊scaled⌋₊ * Nat.sqrt ⌊scaled⌋₊ : Nat) : ℚ) = scaled then 0
          else 1 / 2) ^ 2 ∧
      ((Nat.sqrt ⌊scaled⌋₊ : ℚ) +
          if ((Nat.sqrt ⌊scaled⌋₊ * Nat.sqrt ⌊scaled⌋₊ : Nat) : ℚ) = scaled then 0
          else 1 / 2) ^ 2 ≤ (1 + 1 / 2 ^ 57) ^ 2 * scaled := by
  have hsc0 : 0 ≤ scaled := le_trans (by norm_num) h
  have h1 : ((Nat.sqrt ⌊scaled⌋₊ * Nat.sqrt ⌊scaled⌋₊ : Nat) : ℚ) ≤ scaled :=
    le_trans (by exact_mod_cast Nat.sqrt_le ⌊scaled⌋₊) (Nat.floor_le hsc0)
  have h2 : scaled <
      (((Nat.sqrt ⌊scaled⌋₊ + 1) * (Nat.sqrt ⌊scaled⌋₊ + 1) : Nat) : ℚ) := by
    have := Nat.lt_succ_sqrt ⌊scaled⌋₊
    have h3 : ⌊scaled⌋₊ + 1 ≤ (Nat.sqrt ⌊scaled⌋₊ + 1) * (Nat.sqrt ⌊scaled⌋₊ + 1) := this
    have h4 : scaled < ((⌊scaled⌋₊ + 1 : Nat) : ℚ) := by
      push_cast
      exact Nat.lt_floor_add_one scaled
    exact lt_of_lt_of_le h4 (by exact_mod_cast h3)
  generalize Nat.sqrt ⌊scaled⌋₊ = s at h1 h2
  have hs : 2 ^ 56 ≤ s := by
    by_contra hc
    have hc1 : s + 1 ≤ 2 ^ 56 := by omega
    have hc2 : (s + 1) * (s + 1) ≤ 2 ^ 56 * 2 ^ 56 := Nat.mul_le_mul hc1 hc1
    have hc3 : (((s + 1) * (s + 1) : Nat) : ℚ) ≤ ((2 ^ 56 * 2 ^ 56 : Nat) : ℚ) := by
      exact_mod_cast hc2
    have hc4 : ((2 ^ 56 * 2 ^ 56 : Nat) : ℚ) = 2 ^ 112 := by norm_num
    linarith
  have hsq : (2 : ℚ) ^ 56 ≤ (s : ℚ) := by exact_mod_cast hs
  push_cast at h1 h2
  split_ifs with heq
  · push_cast at heq
    rw [add_zero]
    refine ⟨by linarith [show (0 : ℚ) < 2 ^ 56 by norm_num], ?_, ?_⟩
    · rw [pow_two (s : ℚ), heq]
      have : (1 - 1 / 2 ^ 57 : ℚ) ^ 2 ≤ 1 := by norm_num
      nlinarith
    · rw [pow_two (s : ℚ), heq]
      have : (1 : ℚ) ≤ (1 + 1 / 2 ^ 57 : ℚ) ^ 2 := by norm_num
      nlinarith
  · have hspos : (0 : ℚ) < (s : ℚ) := by linarith [show (0 : ℚ) < 2 ^ 56 by norm_num]
    refine ⟨by linarith, ?_, ?_⟩
    · have ha : (1 - 1 / 2 ^ 57 : ℚ) * ((s : ℚ) + 1) ≤ (s : ℚ) + 1 / 2 := by
        have : ((s : ℚ) + 1) / 2 ^ 57 ≥ 1 / 2 := by
          rw [ge_iff_le, le_div_iff₀ (by norm_num)]
          norm_num
          linarith
        linarith [show (1 - 1 / 2 ^ 57 : ℚ) * ((s : ℚ) + 1) =
          ((s : ℚ) + 1) - ((s : ℚ) + 1) / 2 ^ 57 by ring]
      have hb : 0 ≤ (1 - 1 / 2 ^ 57 : ℚ) * ((s : ℚ) + 1) :=
        mul_nonneg (by norm_num) (by linarith)
      calc (1 - 1 / 2 ^ 57 : ℚ) ^ 2 * scaled
          ≤ (1 - 1 / 2 ^ 57 : ℚ) ^ 2 * (((s : ℚ) + 1) * ((s : ℚ) + 1)) :=
            mul_le_mul_of_nonneg_left (le_of_lt h2) (by positivity)
        _ = ((1 - 1 / 2 ^ 57 : ℚ) * ((s : ℚ) + 1)) ^ 2 := by ring
        _ ≤ ((s : ℚ) + 1 / 2) ^ 2 := pow_le_pow_left₀ hb ha 2
    · have ha : (s : ℚ) + 1 / 2 ≤ (1 + 1 / 2 ^ 57 : ℚ) * (s : ℚ) := by
        have : (s : ℚ) / 2 ^ 57 ≥ 1 / 2 := by
          rw [ge_iff_le, le_div_iff₀ (by norm_num)]
          norm_num
          linarith
        linarith [show (1 + 1 / 2 ^ 57 : ℚ) * (s : ℚ) = (s : ℚ) + (s : ℚ) / 2 ^ 57 by ring]
      calc ((s : ℚ) + 1 / 2) ^ 2 ≤ ((1 + 1 / 2 ^ 57 : ℚ) * (s : ℚ)) ^ 2 :=
            pow_le_pow_left₀ (by linarith) ha 2
        _ = (1 + 1 / 2 ^ 57 : ℚ) ^ 2 * ((s : ℚ) * (s : ℚ)) := by ring
        _ ≤ (1 + 1 / 2 ^ 57 : ℚ) ^ 2 * scaled :=
            mul_le_mul_of_nonneg_left h1 (by positivity)

/-- The square root carries at most three relative roundings on its square: for a
float64 argument `a` in the normal range, `fsqrt a ^ 2` is within the factors
`(1 ± 2^-53)^3` of `a`. -/
theorem fsqrt_sq_bounds {a : ℚ} (ha : (2 : ℚ) ^ (-1022 : Int) ≤ a) :
    (1 - 1 / 2 ^ 53) ^ 3 * a ≤ fsqrt a ^ 2 ∧ fsqrt a ^ 2 ≤ (1 + 1 / 2 ^ 53) ^ 3 * a := by
  have hapos : 0 < a := lt_of_lt_of_le (two_zpow_pos _) ha
  unfold fsqrt
  rw [if_neg (not_le.mpr hapos)]
  simp only
  obtain ⟨hlo, _⟩ := log_abs_bounds (ne_of_gt hapos)
  rw [abs_of_pos hapos] at hlo
  obtain ⟨K, hK⟩ : ∃ K : Int, K = 56 - Int.log 2 a / 2 := ⟨_, rfl⟩
  rw [← hK]
  have hK2 : (112 : Int) ≤ Int.log 2 a + (K + K) := by omega
  have hKpos := two_zpow_pos K
  have hK4 : (4 : ℚ) ^ K = (2 : ℚ) ^ K * (2 : ℚ) ^ K := by
    rw [← mul_zpow]
    norm_num
  have hscaled : (2 : ℚ) ^ 112 ≤ a * (4 : ℚ) ^ K := by
    have h1 : (2 : ℚ) ^ (112 : Int) ≤ (2 : ℚ) ^ (Int.log 2 a + (K + K)) :=
      zpow_le_zpow_right₀ (by norm_num) hK2
    have h2 : (2 : ℚ) ^ (112 : Int) = 2 ^ 112 := by norm_num
    rw [h2, zpow_add₀ (by norm_num), zpow_add₀ (by norm_num)] at h1
    rw [hK4]
    exact le_trans h1 (mul_le_mul_of_nonneg_right hlo (by positivity))
  have haeq : a = a * (4 : ℚ) ^ K / ((2 : ℚ) ^ K * (2 : ℚ) ^ K) := by
    rw [hK4]
    field_simp
  obtain ⟨hz0, hz1, hz2⟩ := sqrt_scaled_bounds _ hscaled
  generalize a * (4 : ℚ) ^ K = scaled at haeq hz0 hz1 hz2
  generalize ((Nat.sqrt ⌊scaled⌋₊ : ℚ) +
    if ((Nat.sqrt ⌊scaled⌋₊ * Nat.sqrt ⌊scaled⌋₊ : Nat) : ℚ) = scaled then 0 else 1 / 2) = z
    at hz0 hz1 hz2
  have hy0 : 0 < z / (2 : ℚ) ^ K := div_pos hz0 hKpos
  have hysq : (z / (2 : ℚ) ^ K) ^ 2 = z ^ 2 / ((2 : ℚ) ^ K * (2 : ℚ) ^ K) := by
    rw [div_pow, pow_two ((2 : ℚ) ^ K)]
  have hKK : (0 : ℚ) < (2 : ℚ) ^ K * (2 : ℚ) ^ K := by positivity
  have hy1 : (1 - 1 / 2 ^ 57) ^ 2 * a ≤ (z / (2 : ℚ) ^ K) ^ 2 := by
    rw [hysq, haeq, ← mul_div_assoc]
    exact div_le_div_of_nonneg_right hz1 (le_of_lt hKK)
  have hy2 : (z / (2 : ℚ) ^ K) ^ 2 ≤ (1 + 1 / 2 ^ 57) ^ 2 * a := by
    rw [hysq, haeq, ← mul_div_assoc]
    exact div_le_div_of_nonneg_right hz2 (le_of_lt hKK)
  generalize z / (2 : ℚ) ^ K = y at hy0 hy1 hy2
  have hynorm : (2 : ℚ) ^ (-1022 : Int) ≤ y := by
    by_contra hc
    have hc1 : y < (2 : ℚ) ^ (-1022 : Int) := not_le.mp hc
    have h512 : (2 : ℚ) ^ (-1022 : Int) ≤ 1 / 4 := by
      have h := zpow_le_zpow_right₀ (a := (2 : ℚ)) (by norm_num)
        (show (-1022 : Int) ≤ -2 by norm_num)
      have e : (2 : ℚ) ^ (-2 : Int) = 1 / 4 := by norm_num
      rwa [e] at h
    have hc2 : y ^ 2 < (2 : ℚ) ^ (-1022 : Int) * (1 / 4) := by
      rw [pow_two]
      exact mul_lt_mul'' hc1 (lt_of_lt_of_le hc1 h512) (le_of_lt hy0) (le_of_lt hy0)
    have hc3 : (1 / 2 : ℚ) ≤ (1 - 1 / 2 ^ 57) ^ 2 := by norm_num
    have hc4 : (1 / 2 : ℚ) * a ≤ (1 - 1 / 2 ^ 57) ^ 2 * a :=
      mul_le_mul_of_nonneg_right hc3 (le_of_lt hapos)
    have hc5 := two_zpow_pos (-1022)
    have hc6 := le_trans hc4 hy1
    generalize (2 : ℚ) ^ (-1022 : Int) = T at ha hc2 hc5
    linarith
  obtain ⟨hr1, hr2⟩ := rnd_rel (le_of_lt hy0) (Or.inr hynorm)
  have hr0 : 0 ≤ rnd y := rnd_nonneg (le_of_lt hy0)
  constructor
  · have e1 : (1 - 1 / 2 ^ 53 : ℚ) ^ 3 ≤ (1 - 1 / 2 ^ 53) ^ 2 * (1 - 1 / 2 ^ 57) ^ 2 := by
      norm_num
    calc (1 - 1 / 2 ^ 53 : ℚ) ^ 3 * a
        ≤ (1 - 1 / 2 ^ 53) ^ 2 * (1 - 1 / 2 ^ 57) ^ 2 * a :=
          mul_le_mul_of_nonneg_right e1 (le_of_lt hapos)
      _ = (1 - 1 / 2 ^ 53) ^ 2 * ((1 - 1 / 2 ^ 57) ^ 2 * a) := by ring
      _ ≤ (1 - 1 / 2 ^ 53) ^ 2 * y ^ 2 := mul_le_mul_of_nonneg_left hy1 (by positivity)
      _ = ((1 - 1 / 2 ^ 53) * y) ^ 2 := by ring
      _ ≤ rnd y ^ 2 := pow_le_pow_left₀ (mul_nonneg (by norm_num) (le_of_lt hy0)) hr1 2
  · have e1 : (1 + 1 / 2 ^ 53 : ℚ) ^ 2 * (1 + 1 / 2 ^ 57) ^ 2 ≤ (1 + 1 / 2 ^ 53) ^ 3 := by
      norm_num
    calc rnd y ^ 2 ≤ ((1 + 1 / 2 ^ 53) * y) ^ 2 := pow_le_pow_left₀ hr0 hr2 2
      _ = (1 + 1 / 2 ^ 53) ^ 2 * y ^ 2 := by ring
      _ ≤ (1 + 1 / 2 ^ 53) ^ 2 * ((1 + 1 / 2 ^ 57) ^ 2 * a) :=
          mul_le_mul_of_nonneg_left hy2 (by positivity)
      _ = (1 + 1 / 2 ^ 53) ^ 2 * (1 + 1 / 2 ^ 57) ^ 2 * a := by ring
      _ ≤ (1 + 1 / 2 ^ 53) ^ 3 * a := mul_le_mul_of_nonneg_right e1 (le_of_lt hapos)

/-! ## float64: relative error with a sign, and the grid of small values -/

/-- One rounding in the normal range, of either sign: relative error at most `2^-53`. -/
theorem rnd_rel_abs {x : ℚ} (h : x = 0 ∨ (2 : ℚ) ^ (-1022 : Int) ≤ |x|) :
    |rnd x - x| ≤ |x| / 2 ^ 53 := by
  rcases le_total 0 x with h0 | h0
  · rw [abs_of_nonneg h0] at h
    obtain ⟨h1, h2⟩ := rnd_rel h0 h
    rw [abs_of_nonneg h0, abs_le]
    constructor <;> linarith
  · have h0n : 0 ≤ -x := neg_nonneg.mpr h0
    have hn : -x = 0 ∨ (2 : ℚ) ^ (-1022 : Int) ≤ -x := by
      rcases h with h | h
      · exact Or.inl (by rw [h, neg_zero])
      · rw [abs_of_nonpos h0] at h
        exact Or.inr h
    obtain ⟨h1, h2⟩ := rnd_rel h0n hn
    rw [rnd_neg] at h1 h2
    rw [abs_of_nonpos h0, abs_le]
    constructor <;> linarith

/-- A rounding result is a multiple of `2 ^ g` when the rounded value is zero or at least
`2 ^ (g + 52)` in magnitude. -/
theorem rnd_grid {q : ℚ} (g : Int)
    (h : q = 0 ∨ (2 : ℚ) ^ (g + 52) ≤ |q|) : ∃ k : Int, rnd q = (k : ℚ) * (2 : ℚ) ^ g := by
  by_cases hq : q = 0
  · exact ⟨0, by rw [hq, rnd_zero]; simp⟩
  · rcases h with h | h
    · exact absurd h hq
    have hlog : g + 52 ≤ Int.log 2 |q| :=
      (Int.zpow_le_iff_le_log (b := 2) (by norm_num) (abs_pos.mpr hq)).mp (by simpa using h)
    have hu : g ≤ ulpExp q := by
      unfold ulpExp
      omega
    obtain ⟨d, hd⟩ : ∃ d : Nat, ulpExp q = g + d := ⟨(ulpExp q - g).toNat, by omega⟩
    refine ⟨roundHalfEven (q / (2 : ℚ) ^ ulpExp q) * 2 ^ d, ?_⟩
    have e : (2 : ℚ) ^ ulpExp q = (2 : ℚ) ^ g * 2 ^ d := by
      rw [hd, zpow_add₀ (by norm_num), zpow_natCast]
    rw [rnd_of_ne_zero hq]
    generalize roundHalfEven (q / (2 : ℚ) ^ ulpExp q) = n
    rw [e]
    push_cast
    ring

theorem rnd_grid_of_ge {q : ℚ} (h : rnd q = 0 ∨ (1 : ℚ) / 2 ^ 400 ≤ rnd q) :
    ∃ k : Int, rnd q = (k : ℚ) * (2 : ℚ) ^ (-460 : Int) := by
  rcases h with h | h
  · exact ⟨0, by rw [h]; simp⟩
  · apply rnd_grid (-460)
    right
    have e401 : (2 : ℚ) ^ (-401 : Int) = 1 / 2 ^ 401 := by
      rw [zpow_neg, one_div]
      norm_cast
    have hq : (2 : ℚ) ^ (-401 : Int) < q := by
      by_contra hc
      have h1 : q ≤ ((1 : Int) : ℚ) * (2 : ℚ) ^ (-401 : Int) := by
        rw [Int.cast_one, one_mul]
        exact not_lt.mp hc
      have h2 := rnd_le_of_le 1 (-401) (by norm_num) (by norm_num) h1
      rw [Int.cast_one, one_mul, e401] at h2
      have h3 : (1 : ℚ) / 2 ^ 401 < 1 / 2 ^ 400 := by
        apply one_div_lt_one_div_of_lt (by positivity)
        exact pow_lt_pow_right₀ (by norm_num) (by norm_num)
      linarith
    have hpos : 0 < q := lt_trans (two_zpow_pos _) hq
    rw [abs_of_pos hpos]
    refine le_trans ?_ (le_of_lt hq)
    exact zpow_le_zpow_right₀ (by norm_num) (by norm_num)

/-- Two values on the grid `2^-460` are equal or at least `2^-460` apart. -/
theorem grid_sub {x y : ℚ} (hx : ∃ k : Int, x = (k : ℚ) * (2 : ℚ) ^ (-460 : Int))
    (hy : ∃ k : Int, y = (k : ℚ) * (2 : ℚ) ^ (-460 : Int)) :
    x - y = 0 ∨ (2 : ℚ) ^ (-460 : Int) ≤ |x - y| := by
  obtain ⟨k1, h1⟩ := hx
  obtain ⟨k2, h2⟩ := hy
  have hg := two_zpow_pos (-460)
  by_cases hk : k1 = k2
  · left
    rw [h1, h2, hk, sub_self]
  · right
    have e : x - y = ((k1 - k2 : Int) : ℚ) * (2 : ℚ) ^ (-460 : Int) := by
      rw [h1, h2]
      push_cast
      ring
    rw [e, abs_mul, abs_of_pos hg]
    have hk1 : (1 : Int) ≤ |k1 - k2| := by
      have : k1 - k2 ≠ 0 := sub_ne_zero.mpr hk
      exact Int.one_le_abs this
    have hk2 : (1 : ℚ) ≤ |((k1 - k2 : Int) : ℚ)| := by
      rw [← Int.cast_abs]
      exact_mod_cast hk1
    calc (2 : ℚ) ^ (-460 : Int) = 1 * (2 : ℚ) ^ (-460 : Int) := (one_mul _).symm
      _ ≤ _ := mul_le_mul_of_nonneg_right hk2 (le_of_lt hg)

/-- The float64 scan `acc += p` over values that are zero or at least `2 ^ g`, in the
normal range: if the running value carries `m` relative roundings of an exact `a`, then
after the scan it carries `m + len` roundings of `a` plus the exact sum. -/
theorem fold_rel (g : Int) (hg : -1022 ≤ g) (ps : List ℚ) :
    ∀ (acc a : ℚ) (m : Nat), (∀ p ∈ ps, p = 0 ∨ (2 : ℚ) ^ g ≤ p) →
      (acc = 0 ∨ (2 : ℚ) ^ g ≤ acc) → 0 ≤ a →
      (1 - 1 / 2 ^ 53) ^ m * a ≤ acc → acc ≤ (1 + 1 / 2 ^ 53) ^ m * a →
      (ps.foldl fadd acc = 0 ∨ (2 : ℚ) ^ g ≤ ps.foldl fadd acc) ∧
        (1 - 1 / 2 ^ 53) ^ (m + ps.length) * (a + ps.sum) ≤ ps.foldl fadd acc ∧
        ps.foldl fadd acc ≤ (1 + 1 / 2 ^ 53) ^ (m + ps.length) * (a + ps.sum) := by
  have hT := two_zpow_pos g
  have hTg : (2 : ℚ) ^ (-1022 : Int) ≤ (2 : ℚ) ^ g := zpow_le_zpow_right₀ (by norm_num) hg
  induction ps with
  | nil =>
    intro acc a m _ hacc _ hlo hhi
    simp only [List.length_nil, Nat.add_zero, List.sum_nil, add_zero, List.foldl_nil]
    exact ⟨hacc, hlo, hhi⟩
  | cons p ps ih =>
    intro acc a m hps hacc ha hlo hhi
    have hp := hps p (List.mem_cons_self _ _)
    have hp0 : 0 ≤ p := by
      rcases hp with h | h
      · rw [h]
      · exact le_trans (le_of_lt hT) h
    have hacc0 : 0 ≤ acc := by
      rcases hacc with h | h
      · rw [h]
      · exact le_trans (le_of_lt hT) h
    have hsum0 : 0 ≤ acc + p := add_nonneg hacc0 hp0
    have hsum : acc + p = 0 ∨ (2 : ℚ) ^ g ≤ acc + p := by
      rcases hacc with h | h
      · rcases hp with h1 | h1
        · left
          rw [h, h1, add_zero]
        · right
          linarith
      · right
        linarith
    have hsumn : acc + p = 0 ∨ (2 : ℚ) ^ (-1022 : Int) ≤ acc + p := by
      rcases hsum with h | h
      · exact Or.inl h
      · exact Or.inr (le_trans hTg h)
    obtain ⟨hr1, hr2⟩ := rnd_rel hsum0 hsumn
    have hnew : fadd acc p = 0 ∨ (2 : ℚ) ^ g ≤ fadd acc p := by
      unfold fadd
      rcases hsum with h | h
      · left
        rw [h, rnd_zero]
      · right
        have h1 : ((1 : Int) : ℚ) * (2 : ℚ) ^ g ≤ acc + p := by
          rw [Int.cast_one, one_mul]
          exact h
        have h2 := le_rnd_of_le 1 g (by norm_num) (by omega) h1
        rw [Int.cast_one, one_mul] at h2
        exact h2
    have hlo1 : (1 - 1 / 2 ^ 53 : ℚ) ^ (m + 1) * (a + p) ≤ fadd acc p := by
      unfold fadd
      have h1 : (1 - 1 / 2 ^ 53 : ℚ) ^ m * p ≤ p := by
        have := mul_le_mul_of_nonneg_right (lo_pow_le_one m) hp0
        rwa [one_mul] at this
      calc (1 - 1 / 2 ^ 53 : ℚ) ^ (m + 1) * (a + p)
          = (1 - 1 / 2 ^ 53) * ((1 - 1 / 2 ^ 53 : ℚ) ^ m * a + (1 - 1 / 2 ^ 53 : ℚ) ^ m * p) := by
            ring
        _ ≤ (1 - 1 / 2 ^ 53) * (acc + p) :=
            mul_le_mul_of_nonneg_left (by linarith) (by norm_num)
        _ ≤ rnd (acc + p) := hr1
    have hhi1 : fadd acc p ≤ (1 + 1 / 2 ^ 53 : ℚ) ^ (m + 1) * (a + p) := by
      unfold fadd
      have h1 : p ≤ (1 + 1 / 2 ^ 53 : ℚ) ^ m * p := by
        have := mul_le_mul_of_nonneg_right (hi_pow_ge_one m) hp0
        rwa [one_mul] at this
      calc rnd (acc + p) ≤ (1 + 1 / 2 ^ 53) * (acc + p) := hr2
        _ ≤ (1 + 1 / 2 ^ 53) * ((1 + 1 / 2 ^ 53 : ℚ) ^ m * a + (1 + 1 / 2 ^ 53 : ℚ) ^ m * p) :=
            mul_le_mul_of_nonneg_left (by linarith) (by norm_num)
        _ = (1 + 1 / 2 ^ 53 : ℚ) ^ (m + 1) * (a + p) := by ring
    have := ih (fadd acc p) (a + p) (m + 1) (fun q hq => hps q (List.mem_cons_of_mem _ hq))
      hnew (add_nonneg ha hp0) hlo1 hhi1
    simp only [List.foldl_cons, List.length_cons, List.sum_cons]
    have e1 : m + (ps.length + 1) = m + 1 + ps.length := by omega
    have e2 : a + (p + ps.sum) = a + p + ps.sum := by ring
    rw [e1, e2]
    exact this

/-! ## The two evaluations of line 69 -/

theorem sdSecondsOn_false (times : List Int) : sdSecondsOn false times = sdSeconds times := rfl

theorem addTimeOn_false (conv : ℚ → Int) (s : Statistics) (t : Int) :
    addTimeOn false conv s t = addTime conv s t := rfl

theorem feedOn_false (conv : ℚ → Int) (ts : List Int) :
    ∀ s : Statistics, feedOn false conv s ts = feed conv s ts := by
  induction ts with
  | nil => intro s; rfl
  | cons t ts ih =>
    intro s
    unfold feedOn feed
    rw [addTimeOn_false]
    cases addTime conv s t with
    | none => rfl
    | some s1 => exact ih s1

/-- The two builds differ in the field `sd` only. -/
theorem addTimeOn_eq (fused : Bool) (conv : ℚ → Int) (s : Statistics) (t : Int) :
    addTimeOn fused conv s t =
      (addTime conv s t).map (fun s1 =>
        { s1 with sd := toDuration conv (fmul (sdSecondsOn fused s1.times) (ofInt Second)) }) := by
  unfold addTimeOn addTime
  cases BinarySearch s.times t with
  | none => rfl
  | some p =>
    obtain ⟨i, b⟩ := p
    simp only
    cases Insert s.times i t with
    | none => rfl
    | some times =>
      simp only
      cases times[times.length / 2]? <;> cases times[times.length * 3 / 4]? <;>
        cases times[times.length * 9 / 10]? <;> cases times[times.length * 19 / 20]? <;>
        cases times[times.length * 99 / 100]? <;> rfl

/-- The method reads `times`, `max` and `min` of the old state, not `sd`. -/
theorem addTime_sd_irrelevant (conv : ℚ → Int) (s : Statistics) (x : Int) (t : Int) :
    addTime conv { s with sd := x } t = addTime conv s t := rfl

theorem feed_sd_irrelevant (conv : ℚ → Int) (s : Statistics) (x : Int) (ts : List Int)
    (hne : ts ≠ []) : feed conv { s with sd := x } ts = feed conv s ts := by
  cases ts with
  | nil => exact absurd rfl hne
  | cons t ts =>
    unfold feed
    rw [addTime_sd_irrelevant]

/-- A run on either build ends in the state of the unfused run with the field `sd`
recomputed. -/
theorem feedOn_eq (fused : Bool) (conv : ℚ → Int) (ts : List Int) :
    ∀ s : Statistics, ts ≠ [] → feedOn fused conv s ts =
      (feed conv s ts).map (fun s1 =>
        { s1 with sd := toDuration conv (fmul (sdSecondsOn fused s1.times) (ofInt Second)) }) := by
  induction ts with
  | nil => intro s h; exact absurd rfl h
  | cons t ts ih =>
    intro s _
    unfold feedOn feed
    rw [addTimeOn_eq]
    cases addTime conv s t with
    | none => rfl
    | some s1 =>
      simp only [Option.map_some']
      cases ts with
      | nil => rfl
      | cons u us =>
        rw [ih _ (by simp), feed_sd_irrelevant _ _ _ _ (by simp)]

/-- Runs from `newStats()` on either build return, with the order statistics of the
unfused run. -/
theorem feedOn_newStats (fused : Bool) (conv : ℚ → Int) (ts : List Int) (hne : ts ≠ []) :
    ∃ s s1, feed conv newStats ts = some s1 ∧ feedOn fused conv newStats ts = some s ∧
      Reach ts s1 ∧ Derived conv s1 ∧ s.times = s1.times ∧ s.avg = s1.avg ∧
      s.sd = toDuration conv (fmul (sdSecondsOn fused s.times) (ofInt Second)) := by
  obtain ⟨s1, hf, hr, hd⟩ := feed_newStats conv ts
  refine ⟨{ s1 with sd := toDuration conv (fmul (sdSecondsOn fused s1.times) (ofInt Second)) },
    s1, hf, ?_, hr, hd hne, rfl, rfl, rfl⟩
  rw [feedOn_eq fused conv ts newStats hne, hf]
  rfl

/-! ## The deviation of one sample from the mean, in nanoseconds -/

/-- What the size condition `(N + 4) * (M + 1) ≤ 2^52` gives for a non-empty run of
samples in `[0, M]`. -/
theorem size_facts (ts : List Int) (M : Int) (hne : ts ≠ [])
    (hts : ∀ t ∈ ts, 0 ≤ t ∧ t ≤ M) (hsize : ((ts.length : Int) + 4) * (M + 1) ≤ 2 ^ 52) :
    0 ≤ M ∧ 0 < ts.length ∧ ts.length + 4 ≤ 2 ^ 52 ∧ 5 * (M + 1) ≤ 2 ^ 52 ∧
      M ≤ maxInt64 := by
  obtain ⟨t0, ht0⟩ := List.exists_mem_of_ne_nil ts hne
  have hM0 : 0 ≤ M := le_trans (hts t0 ht0).1 (hts t0 ht0).2
  have hNpos : 0 < ts.length := List.length_pos.mpr hne
  have hN52 : ts.length + 4 ≤ 2 ^ 52 := by
    have : ((ts.length : Int) + 4) * 1 ≤ ((ts.length : Int) + 4) * (M + 1) :=
      Int.mul_le_mul_of_nonneg_left (by omega) (by omega)
    omega
  have h5 : 5 * (M + 1) ≤ 2 ^ 52 := by
    have : 5 * (M + 1) ≤ ((ts.length : Int) + 4) * (M + 1) :=
      Int.mul_le_mul_of_nonneg_right (by omega) (by omega)
    omega
  refine ⟨hM0, hNpos, hN52, h5, ?_⟩
  unfold maxInt64
  omega

/-- What the range condition `M + 4096 * (N + 8) < 2^63` gives for a non-empty run of
samples in `[0, M]`. -/
theorem range_facts (ts : List Int) (M : Int) (hne : ts ≠ [])
    (hts : ∀ t ∈ ts, 0 ≤ t ∧ t ≤ M) (hrange : M + 4096 * ((ts.length : Int) + 8) < 2 ^ 63) :
    0 ≤ M ∧ 0 < ts.length ∧ ts.length + 8 ≤ 2 ^ 51 ∧ M ≤ maxInt64 := by
  obtain ⟨t0, ht0⟩ := List.exists_mem_of_ne_nil ts hne
  have hM0 : 0 ≤ M := le_trans (hts t0 ht0).1 (hts t0 ht0).2
  have hNpos : 0 < ts.length := List.length_pos.mpr hne
  refine ⟨hM0, hNpos, by omega, ?_⟩
  unfold maxInt64
  omega

theorem Seconds_grid {t : Int} (h0 : 0 ≤ t) (h64 : t ≤ maxInt64) :
    ∃ k : Int, Seconds t = (k : ℚ) * (2 : ℚ) ^ (-460 : Int) := by
  obtain ⟨h1, h2⟩ := Seconds_rel h0 h64
  rw [Seconds_of_nonneg h0 h64] at h1 h2 ⊢
  apply rnd_grid_of_ge
  rcases (by omega : t = 0 ∨ 1 ≤ t) with h | h
  · left
    rw [h] at h1 h2
    simp only [Int.cast_zero, zero_div, mul_zero] at h1 h2
    rw [h]
    exact le_antisymm h2 h1
  · right
    have ht : (1 : ℚ) ≤ (t : ℚ) := by exact_mod_cast h
    have h3 : (1 : ℚ) / 2 ^ 400 ≤ (1 - 1 / 2 ^ 53) ^ 2 * (1 / 1000000000) := by norm_num
    have h4 : (1 - 1 / 2 ^ 53 : ℚ) ^ 2 * (1 / 1000000000) ≤
        (1 - 1 / 2 ^ 53) ^ 2 * ((t : ℚ) / 1000000000) :=
      mul_le_mul_of_nonneg_left (div_le_div_of_nonneg_right ht (by norm_num)) (by positivity)
    linarith

theorem avgSeconds_grid (ts : List Int) (hne : ts ≠ [])
    (hts64 : ∀ t ∈ ts, 0 ≤ t ∧ t ≤ maxInt64) (hN52 : ts.length + 4 ≤ 2 ^ 52) :
    ∃ k : Int, avgSeconds ts = (k : ℚ) * (2 : ℚ) ^ (-460 : Int) := by
  obtain ⟨hA1, hA2⟩ := avgSeconds_rel_gen ts hne hts64 hN52
  have hNpos : 0 < ts.length := List.length_pos.mpr hne
  have hsum0 : 0 ≤ ts.sum := List.sum_nonneg (fun t ht => (hts64 t ht).1)
  have hNq : (0 : ℚ) < (ts.length : ℚ) := by exact_mod_cast hNpos
  have hNle : (ts.length : ℚ) ≤ 2 ^ 52 := by
    have : (ts.length : ℚ) + 4 ≤ 2 ^ 52 := by exact_mod_cast hN52
    linarith
  unfold avgSeconds fdiv at hA1 hA2 ⊢
  apply rnd_grid_of_ge
  rcases (by omega : ts.sum = 0 ∨ 1 ≤ ts.sum) with h | h
  · left
    rw [h] at hA1 hA2
    simp only [Int.cast_zero, zero_div, mul_zero] at hA1 hA2
    exact le_antisymm hA2 hA1
  · right
    have hS : (1 : ℚ) ≤ ((ts.sum : Int) : ℚ) := by exact_mod_cast h
    have h1 : (1 : ℚ) / 1000000000 / 2 ^ 52 ≤
        ((ts.sum : Int) : ℚ) / 1000000000 / (ts.length : ℚ) :=
      div_le_div₀ (by positivity) (div_le_div_of_nonneg_right hS (by norm_num)) hNq hNle
    have h3 : (1 / 2 : ℚ) * (1 / 1000000000 / 2 ^ 52) ≤
        (1 - 1 / 2 ^ 53 : ℚ) ^ (ts.length + 3) *
          (((ts.sum : Int) : ℚ) / 1000000000 / (ts.length : ℚ)) :=
      mul_le_mul (lo_pow_ge_half _ (by omega)) h1 (by norm_num) (le_of_lt (lo_pow_pos _))
    have h4 : (1 : ℚ) / 2 ^ 400 ≤ 1 / 2 * (1 / 1000000000 / 2 ^ 52) := by norm_num
    linarith

/-- The seconds of a duration, back in nanoseconds: within `3 t / 2^53` of `t`. -/
theorem Seconds_ns {t : Int} (h0 : 0 ≤ t) (h64 : t ≤ maxInt64) :
    |Seconds t * 1000000000 - (t : ℚ)| ≤ 3 * (t : ℚ) / 2 ^ 53 := by
  obtain ⟨h1, h2⟩ := Seconds_rel h0 h64
  have ht : (0 : ℚ) ≤ (t : ℚ) := by exact_mod_cast h0
  have e1 : (1 - 1 / 2 ^ 53 : ℚ) ^ 2 * ((t : ℚ) / 1000000000) * 1000000000 =
      (1 - 1 / 2 ^ 53 : ℚ) ^ 2 * (t : ℚ) := by ring
  have e2 : (1 + 1 / 2 ^ 53 : ℚ) ^ 2 * ((t : ℚ) / 1000000000) * 1000000000 =
      (1 + 1 / 2 ^ 53 : ℚ) ^ 2 * (t : ℚ) := by ring
  have h1a := mul_le_mul_of_nonneg_right h1 (show (0 : ℚ) ≤ 1000000000 by norm_num)
  have h2a := mul_le_mul_of_nonneg_right h2 (show (0 : ℚ) ≤ 1000000000 by norm_num)
  rw [e1] at h1a
  rw [e2] at h2a
  have c1 : (1 - 3 / 2 ^ 53 : ℚ) * (t : ℚ) ≤ (1 - 1 / 2 ^ 53 : ℚ) ^ 2 * (t : ℚ) :=
    mul_le_mul_of_nonneg_right (by norm_num) ht
  have c2 : (1 + 1 / 2 ^ 53 : ℚ) ^ 2 * (t : ℚ) ≤ (1 + 3 / 2 ^ 53 : ℚ) * (t : ℚ) :=
    mul_le_mul_of_nonneg_right (by norm_num) ht
  rw [abs_le]
  constructor <;> linarith

/-- The float64 mean in seconds, back in nanoseconds, against the exact mean `μ`: the
`N + 3` roundings leave it between `(1 - a) * μ` and `μ / (1 - a)`, `a = (N + 3) / 2^53`. -/
theorem avgSeconds_ns_rel (ts : List Int) (M : Int) (hne : ts ≠ [])
    (hts : ∀ t ∈ ts, 0 ≤ t ∧ t ≤ M) (hN52 : ts.length + 4 ≤ 2 ^ 52) (hM64 : M ≤ maxInt64) :
    (1 - ((ts.length : ℚ) + 3) / 2 ^ 53) * (((ts.sum : Int) : ℚ) / (ts.length : ℚ)) ≤
        avgSeconds ts * 1000000000 ∧
      avgSeconds ts * 1000000000 * (1 - ((ts.length : ℚ) + 3) / 2 ^ 53) ≤
        ((ts.sum : Int) : ℚ) / (ts.length : ℚ) ∧
      0 ≤ ((ts.sum : Int) : ℚ) / (ts.length : ℚ) ∧
      ((ts.sum : Int) : ℚ) / (ts.length : ℚ) ≤ (M : ℚ) := by
  have hts64 : ∀ t ∈ ts, 0 ≤ t ∧ t ≤ maxInt64 := fun t ht =>
    ⟨(hts t ht).1, le_trans (hts t ht).2 hM64⟩
  obtain ⟨hA1, hA2⟩ := avgSeconds_rel_gen ts hne hts64 hN52
  have hNpos : 0 < ts.length := List.length_pos.mpr hne
  have hsum0 : 0 ≤ ts.sum := List.sum_nonneg (fun t ht => (hts t ht).1)
  have hsumM : ts.sum ≤ ts.length * M := by
    have := List.sum_le_card_nsmul ts M (fun t ht => (hts t ht).2)
    simpa using this
  have hNq : (0 : ℚ) < (ts.length : ℚ) := by exact_mod_cast hNpos
  have hS0 : (0 : ℚ) ≤ ((ts.sum : Int) : ℚ) := by exact_mod_cast hsum0
  have hSM : ((ts.sum : Int) : ℚ) ≤ (ts.length : ℚ) * (M : ℚ) := by exact_mod_cast hsumM
  have hμ0 : 0 ≤ ((ts.sum : Int) : ℚ) / (ts.length : ℚ) := div_nonneg hS0 (le_of_lt hNq)
  have hμM : ((ts.sum : Int) : ℚ) / (ts.length : ℚ) ≤ (M : ℚ) := by
    rw [div_le_iff₀ hNq, mul_comm]
    exact hSM
  have hL := lo_pow_ge (ts.length + 3)
  have hN3 : ((ts.length + 3 : Nat) : ℚ) = (ts.length : ℚ) + 3 := by push_cast; ring
  have hNle : (ts.length : ℚ) + 4 ≤ 2 ^ 52 := by exact_mod_cast hN52
  have hU := hi_pow_mul_le (ts.length + 3) (by
    rw [hN3]
    linarith)
  have hU1 := hi_pow_ge_one (ts.length + 3)
  rw [hN3] at hL hU
  have e : ((ts.sum : Int) : ℚ) / 1000000000 / (ts.length : ℚ) * 1000000000 =
      ((ts.sum : Int) : ℚ) / (ts.length : ℚ) := by
    rw [div_div, mul_comm (1000000000 : ℚ), ← div_div, div_mul_cancel₀ _ (by norm_num)]
  have hB1 := mul_le_mul_of_nonneg_right hA1 (show (0 : ℚ) ≤ 1000000000 by norm_num)
  have hB2 := mul_le_mul_of_nonneg_right hA2 (show (0 : ℚ) ≤ 1000000000 by norm_num)
  rw [mul_assoc, e] at hB1 hB2
  generalize avgSeconds ts * 1000000000 = B at hB1 hB2 ⊢
  generalize ((ts.sum : Int) : ℚ) / (ts.length : ℚ) = μ at hB1 hB2 hμ0 hμM ⊢
  generalize (1 - 1 / 2 ^ 53 : ℚ) ^ (ts.length + 3) = L at hL hB1
  generalize (1 + 1 / 2 ^ 53 : ℚ) ^ (ts.length + 3) = U at hU hU1 hB2
  generalize (ts.length : ℚ) = N at hNq hL hU hNle ⊢
  have ha1 : 0 < 1 - (N + 3) / 2 ^ 53 := by
    have : (N + 3) / 2 ^ 53 < 1 := by
      rw [div_lt_iff₀ (by norm_num)]
      linarith
    linarith
  refine ⟨?_, ?_, hμ0, hμM⟩
  · exact le_trans (mul_le_mul_of_nonneg_right hL hμ0) hB1
  · have h1 : B * (1 - (N + 3) / 2 ^ 53) ≤ U * μ * (1 - (N + 3) / 2 ^ 53) :=
      mul_le_mul_of_nonneg_right hB2 (le_of_lt ha1)
    have h2 : U * (1 - (N + 3) / 2 ^ 53) * μ ≤ 1 * μ := mul_le_mul_of_nonneg_right hU hμ0
    have h3 : U * μ * (1 - (N + 3) / 2 ^ 53) = U * (1 - (N + 3) / 2 ^ 53) * μ := by ring
    linarith

/-- The float64 mean in seconds, back in nanoseconds, when `(N + 4) * (M + 1) ≤ 2^52`:
within half a nanosecond of the exact mean. -/
theorem avgSeconds_ns (ts : List Int) (M : Int) (hne : ts ≠ [])
    (hts : ∀ t ∈ ts, 0 ≤ t ∧ t ≤ M) (hsize : ((ts.length : Int) + 4) * (M + 1) ≤ 2 ^ 52) :
    |avgSeconds ts * 1000000000 - ((ts.sum : Int) : ℚ) / (ts.length : ℚ)| ≤ 1 / 2 := by
  obtain ⟨hM0, hNpos, hN52, _, hM64⟩ := size_facts ts M hne hts hsize
  obtain ⟨h1, h2, hμ0, hμM⟩ := avgSeconds_ns_rel ts M hne hts hN52 hM64
  have hNq : (0 : ℚ) < (ts.length : ℚ) := by exact_mod_cast hNpos
  have hMq : (0 : ℚ) ≤ (M : ℚ) := by exact_mod_cast hM0
  have hsizeq : ((ts.length : ℚ) + 4) * ((M : ℚ) + 1) ≤ 2 ^ 52 := by exact_mod_cast hsize
  have hNle : (ts.length : ℚ) + 4 ≤ 2 ^ 52 := by exact_mod_cast hN52
  generalize avgSeconds ts * 1000000000 = B at h1 h2 ⊢
  generalize ((ts.sum : Int) : ℚ) / (ts.length : ℚ) = μ at h1 h2 hμ0 hμM ⊢
  generalize (ts.length : ℚ) = N at hNq hsizeq h1 h2 hNle
  generalize (M : ℚ) = Mq at hMq hsizeq hμM
  have ha0 : 0 ≤ (N + 3) / 2 ^ 53 := by positivity
  have haM : (N + 3) / 2 ^ 53 * Mq ≤ 1 / 2 - (N + 3) / 2 ^ 53 := by
    have e1 : (N + 4) * (Mq + 1) = (N + 3) * Mq + Mq + N + 4 := by ring
    have e2 : (N + 3) / 2 ^ 53 * Mq = (N + 3) * Mq / 2 ^ 53 := by ring
    rw [e2, div_le_iff₀ (by norm_num)]
    have e3 : (1 / 2 - (N + 3) / 2 ^ 53) * 2 ^ 53 = 2 ^ 52 - (N + 3) := by ring
    rw [e3]
    linarith
  have haμ : (N + 3) / 2 ^ 53 * μ ≤ (N + 3) / 2 ^ 53 * Mq :=
    mul_le_mul_of_nonneg_left hμM ha0
  have ha1 : 0 < 1 - (N + 3) / 2 ^ 53 := by linarith [mul_nonneg ha0 hMq]
  rw [abs_le]
  constructor
  · linarith
  · have h3 : (B - μ) * (1 - (N + 3) / 2 ^ 53) ≤ 1 / 2 * (1 - (N + 3) / 2 ^ 53) := by
      have : (B - μ) * (1 - (N + 3) / 2 ^ 53) =
          B * (1 - (N + 3) / 2 ^ 53) - μ + (N + 3) / 2 ^ 53 * μ := by ring
      rw [this]
      linarith
    have h4 := le_of_mul_le_mul_right h3 ha1
    linarith

/-- The float64 mean in seconds, back in nanoseconds, in general: within
`(N + 3) * M / 2^52` of the exact mean. -/
theorem avgSeconds_ns_gen (ts : List Int) (M : Int) (hne : ts ≠ [])
    (hts : ∀ t ∈ ts, 0 ≤ t ∧ t ≤ M) (hN52 : ts.length + 4 ≤ 2 ^ 52) (hM64 : M ≤ maxInt64) :
    |avgSeconds ts * 1000000000 - ((ts.sum : Int) : ℚ) / (ts.length : ℚ)| ≤
      ((ts.length : ℚ) + 3) * (M : ℚ) / 2 ^ 52 := by
  obtain ⟨h1, h2, hμ0, hμM⟩ := avgSeconds_ns_rel ts M hne hts hN52 hM64
  have hNq : (0 : ℚ) ≤ (ts.length : ℚ) := Nat.cast_nonneg _
  have hNle : (ts.length : ℚ) + 4 ≤ 2 ^ 52 := by exact_mod_cast hN52
  generalize avgSeconds ts * 1000000000 = B at h1 h2 ⊢
  generalize ((ts.sum : Int) : ℚ) / (ts.length : ℚ) = μ at h1 h2 hμ0 hμM ⊢
  generalize (ts.length : ℚ) = N at hNq h1 h2 hNle ⊢
  generalize (M : ℚ) = Mq at hμM ⊢
  have ha0 : 0 ≤ (N + 3) / 2 ^ 53 := by positivity
  have ha2 : (N + 3) / 2 ^ 53 ≤ 1 / 2 := by
    rw [div_le_iff₀ (by norm_num)]
    linarith
  have haμ : (N + 3) / 2 ^ 53 * μ ≤ (N + 3) / 2 ^ 53 * Mq :=
    mul_le_mul_of_nonneg_left hμM ha0
  have e : (N + 3) * Mq / 2 ^ 52 = 2 * ((N + 3) / 2 ^ 53 * Mq) := by ring
  have hM0 : 0 ≤ (N + 3) / 2 ^ 53 * Mq := le_trans (mul_nonneg ha0 hμ0) haμ
  rw [e, abs_le]
  constructor
  · linarith
  · -- `B ≤ 2 μ`, so `B - μ ≤ a B ≤ 2 a μ`
    have hB2 : B * (1 / 2) ≤ B * (1 - (N + 3) / 2 ^ 53) := by
      rcases le_total 0 B with hB | hB
      · exact mul_le_mul_of_nonneg_left (by linarith) hB
      · have : B * (1 - (N + 3) / 2 ^ 53) = B * (1 / 2) + B * (1 / 2 - (N + 3) / 2 ^ 53) := by
          ring
        have h3 : B * (1 / 2 - (N + 3) / 2 ^ 53) ≤ 0 :=
          mul_nonpos_of_nonpos_of_nonneg hB (by linarith)
        have h4 : (1 - (N + 3) / 2 ^ 53) * μ ≤ 0 := le_trans h1 hB
        have h5 : 0 ≤ (1 - (N + 3) / 2 ^ 53) * μ := mul_nonneg (by linarith) hμ0
        have h6 : B * (1 / 2) ≤ 0 := by linarith
        nlinarith
    have hBμ : B ≤ 2 * μ := by linarith
    have h3 : (N + 3) / 2 ^ 53 * B ≤ (N + 3) / 2 ^ 53 * (2 * μ) :=
      mul_le_mul_of_nonneg_left hBμ ha0
    have h4 : B - μ ≤ (N + 3) / 2 ^ 53 * B := by
      have : B * (1 - (N + 3) / 2 ^ 53) = B - (N + 3) / 2 ^ 53 * B := by ring
      linarith
    linarith

/-- The float64 deviation `t.Seconds() - avgSeconds` of one sample is zero or at least
`2^-460` in magnitude, so it and its square are rounded in the normal range. -/
theorem dev_grid (ts : List Int) (hne : ts ≠ [])
    (hts64 : ∀ t ∈ ts, 0 ≤ t ∧ t ≤ maxInt64) (hN52 : ts.length + 4 ≤ 2 ^ 52)
    (t : Int) (ht : t ∈ ts) :
    (fsub (Seconds t) (avgSeconds ts) = 0 ∨
        (2 : ℚ) ^ (-460 : Int) ≤ |fsub (Seconds t) (avgSeconds ts)|) ∧
      |fsub (Seconds t) (avgSeconds ts) - (Seconds t - avgSeconds ts)| ≤
        |Seconds t - avgSeconds ts| / 2 ^ 53 := by
  have h0 := (hts64 t ht).1
  have h64 := (hts64 t ht).2
  have hgrid := grid_sub (Seconds_grid h0 h64) (avgSeconds_grid ts hne hts64 hN52)
  have hT : (2 : ℚ) ^ (-1022 : Int) ≤ (2 : ℚ) ^ (-460 : Int) :=
    zpow_le_zpow_right₀ (by norm_num) (by norm_num)
  have hnorm : Seconds t - avgSeconds ts = 0 ∨
      (2 : ℚ) ^ (-1022 : Int) ≤ |Seconds t - avgSeconds ts| := by
    rcases hgrid with h | h
    · exact Or.inl h
    · exact Or.inr (le_trans hT h)
  have hrel := rnd_rel_abs hnorm
  unfold fsub
  refine ⟨?_, hrel⟩
  rcases hgrid with h | h
  · left
    rw [h, rnd_zero]
  · right
    rcases le_total 0 (Seconds t - avgSeconds ts) with hs | hs
    · rw [abs_of_nonneg hs] at h
      have h1 : ((1 : Int) : ℚ) * (2 : ℚ) ^ (-460 : Int) ≤ Seconds t - avgSeconds ts := by
        rw [Int.cast_one, one_mul]
        exact h
      have h2 := le_rnd_of_le 1 (-460) (by norm_num) (by norm_num) h1
      rw [Int.cast_one, one_mul] at h2
      exact le_trans h2 (le_abs_self _)
    · rw [abs_of_nonpos hs] at h
      have h1 : Seconds t - avgSeconds ts ≤ ((-1 : Int) : ℚ) * (2 : ℚ) ^ (-460 : Int) := by
        push_cast
        linarith
      have h2 := rnd_le_of_le (-1) (-460) (by norm_num) (by norm_num) h1
      push_cast at h2
      have h3 := neg_le_abs (rnd (Seconds t - avgSeconds ts))
      linarith

/-- The float64 deviation of one sample, back in nanoseconds, against the exact deviation
`t - μ`, given a bound `a` on the error of the mean: the error is at most
`a + 3 M / 2^53 + (M + 3 M / 2^53 + a) / 2^53` (mean, seconds of the sample, rounding of
the difference). -/
theorem dev_core (ts : List Int) (M : Int) (hne : ts ≠ [])
    (hts : ∀ t ∈ ts, 0 ≤ t ∧ t ≤ M) (hN52 : ts.length + 4 ≤ 2 ^ 52) (hM64 : M ≤ maxInt64)
    (a : ℚ)
    (ha : |avgSeconds ts * 1000000000 - ((ts.sum : Int) : ℚ) / (ts.length : ℚ)| ≤ a)
    (t : Int) (ht : t ∈ ts) :
    |fsub (Seconds t) (avgSeconds ts) * 1000000000 -
        ((t : ℚ) - ((ts.sum : Int) : ℚ) / (ts.length : ℚ))| ≤
      a + 3 * (M : ℚ) / 2 ^ 53 + ((M : ℚ) + 3 * (M : ℚ) / 2 ^ 53 + a) / 2 ^ 53 := by
  have hts64 : ∀ t ∈ ts, 0 ≤ t ∧ t ≤ maxInt64 := fun t ht =>
    ⟨(hts t ht).1, le_trans (hts t ht).2 hM64⟩
  have h0 := (hts t ht).1
  have htM := (hts t ht).2
  have hS := Seconds_ns h0 (hts64 t ht).2
  obtain ⟨_, _, hμ0, hμM⟩ := avgSeconds_ns_rel ts M hne hts hN52 hM64
  have hrel := (dev_grid ts hne hts64 hN52 t ht).2
  have htq0 : (0 : ℚ) ≤ (t : ℚ) := by exact_mod_cast h0
  have htqM : (t : ℚ) ≤ (M : ℚ) := by exact_mod_cast htM
  have ht3 : 3 * (t : ℚ) / 2 ^ 53 ≤ 3 * (M : ℚ) / 2 ^ 53 :=
    div_le_div_of_nonneg_right (by linarith) (by norm_num)
  have hrel1 : |fsub (Seconds t) (avgSeconds ts) * 1000000000 -
      (Seconds t * 1000000000 - avgSeconds ts * 1000000000)| ≤
      |Seconds t * 1000000000 - avgSeconds ts * 1000000000| / 2 ^ 53 := by
    have e1 : fsub (Seconds t) (avgSeconds ts) * 1000000000 -
        (Seconds t * 1000000000 - avgSeconds ts * 1000000000) =
        (fsub (Seconds t) (avgSeconds ts) - (Seconds t - avgSeconds ts)) * 1000000000 := by
      ring
    have e2 : Seconds t * 1000000000 - avgSeconds ts * 1000000000 =
        (Seconds t - avgSeconds ts) * 1000000000 := by ring
    rw [e1, e2, abs_mul, abs_mul, abs_of_pos (show (0 : ℚ) < 1000000000 by norm_num),
      mul_div_right_comm]
    exact mul_le_mul_of_nonneg_right hrel (by norm_num)
  generalize fsub (Seconds t) (avgSeconds ts) * 1000000000 = R at hrel1 ⊢
  generalize Seconds t * 1000000000 = S1 at hS hrel1
  generalize avgSeconds ts * 1000000000 = A1 at ha hrel1
  generalize ((ts.sum : Int) : ℚ) / (ts.length : ℚ) = μ at ha hμ0 hμM ⊢
  rw [abs_le] at hS ha
  have hD : |S1 - A1| ≤ (M : ℚ) + 3 * (M : ℚ) / 2 ^ 53 + a := by
    rw [abs_le]
    constructor <;> linarith
  have hR : |R - (S1 - A1)| ≤ ((M : ℚ) + 3 * (M : ℚ) / 2 ^ 53 + a) / 2 ^ 53 :=
    le_trans hrel1 (div_le_div_of_nonneg_right hD (by norm_num))
  rw [abs_le] at hR ⊢
  constructor <;> linarith

/-- When `(N + 4) * (M + 1) ≤ 2^52` the float64 deviation of one sample, back in
nanoseconds, is within one nanosecond of the exact deviation. -/
theorem dev_err (ts : List Int) (M : Int) (hne : ts ≠ [])
    (hts : ∀ t ∈ ts, 0 ≤ t ∧ t ≤ M) (hsize : ((ts.length : Int) + 4) * (M + 1) ≤ 2 ^ 52)
    (t : Int) (ht : t ∈ ts) :
    |fsub (Seconds t) (avgSeconds ts) * 1000000000 -
        ((t : ℚ) - ((ts.sum : Int) : ℚ) / (ts.length : ℚ))| ≤ 1 := by
  obtain ⟨hM0, hNpos, hN52, h5, hM64⟩ := size_facts ts M hne hts hsize
  have h := dev_core ts M hne hts hN52 hM64 (1 / 2) (avgSeconds_ns ts M hne hts hsize) t ht
  have hMq : (0 : ℚ) ≤ (M : ℚ) := by exact_mod_cast hM0
  have h5q : 5 * ((M : ℚ) + 1) ≤ 2 ^ 52 := by exact_mod_cast h5
  have hM10 : (M : ℚ) / 2 ^ 53 ≤ 1 / 10 := by
    rw [div_le_iff₀ (by norm_num)]
    linarith
  refine le_trans h ?_
  have e1 : 3 * (M : ℚ) / 2 ^ 53 = 3 * ((M : ℚ) / 2 ^ 53) := by ring
  have e2 : ((M : ℚ) + 3 * (M : ℚ) / 2 ^ 53 + 1 / 2) / 2 ^ 53 =
      (M : ℚ) / 2 ^ 53 + (3 * ((M : ℚ) / 2 ^ 53) + 1 / 2) / 2 ^ 53 := by ring
  rw [e2, e1]
  have h3 : (3 * ((M : ℚ) / 2 ^ 53) + 1 / 2) / 2 ^ 53 ≤ 1 / 10 := by
    rw [div_le_iff₀ (by norm_num)]
    linarith
  linarith

/-- In general the float64 deviation of one sample, back in nanoseconds, is within
`(N + 6) * M / 2^52` of the exact deviation. -/
theorem dev_err_gen (ts : List Int) (M : Int) (hne : ts ≠ [])
    (hts : ∀ t ∈ ts, 0 ≤ t ∧ t ≤ M) (hN52 : ts.length + 4 ≤ 2 ^ 52) (hM64 : M ≤ maxInt64)
    (t : Int) (ht : t ∈ ts) :
    |fsub (Seconds t) (avgSeconds ts) * 1000000000 -
        ((t : ℚ) - ((ts.sum : Int) : ℚ) / (ts.length : ℚ))| ≤
      ((ts.length : ℚ) + 6) * (M : ℚ) / 2 ^ 52 := by
  have h := dev_core ts M hne hts hN52 hM64 _ (avgSeconds_ns_gen ts M hne hts hN52 hM64) t ht
  have hM0 : 0 ≤ M := le_trans (hts t ht).1 (hts t ht).2
  have hMq : (0 : ℚ) ≤ (M : ℚ) := by exact_mod_cast hM0
  have hNle : (ts.length : ℚ) + 4 ≤ 2 ^ 52 := by exact_mod_cast hN52
  have hN0 : (0 : ℚ) ≤ (ts.length : ℚ) := Nat.cast_nonneg _
  refine le_trans h ?_
  generalize (ts.length : ℚ) = N at hNle hN0 ⊢
  generalize (M : ℚ) = Mq at hMq ⊢
  have h1 : (Mq + 3 * Mq / 2 ^ 53 + (N + 3) * Mq / 2 ^ 52) / 2 ^ 53 ≤ 3 * Mq / 2 ^ 53 := by
    apply div_le_div_of_nonneg_right _ (by norm_num)
    have h2 : (N + 3) * Mq / 2 ^ 52 ≤ Mq := by
      rw [div_le_iff₀ (by norm_num)]
      have : (N + 3) * Mq ≤ 2 ^ 52 * Mq := mul_le_mul_of_nonneg_right (by linarith) hMq
      linarith
    have h3 : 3 * Mq / 2 ^ 53 ≤ Mq := by
      rw [div_le_iff₀ (by norm_num)]
      have : 3 * Mq ≤ 2 ^ 53 * Mq := mul_le_mul_of_nonneg_right (by norm_num) hMq
      linarith
    linarith
  have e : (N + 6) * Mq / 2 ^ 52 = (N + 3) * Mq / 2 ^ 52 + 3 * Mq / 2 ^ 53 + 3 * Mq / 2 ^ 53 := by
    ring
  rw [e]
  linarith

/-! ## The deviation product, squared, against the mean of the squared deviations -/

theorem fsqrt_zero : fsqrt 0 = 0 := by
  unfold fsqrt
  rw [if_pos (le_refl _)]

/-- The square of one float64 deviation: rounded in the normal range. -/
theorem sq_term_rel {d : ℚ} (hd : d = 0 ∨ (2 : ℚ) ^ (-460 : Int) ≤ |d|) :
    (fmul d d = 0 ∨ (2 : ℚ) ^ (-920 : Int) ≤ fmul d d) ∧
      (1 - 1 / 2 ^ 53) * (d * d) ≤ fmul d d ∧ fmul d d ≤ (1 + 1 / 2 ^ 53) * (d * d) := by
  have hdd0 : 0 ≤ d * d := mul_self_nonneg d
  have hT : (2 : ℚ) ^ (-1022 : Int) ≤ (2 : ℚ) ^ (-920 : Int) :=
    zpow_le_zpow_right₀ (by norm_num) (by norm_num)
  have hdd : d * d = 0 ∨ (2 : ℚ) ^ (-920 : Int) ≤ d * d := by
    rcases hd with h | h
    · left
      rw [h, mul_zero]
    · right
      have e : (2 : ℚ) ^ (-920 : Int) = (2 : ℚ) ^ (-460 : Int) * (2 : ℚ) ^ (-460 : Int) := by
        rw [← zpow_add₀ (by norm_num)]
        norm_num
      rw [e, ← abs_mul_abs_self d]
      exact mul_le_mul h h (le_of_lt (two_zpow_pos _)) (abs_nonneg d)
  have hddn : d * d = 0 ∨ (2 : ℚ) ^ (-1022 : Int) ≤ d * d := by
    rcases hdd with h | h
    · exact Or.inl h
    · exact Or.inr (le_trans hT h)
  obtain ⟨h1, h2⟩ := rnd_rel hdd0 hddn
  unfold fmul
  refine ⟨?_, h1, h2⟩
  rcases hdd with h | h
  · left
    rw [h, rnd_zero]
  · right
    have h3 : ((1 : Int) : ℚ) * (2 : ℚ) ^ (-920 : Int) ≤ d * d := by
      rw [Int.cast_one, one_mul]
      exact h
    have h4 := le_rnd_of_le 1 (-920) (by norm_num) (by norm_num) h3
    rw [Int.cast_one, one_mul] at h4
    exact h4

/-- The square root with its zero case: three relative roundings on the square. -/
theorem fsqrt_sq_bounds_zero {a : ℚ} (ha : a = 0 ∨ (2 : ℚ) ^ (-1022 : Int) ≤ a) :
    0 ≤ fsqrt a ∧ (fsqrt a = 0 ∨ (2 : ℚ) ^ (-1022 : Int) ≤ fsqrt a) ∧
      (1 - 1 / 2 ^ 53) ^ 3 * a ≤ fsqrt a ^ 2 ∧ fsqrt a ^ 2 ≤ (1 + 1 / 2 ^ 53) ^ 3 * a := by
  rcases ha with h | h
  · rw [h, fsqrt_zero]
    simp
  · obtain ⟨h1, h2⟩ := fsqrt_sq_bounds h
    have h0 := fsqrt_nonneg a
    refine ⟨h0, Or.inr ?_, h1, h2⟩
    by_contra hc
    have hc1 : fsqrt a < (2 : ℚ) ^ (-1022 : Int) := not_le.mp hc
    have h4 : (2 : ℚ) ^ (-1022 : Int) ≤ 1 / 4 := by
      have h := zpow_le_zpow_right₀ (a := (2 : ℚ)) (by norm_num)
        (show (-1022 : Int) ≤ -2 by norm_num)
      have e : (2 : ℚ) ^ (-2 : Int) = 1 / 4 := by norm_num
      rwa [e] at h
    have hc2 : fsqrt a ^ 2 ≤ (2 : ℚ) ^ (-1022 : Int) * (1 / 4) := by
      rw [pow_two]
      exact mul_le_mul (le_of_lt hc1) (le_trans (le_of_lt hc1) h4) h0
        (le_of_lt (two_zpow_pos _))
    have hapos : 0 < a := lt_of_lt_of_le (two_zpow_pos _) h
    have hc3 : (1 / 2 : ℚ) * a ≤ (1 - 1 / 2 ^ 53) ^ 3 * a :=
      mul_le_mul_of_nonneg_right (by norm_num) (le_of_lt hapos)
    have hc5 := two_zpow_pos (-1022)
    generalize (2 : ℚ) ^ (-1022 : Int) = T at h hc2 hc5
    linarith

/-- The term added by line 69 for one sample, on either build: the square of the float64
deviation, rounded (`fused = false`) or exact inside the fused multiply-add. -/
theorem sq_term_rel_on (fused : Bool) {d : ℚ} (hd : d = 0 ∨ (2 : ℚ) ^ (-460 : Int) ≤ |d|) :
    ((if fused then d * d else fmul d d) = 0 ∨
        (2 : ℚ) ^ (-920 : Int) ≤ (if fused then d * d else fmul d d)) ∧
      (1 - 1 / 2 ^ 53) * (d * d) ≤ (if fused then d * d else fmul d d) ∧
      (if fused then d * d else fmul d d) ≤ (1 + 1 / 2 ^ 53) * (d * d) := by
  cases fused with
  | false => simpa using sq_term_rel hd
  | true =>
    simp only [if_true]
    have hdd0 : 0 ≤ d * d := mul_self_nonneg d
    refine ⟨?_, ?_, ?_⟩
    · rcases hd with h | h
      · left
        rw [h, mul_zero]
      · right
        have e : (2 : ℚ) ^ (-920 : Int) = (2 : ℚ) ^ (-460 : Int) * (2 : ℚ) ^ (-460 : Int) := by
          rw [← zpow_add₀ (by norm_num)]
          norm_num
        rw [e, ← abs_mul_abs_self d]
        exact mul_le_mul h h (le_of_lt (two_zpow_pos _)) (abs_nonneg d)
    · have : (1 - 1 / 2 ^ 53 : ℚ) * (d * d) ≤ 1 * (d * d) :=
        mul_le_mul_of_nonneg_right (by norm_num) hdd0
      linarith
    · have : (1 : ℚ) * (d * d) ≤ (1 + 1 / 2 ^ 53) * (d * d) :=
        mul_le_mul_of_nonneg_right (by norm_num) hdd0
      linarith

/-- The scan of line 69 on either build is a scan `acc += p` over the terms. -/
theorem sd_scan_eq (fused : Bool) (A : ℚ) (ts : List Int) :
    ts.foldl (fun acc t =>
        if fused then fma (fsub (Seconds t) A) (fsub (Seconds t) A) acc
        else fadd acc (fmul (fsub (Seconds t) A) (fsub (Seconds t) A))) 0 =
      (ts.map (fun t => if fused then fsub (Seconds t) A * fsub (Seconds t) A
        else fmul (fsub (Seconds t) A) (fsub (Seconds t) A))).foldl fadd 0 := by
  rw [List.foldl_map]
  congr 1
  funext acc t
  cases fused with
  | false => simp
  | true =>
    simp only [if_true]
    unfold fma fadd
    rw [add_comm]

/-- The float64 deviation times one second, squared, against the mean `W2` of the squared
float64 deviations in nanoseconds: `N + 7` relative roundings lie between them (one in
each square, `N` in the scan, one in the division, three in the square root, two for the
product), on either build (a fused multiply-add saves one of them). -/
theorem sd_product_sq_bounds (fused : Bool) (ts : List Int) (hne : ts ≠ [])
    (hts64 : ∀ t ∈ ts, 0 ≤ t ∧ t ≤ maxInt64) (hN52 : ts.length + 4 ≤ 2 ^ 52) :
    0 ≤ fmul (sdSecondsOn fused ts) (ofInt Second) ∧
      (1 - 1 / 2 ^ 53) ^ (ts.length + 7) *
          ((ts.map (fun t => (fsub (Seconds t) (avgSeconds ts) * 1000000000) ^ 2)).sum /
            (ts.length : ℚ)) ≤ fmul (sdSecondsOn fused ts) (ofInt Second) ^ 2 ∧
      fmul (sdSecondsOn fused ts) (ofInt Second) ^ 2 ≤
        (1 + 1 / 2 ^ 53) ^ (ts.length + 7) *
          ((ts.map (fun t => (fsub (Seconds t) (avgSeconds ts) * 1000000000) ^ 2)).sum /
            (ts.length : ℚ)) := by
  have hNpos : 0 < ts.length := List.length_pos.mpr hne
  have hNq : (0 : ℚ) < (ts.length : ℚ) := by exact_mod_cast hNpos
  have hNle : (ts.length : ℚ) ≤ 2 ^ 52 := by
    have : (ts.length : ℚ) + 4 ≤ 2 ^ 52 := by exact_mod_cast hN52
    linarith
  have hofN : ofInt (ts.length : Int) = (ts.length : ℚ) := by
    have := ofInt_exact (ts.length : Int) (by
      rw [abs_of_nonneg (by omega)]
      omega)
    simpa using this
  -- the squares
  have hterm : ∀ t ∈ ts,
      ((if fused then fsub (Seconds t) (avgSeconds ts) * fsub (Seconds t) (avgSeconds ts)
          else fmul (fsub (Seconds t) (avgSeconds ts)) (fsub (Seconds t) (avgSeconds ts))) = 0 ∨
        (2 : ℚ) ^ (-920 : Int) ≤
          (if fused then fsub (Seconds t) (avgSeconds ts) * fsub (Seconds t) (avgSeconds ts)
          else fmul (fsub (Seconds t) (avgSeconds ts)) (fsub (Seconds t) (avgSeconds ts)))) ∧
      (1 - 1 / 2 ^ 53) *
          (fsub (Seconds t) (avgSeconds ts) * fsub (Seconds t) (avgSeconds ts)) ≤
        (if fused then fsub (Seconds t) (avgSeconds ts) * fsub (Seconds t) (avgSeconds ts)
          else fmul (fsub (Seconds t) (avgSeconds ts)) (fsub (Seconds t) (avgSeconds ts))) ∧
      (if fused then fsub (Seconds t) (avgSeconds ts) * fsub (Seconds t) (avgSeconds ts)
          else fmul (fsub (Seconds t) (avgSeconds ts)) (fsub (Seconds t) (avgSeconds ts))) ≤
        (1 + 1 / 2 ^ 53) *
          (fsub (Seconds t) (avgSeconds ts) * fsub (Seconds t) (avgSeconds ts)) :=
    fun t ht => sq_term_rel_on fused (dev_grid ts hne hts64 hN52 t ht).1
  unfold sdSecondsOn
  simp only
  generalize avgSeconds ts = A at hterm ⊢
  -- the scan, over the list of terms
  rw [sd_scan_eq, hofN]
  obtain ⟨hG0, hG1, hG2⟩ := fold_rel (-920) (by norm_num)
    (ts.map (fun t => if fused then fsub (Seconds t) A * fsub (Seconds t) A
      else fmul (fsub (Seconds t) A) (fsub (Seconds t) A))) 0 0 0
    (by
      intro p hp
      obtain ⟨t, ht, rfl⟩ := List.mem_map.mp hp
      exact (hterm t ht).1)
    (Or.inl rfl) (le_refl _) (by simp) (by simp)
  rw [List.length_map, Nat.zero_add, zero_add] at hG1 hG2
  have hp1 : (1 - 1 / 2 ^ 53 : ℚ) *
      (ts.map (fun t => fsub (Seconds t) A * fsub (Seconds t) A)).sum ≤
      (ts.map (fun t => if fused then fsub (Seconds t) A * fsub (Seconds t) A
      else fmul (fsub (Seconds t) A) (fsub (Seconds t) A))).sum := by
    rw [← List.sum_map_mul_left]
    exact List.sum_le_sum (fun t ht => (hterm t ht).2.1)
  have hp2 : (ts.map (fun t => if fused then fsub (Seconds t) A * fsub (Seconds t) A
      else fmul (fsub (Seconds t) A) (fsub (Seconds t) A))).sum ≤
      (1 + 1 / 2 ^ 53 : ℚ) *
        (ts.map (fun t => fsub (Seconds t) A * fsub (Seconds t) A)).sum := by
    rw [← List.sum_map_mul_left]
    exact List.sum_le_sum (fun t ht => (hterm t ht).2.2)
  have hQ0 : 0 ≤ (ts.map (fun t => fsub (Seconds t) A * fsub (Seconds t) A)).sum := by
    apply List.sum_nonneg
    intro x hx
    obtain ⟨t, _, rfl⟩ := List.mem_map.mp hx
    exact mul_self_nonneg _
  have hW : (ts.map (fun t => (fsub (Seconds t) A * 1000000000) ^ 2)).sum =
      1000000000 ^ 2 * (ts.map (fun t => fsub (Seconds t) A * fsub (Seconds t) A)).sum := by
    rw [← List.sum_map_mul_left]
    congr 1
    apply List.map_congr_left
    intro t _
    ring
  rw [hW]
  generalize (ts.map (fun t => fsub (Seconds t) A * fsub (Seconds t) A)).sum = Q
    at hp1 hp2 hQ0
  generalize (ts.map (fun t => if fused then fsub (Seconds t) A * fsub (Seconds t) A
      else fmul (fsub (Seconds t) A) (fsub (Seconds t) A))).sum = Sp
    at hG1 hG2 hp1 hp2
  generalize (ts.map (fun t => if fused then fsub (Seconds t) A * fsub (Seconds t) A
      else fmul (fsub (Seconds t) A) (fsub (Seconds t) A))).foldl fadd 0 = G
    at hG0 hG1 hG2
  clear hterm hW
  have hL := lo_pow_pos ts.length
  have hU := hi_pow_ge_one ts.length
  have hSp0 : 0 ≤ Sp := le_trans (mul_nonneg (by norm_num) hQ0) hp1
  have hGnn : 0 ≤ G := le_trans (mul_nonneg (le_of_lt hL) hSp0) hG1
  -- the division by the count
  have hv0 : 0 ≤ G / (ts.length : ℚ) := div_nonneg hGnn (le_of_lt hNq)
  have hvn : G / (ts.length : ℚ) = 0 ∨ (2 : ℚ) ^ (-1022 : Int) ≤ G / (ts.length : ℚ) := by
    rcases hG0 with h | h
    · left
      rw [h, zero_div]
    · right
      rw [le_div_iff₀ hNq]
      have e : (2 : ℚ) ^ (-920 : Int) = (2 : ℚ) ^ (-1022 : Int) * 2 ^ 102 := by
        have : (2 : ℚ) ^ (102 : Nat) = (2 : ℚ) ^ (102 : Int) := by norm_cast
        rw [this, ← zpow_add₀ (by norm_num)]
        norm_num
      rw [e] at h
      refine le_trans (mul_le_mul_of_nonneg_left ?_ (le_of_lt (two_zpow_pos _))) h
      exact le_trans hNle (by norm_num)
  obtain ⟨hv1, hv2⟩ := rnd_rel hv0 hvn
  have hvr : fdiv G (ts.length : ℚ) = 0 ∨ (2 : ℚ) ^ (-1022 : Int) ≤ fdiv G (ts.length : ℚ) := by
    unfold fdiv
    rcases hvn with h | h
    · left
      rw [h, rnd_zero]
    · right
      have h3 : ((1 : Int) : ℚ) * (2 : ℚ) ^ (-1022 : Int) ≤ G / (ts.length : ℚ) := by
        rw [Int.cast_one, one_mul]
        exact h
      have h4 := le_rnd_of_le 1 (-1022) (by norm_num) (by norm_num) h3
      rw [Int.cast_one, one_mul] at h4
      exact h4
  have hvnn : 0 ≤ fdiv G (ts.length : ℚ) := rnd_nonneg hv0
  have hv1a : (1 - 1 / 2 ^ 53) * (G / (ts.length : ℚ)) ≤ fdiv G (ts.length : ℚ) := hv1
  have hv2a : fdiv G (ts.length : ℚ) ≤ (1 + 1 / 2 ^ 53) * (G / (ts.length : ℚ)) := hv2
  -- the square root
  obtain ⟨hr0, hrn, hr1, hr2⟩ := fsqrt_sq_bounds_zero hvr
  generalize fdiv G (ts.length : ℚ) = v at hvnn hv1a hv2a hr0 hrn hr1 hr2
  generalize fsqrt v = r at hr0 hrn hr1 hr2
  -- the product with one second
  rw [ofInt_Second]
  have hP0 : 0 ≤ r * 1000000000 := mul_nonneg hr0 (by norm_num)
  have hPn : r * 1000000000 = 0 ∨ (2 : ℚ) ^ (-1022 : Int) ≤ r * 1000000000 := by
    rcases hrn with h | h
    · left
      rw [h, zero_mul]
    · right
      have := mul_le_mul h (show (1 : ℚ) ≤ 1000000000 by norm_num) (by norm_num) hr0
      rwa [mul_one] at this
  obtain ⟨hP1, hP2⟩ := rnd_rel hP0 hPn
  have hPnn : 0 ≤ fmul r 1000000000 := rnd_nonneg hP0
  have hP1a : (1 - 1 / 2 ^ 53) * (r * 1000000000) ≤ fmul r 1000000000 := hP1
  have hP2a : fmul r 1000000000 ≤ (1 + 1 / 2 ^ 53) * (r * 1000000000) := hP2
  generalize fmul r 1000000000 = P at hPnn hP1a hP2a
  generalize (ts.length : ℚ) = N at hNq hv1a hv2a
  generalize hLdef : (1 - 1 / 2 ^ 53 : ℚ) ^ ts.length = L at hL hG1
  generalize hUdef : (1 + 1 / 2 ^ 53 : ℚ) ^ ts.length = U at hU hG2
  have eL : (1 - 1 / 2 ^ 53 : ℚ) ^ (ts.length + 7) = L * (1 - 1 / 2 ^ 53) ^ 7 := by
    rw [pow_add, hLdef]
  have eU : (1 + 1 / 2 ^ 53 : ℚ) ^ (ts.length + 7) = U * (1 + 1 / 2 ^ 53) ^ 7 := by
    rw [pow_add, hUdef]
  rw [eL, eU]
  refine ⟨hPnn, ?_, ?_⟩
  · -- lower bound
    have s1 : L * ((1 - 1 / 2 ^ 53) * Q) ≤ G :=
      le_trans (mul_le_mul_of_nonneg_left hp1 (le_of_lt hL)) hG1
    have s2 : (1 - 1 / 2 ^ 53) * (L * ((1 - 1 / 2 ^ 53) * Q) / N) ≤ v :=
      le_trans (mul_le_mul_of_nonneg_left (div_le_div_of_nonneg_right s1 (le_of_lt hNq))
        (by norm_num)) hv1a
    have s3 : (1 - 1 / 2 ^ 53) ^ 3 * ((1 - 1 / 2 ^ 53) * (L * ((1 - 1 / 2 ^ 53) * Q) / N)) ≤
        r ^ 2 :=
      le_trans (mul_le_mul_of_nonneg_left s2 (by norm_num)) hr1
    have s4 : ((1 - 1 / 2 ^ 53) * (r * 1000000000)) ^ 2 ≤ P ^ 2 :=
      pow_le_pow_left₀ (mul_nonneg (by norm_num) hP0) hP1a 2
    calc L * (1 - 1 / 2 ^ 53) ^ 7 * (1000000000 ^ 2 * Q / N)
        = (1 - 1 / 2 ^ 53) ^ 2 * 1000000000 ^ 2 *
            ((1 - 1 / 2 ^ 53) ^ 3 * ((1 - 1 / 2 ^ 53) * (L * ((1 - 1 / 2 ^ 53) * Q) / N))) := by
          ring
      _ ≤ (1 - 1 / 2 ^ 53) ^ 2 * 1000000000 ^ 2 * r ^ 2 :=
          mul_le_mul_of_nonneg_left s3 (by norm_num)
      _ = ((1 - 1 / 2 ^ 53) * (r * 1000000000)) ^ 2 := by ring
      _ ≤ P ^ 2 := s4
  · -- upper bound
    have hU0 : 0 ≤ U := le_trans zero_le_one hU
    have s1 : G ≤ U * ((1 + 1 / 2 ^ 53) * Q) :=
      le_trans hG2 (mul_le_mul_of_nonneg_left hp2 hU0)
    have s2 : v ≤ (1 + 1 / 2 ^ 53) * (U * ((1 + 1 / 2 ^ 53) * Q) / N) :=
      le_trans hv2a (mul_le_mul_of_nonneg_left
        (div_le_div_of_nonneg_right s1 (le_of_lt hNq)) (by norm_num))
    have s3 : r ^ 2 ≤
        (1 + 1 / 2 ^ 53) ^ 3 * ((1 + 1 / 2 ^ 53) * (U * ((1 + 1 / 2 ^ 53) * Q) / N)) :=
      le_trans hr2 (mul_le_mul_of_nonneg_left s2 (by norm_num))
    have s4 : P ^ 2 ≤ ((1 + 1 / 2 ^ 53) * (r * 1000000000)) ^ 2 :=
      pow_le_pow_left₀ hPnn hP2a 2
    calc P ^ 2 ≤ ((1 + 1 / 2 ^ 53) * (r * 1000000000)) ^ 2 := s4
      _ = (1 + 1 / 2 ^ 53) ^ 2 * 1000000000 ^ 2 * r ^ 2 := by ring
      _ ≤ (1 + 1 / 2 ^ 53) ^ 2 * 1000000000 ^ 2 *
            ((1 + 1 / 2 ^ 53) ^ 3 * ((1 + 1 / 2 ^ 53) * (U * ((1 + 1 / 2 ^ 53) * Q) / N))) :=
          mul_le_mul_of_nonneg_left s3 (by norm_num)
      _ = U * (1 + 1 / 2 ^ 53) ^ 7 * (1000000000 ^ 2 * Q / N) := by ring

/-! ## The deviation against the exact population standard deviation -/

/-- Root mean squares of two families that differ by at most `η` in every entry differ by
at most `η`. -/
theorem rms_close {α : Type} (l : List α) (u w : α → ℝ) (η : ℝ) (hl : l ≠ [])
    (h : ∀ t ∈ l, |w t - u t| ≤ η) :
    |Real.sqrt ((l.map (fun t => w t ^ 2)).sum / l.length) -
      Real.sqrt ((l.map (fun t => u t ^ 2)).sum / l.length)| ≤ η := by
  have hn : 0 < l.length := List.length_pos.mpr hl
  have hnr : (0 : ℝ) < (l.length : ℝ) := by exact_mod_cast hn
  obtain ⟨t0, ht0⟩ := List.exists_mem_of_ne_nil l hl
  have hη : 0 ≤ η := le_trans (abs_nonneg _) (h t0 ht0)
  let x : EuclideanSpace ℝ (Fin l.length) := fun i => w l[i.1]
  let y : EuclideanSpace ℝ (Fin l.length) := fun i => u l[i.1]
  have hx : ‖x‖ = Real.sqrt ((l.map (fun t => w t ^ 2)).sum) := by
    rw [EuclideanSpace.norm_eq, ← Fin.sum_univ_get' l (fun t => w t ^ 2)]
    congr 1
    apply Finset.sum_congr rfl
    intro i _
    rw [Real.norm_eq_abs, sq_abs]
  have hy : ‖y‖ = Real.sqrt ((l.map (fun t => u t ^ 2)).sum) := by
    rw [EuclideanSpace.norm_eq, ← Fin.sum_univ_get' l (fun t => u t ^ 2)]
    congr 1
    apply Finset.sum_congr rfl
    intro i _
    rw [Real.norm_eq_abs, sq_abs]
  have hxy : ‖x - y‖ ≤ Real.sqrt l.length * η := by
    rw [EuclideanSpace.norm_eq]
    apply Real.sqrt_le_iff.mpr
    constructor
    · positivity
    · rw [mul_pow, Real.sq_sqrt (le_of_lt hnr)]
      have : ∀ i ∈ (Finset.univ : Finset (Fin l.length)), ‖(x - y) i‖ ^ 2 ≤ η ^ 2 := by
        intro i _
        rw [Real.norm_eq_abs, sq_abs]
        have h1 := h l[i.1] (List.getElem_mem _)
        have h2 : (x - y) i = w l[i.1] - u l[i.1] := rfl
        rw [h2, ← sq_abs]
        exact pow_le_pow_left₀ (abs_nonneg _) h1 2
      have h3 := Finset.sum_le_sum this
      simpa using h3
  have hmain := abs_norm_sub_norm_le x y
  rw [hx, hy] at hmain
  have hs : 0 < Real.sqrt l.length := Real.sqrt_pos.mpr hnr
  rw [Real.sqrt_div' _ (le_of_lt hnr), Real.sqrt_div' _ (le_of_lt hnr), ← sub_div, abs_div,
    abs_of_pos hs, div_le_iff₀ hs]
  calc _ ≤ ‖x - y‖ := hmain
    _ ≤ Real.sqrt l.length * η := hxy
    _ = η * Real.sqrt l.length := mul_comm _ _

/-- The float64 deviation, back in nanoseconds and before truncation, against the exact
population standard deviation `σ` (the square root of the mean squared deviation from the
exact mean), on either build: if every float64 deviation is within `η` of the exact one
and `2 k ≥ N + 7` roundings are counted, with `κ = k / 2^53`, then the product lies in
`[σ - η - κ (M + η), σ + η + 2 κ (M + η)]`. -/
theorem sd_product_close_of (fused : Bool) (ts : List Int) (M : Int) (hne : ts ≠ [])
    (hts : ∀ t ∈ ts, 0 ≤ t ∧ t ≤ M) (hN52 : ts.length + 4 ≤ 2 ^ 52) (hM64 : M ≤ maxInt64)
    (η : ℚ)
    (hη : ∀ t ∈ ts, |fsub (Seconds t) (avgSeconds ts) * 1000000000 -
      ((t : ℚ) - ((ts.sum : Int) : ℚ) / (ts.length : ℚ))| ≤ η)
    (k : Nat) (hk1 : ts.length + 7 ≤ k * 2) (hk2 : k ≤ 2 ^ 52) :
    Real.sqrt ((ts.map (fun t : Int =>
        ((t : ℝ) - ((ts.sum : Int) : ℝ) / (ts.length : ℝ)) ^ 2)).sum / (ts.length : ℝ)) -
        ((η + (k : ℚ) / 2 ^ 53 * ((M : ℚ) + η) : ℚ) : ℝ) ≤
        ((fmul (sdSecondsOn fused ts) (ofInt Second) : ℚ) : ℝ) ∧
      ((fmul (sdSecondsOn fused ts) (ofInt Second) : ℚ) : ℝ) ≤
        Real.sqrt ((ts.map (fun t : Int =>
          ((t : ℝ) - ((ts.sum : Int) : ℝ) / (ts.length : ℝ)) ^ 2)).sum / (ts.length : ℝ)) +
        ((η + 2 * ((k : ℚ) / 2 ^ 53) * ((M : ℚ) + η) : ℚ) : ℝ) := by
  have hts64 : ∀ t ∈ ts, 0 ≤ t ∧ t ≤ maxInt64 := fun t ht =>
    ⟨(hts t ht).1, le_trans (hts t ht).2 hM64⟩
  obtain ⟨t0, ht0⟩ := List.exists_mem_of_ne_nil ts hne
  have hM0 : 0 ≤ M := le_trans (hts t0 ht0).1 (hts t0 ht0).2
  have hNpos : 0 < ts.length := List.length_pos.mpr hne
  have hη0 : 0 ≤ η := le_trans (abs_nonneg _) (hη t0 ht0)
  obtain ⟨hP0, hPlo, hPhi⟩ := sd_product_sq_bounds fused ts hne hts64 hN52
  obtain ⟨_, _, hμ0, hμM⟩ := avgSeconds_ns_rel ts M hne hts hN52 hM64
  have hNq : (0 : ℚ) < (ts.length : ℚ) := by exact_mod_cast hNpos
  have hNr : (0 : ℝ) < (ts.length : ℝ) := by exact_mod_cast hNpos
  have hW0 : 0 ≤ (ts.map (fun t => (fsub (Seconds t) (avgSeconds ts) * 1000000000) ^ 2)).sum /
      (ts.length : ℚ) := by
    apply div_nonneg _ (le_of_lt hNq)
    apply List.sum_nonneg
    intro x hx
    obtain ⟨t, _, rfl⟩ := List.mem_map.mp hx
    exact sq_nonneg _
  have hlo : ((1 - 1 / 2 ^ 53 : ℚ) ^ k) ^ 2 *
      ((ts.map (fun t => (fsub (Seconds t) (avgSeconds ts) * 1000000000) ^ 2)).sum /
        (ts.length : ℚ)) ≤ fmul (sdSecondsOn fused ts) (ofInt Second) ^ 2 := by
    refine le_trans (mul_le_mul_of_nonneg_right ?_ hW0) hPlo
    rw [← pow_mul]
    exact pow_le_pow_of_le_one (by norm_num) (by norm_num) hk1
  have hhi : fmul (sdSecondsOn fused ts) (ofInt Second) ^ 2 ≤ ((1 + 1 / 2 ^ 53 : ℚ) ^ k) ^ 2 *
      ((ts.map (fun t => (fsub (Seconds t) (avgSeconds ts) * 1000000000) ^ 2)).sum /
        (ts.length : ℚ)) := by
    refine le_trans hPhi (mul_le_mul_of_nonneg_right ?_ hW0)
    rw [← pow_mul]
    exact pow_le_pow_right₀ (by norm_num) hk1
  have hkq : (k : ℚ) ≤ 2 ^ 53 := by
    have : k ≤ 2 ^ 53 := by omega
    exact_mod_cast this
  have hL := lo_pow_ge k
  have hL0 := lo_pow_pos k
  have hU := hi_pow_mul_le k hkq
  have hU1 := hi_pow_ge_one k
  have hκ2 : (k : ℚ) / 2 ^ 53 ≤ 1 / 2 := by
    have : (k : ℚ) ≤ 2 ^ 52 := by
      have : k ≤ 2 ^ 52 := by omega
      exact_mod_cast this
    rw [div_le_iff₀ (by norm_num)]
    linarith
  have hκ0 : (0 : ℚ) ≤ (k : ℚ) / 2 ^ 53 := by positivity
  -- the exact mean, as one number
  have hμc : ((((ts.sum : Int) : ℚ) / (ts.length : ℚ) : ℚ) : ℝ) =
      ((ts.sum : Int) : ℝ) / (ts.length : ℝ) := by
    rw [Rat.cast_div, Rat.cast_intCast, Rat.cast_natCast]
  have hMc : (((M : ℚ) : ℚ) : ℝ) = (M : ℝ) := Rat.cast_intCast M
  have hμ0r : (0 : ℝ) ≤ ((ts.sum : Int) : ℝ) / (ts.length : ℝ) := by
    rw [← hμc]
    exact_mod_cast hμ0
  have hμMr : ((ts.sum : Int) : ℝ) / (ts.length : ℝ) ≤ (M : ℝ) := by
    rw [← hμc, ← hMc]
    exact Rat.cast_le.mpr hμM
  -- the exact and the float64 deviations, entry by entry
  have hclose : ∀ t ∈ ts,
      |((fsub (Seconds t) (avgSeconds ts) * 1000000000 : ℚ) : ℝ) -
        ((t : ℝ) - ((ts.sum : Int) : ℝ) / (ts.length : ℝ))| ≤ (η : ℝ) := by
    intro t ht
    have h := hη t ht
    have h1 : ((|fsub (Seconds t) (avgSeconds ts) * 1000000000 -
        ((t : ℚ) - ((ts.sum : Int) : ℚ) / (ts.length : ℚ))| : ℚ) : ℝ) ≤ (η : ℝ) :=
      Rat.cast_le.mpr h
    rw [Rat.cast_abs, Rat.cast_sub, Rat.cast_sub, hμc, Rat.cast_intCast] at h1
    exact h1
  have hrms := rms_close ts
    (fun t : Int => (t : ℝ) - ((ts.sum : Int) : ℝ) / (ts.length : ℝ))
    (fun t : Int => ((fsub (Seconds t) (avgSeconds ts) * 1000000000 : ℚ) : ℝ)) (η : ℝ) hne
    hclose
  -- the exact deviation is at most `M`
  have hσM : Real.sqrt ((ts.map (fun t : Int =>
      ((t : ℝ) - ((ts.sum : Int) : ℝ) / (ts.length : ℝ)) ^ 2)).sum / (ts.length : ℝ)) ≤
      (M : ℝ) := by
    have hMr : (0 : ℝ) ≤ (M : ℝ) := by exact_mod_cast hM0
    rw [Real.sqrt_le_left hMr, div_le_iff₀ hNr]
    have h1 : ∀ x ∈ ts.map (fun t : Int =>
        ((t : ℝ) - ((ts.sum : Int) : ℝ) / (ts.length : ℝ)) ^ 2), x ≤ (M : ℝ) ^ 2 := by
      intro x hx
      obtain ⟨t, ht, rfl⟩ := List.mem_map.mp hx
      have ht0 : (0 : ℝ) ≤ (t : ℝ) := by exact_mod_cast (hts t ht).1
      have htM : (t : ℝ) ≤ (M : ℝ) := by exact_mod_cast (hts t ht).2
      apply sq_le_sq'
      · linarith
      · linarith
    have h2 := List.sum_le_card_nsmul _ _ h1
    rw [List.length_map, nsmul_eq_mul] at h2
    rw [mul_comm]
    exact h2
  -- the mean of the squared float64 deviations, in the reals
  have hcast : (((ts.map (fun t => (fsub (Seconds t) (avgSeconds ts) * 1000000000) ^ 2)).sum /
      (ts.length : ℚ) : ℚ) : ℝ) =
      (ts.map (fun t : Int =>
        ((fsub (Seconds t) (avgSeconds ts) * 1000000000 : ℚ) : ℝ) ^ 2)).sum /
        (ts.length : ℝ) := by
    rw [Rat.cast_div, Rat.cast_list_sum, List.map_map, Rat.cast_natCast]
    congr 2
    apply List.map_congr_left
    intro t _
    simp only [Function.comp_apply, Rat.cast_pow]
  rw [← hcast] at hrms
  have hgoal1 : ((η + (k : ℚ) / 2 ^ 53 * ((M : ℚ) + η) : ℚ) : ℝ) =
      (η : ℝ) + (((k : ℚ) / 2 ^ 53 : ℚ) : ℝ) * ((((M : ℚ) : ℚ) : ℝ) + (η : ℝ)) := by
    rw [Rat.cast_add, Rat.cast_mul, Rat.cast_add]
  have hgoal2 : ((η + 2 * ((k : ℚ) / 2 ^ 53) * ((M : ℚ) + η) : ℚ) : ℝ) =
      (η : ℝ) + 2 * (((k : ℚ) / 2 ^ 53 : ℚ) : ℝ) * ((((M : ℚ) : ℚ) : ℝ) + (η : ℝ)) := by
    rw [Rat.cast_add, Rat.cast_mul, Rat.cast_mul, Rat.cast_add, Rat.cast_ofNat]
  rw [hgoal1, hgoal2]
  have hη0r : (0 : ℝ) ≤ (η : ℝ) := by exact_mod_cast hη0
  -- name the rational quantities, then move to the reals
  generalize (ts.map (fun t => (fsub (Seconds t) (avgSeconds ts) * 1000000000) ^ 2)).sum /
    (ts.length : ℚ) = W2q at hW0 hlo hhi hrms
  generalize fmul (sdSecondsOn fused ts) (ofInt Second) = Pq at hP0 hlo hhi ⊢
  generalize (1 - 1 / 2 ^ 53 : ℚ) ^ k = Lq at hlo hL hL0
  generalize (1 + 1 / 2 ^ 53 : ℚ) ^ k = Uq at hhi hU hU1
  generalize (k : ℚ) / 2 ^ 53 = κq at hL hU hκ2 hκ0 ⊢
  generalize (M : ℚ) = Mq at hMc ⊢
  have hP0r : (0 : ℝ) ≤ (Pq : ℝ) := by exact_mod_cast hP0
  have hW0r : (0 : ℝ) ≤ (W2q : ℝ) := by exact_mod_cast hW0
  have hlor : (Lq : ℝ) ^ 2 * (W2q : ℝ) ≤ (Pq : ℝ) ^ 2 := by exact_mod_cast hlo
  have hhir : (Pq : ℝ) ^ 2 ≤ (Uq : ℝ) ^ 2 * (W2q : ℝ) := by exact_mod_cast hhi
  have hLr : 1 - (κq : ℝ) ≤ (Lq : ℝ) := by exact_mod_cast hL
  have hL0r : (0 : ℝ) < (Lq : ℝ) := by exact_mod_cast hL0
  have hUr : (Uq : ℝ) * (1 - (κq : ℝ)) ≤ 1 := by exact_mod_cast hU
  have hU1r : (1 : ℝ) ≤ (Uq : ℝ) := by exact_mod_cast hU1
  have hκ2r : (κq : ℝ) ≤ 1 / 2 := by
    have := Rat.cast_le (K := ℝ).mpr hκ2
    push_cast at this
    exact this
  have hκ0r : (0 : ℝ) ≤ (κq : ℝ) := by exact_mod_cast hκ0
  rw [hMc]
  generalize (Pq : ℝ) = P at hP0r hlor hhir ⊢
  generalize (W2q : ℝ) = W2 at hrms hlor hhir hW0r
  generalize (Lq : ℝ) = L at hlor hLr hL0r
  generalize (Uq : ℝ) = U at hhir hUr hU1r
  generalize (κq : ℝ) = κ at hLr hUr hκ2r hκ0r ⊢
  generalize (η : ℝ) = ηr at hrms hη0r ⊢
  generalize Real.sqrt ((ts.map (fun t : Int =>
    ((t : ℝ) - ((ts.sum : Int) : ℝ) / (ts.length : ℝ)) ^ 2)).sum / (ts.length : ℝ)) = σ
    at hrms hσM ⊢
  generalize (M : ℝ) = Mr at hσM ⊢
  have hWsq : Real.sqrt W2 ^ 2 = W2 := Real.sq_sqrt hW0r
  have hWnn : 0 ≤ Real.sqrt W2 := Real.sqrt_nonneg W2
  generalize Real.sqrt W2 = W at hrms hWsq hWnn
  rw [← hWsq] at hlor hhir
  rw [abs_le] at hrms
  have hPU : P ≤ U * W := by
    have h1 : P ^ 2 ≤ (U * W) ^ 2 := by rw [mul_pow]; exact hhir
    exact le_of_pow_le_pow_left₀ (by norm_num) (mul_nonneg (by linarith) hWnn) h1
  have hPL : L * W ≤ P := by
    have h1 : (L * W) ^ 2 ≤ P ^ 2 := by rw [mul_pow]; exact hlor
    exact le_of_pow_le_pow_left₀ (by norm_num) hP0r h1
  have hWM : W ≤ Mr + ηr := by linarith
  have h1κ : 0 ≤ 1 - κ := by linarith
  constructor
  · -- lower bound
    have h1 : (1 - κ) * W ≤ L * W := mul_le_mul_of_nonneg_right hLr hWnn
    have h2 : κ * W ≤ κ * (Mr + ηr) := mul_le_mul_of_nonneg_left hWM hκ0r
    linarith
  · -- upper bound
    have h1 : U * (1 - κ) * W ≤ 1 * W := mul_le_mul_of_nonneg_right hUr hWnn
    have h2 : P * (1 - κ) ≤ U * W * (1 - κ) := mul_le_mul_of_nonneg_right hPU h1κ
    have h3 : P * (1 - κ) ≤ W := by
      have : U * W * (1 - κ) = U * (1 - κ) * W := by ring
      linarith
    have h4 : P * (1 / 2) ≤ P * (1 - κ) := mul_le_mul_of_nonneg_left (by linarith) hP0r
    have h5 : κ * P ≤ κ * (2 * (Mr + ηr)) := mul_le_mul_of_nonneg_left (by linarith) hκ0r
    have h6 : P = P * (1 - κ) + κ * P := by ring
    linarith

/-- When `(N + 4) * (M + 1) ≤ 2^52` the float64 deviation, back in nanoseconds and before
truncation, lies in `[σ - 3/2, σ + 2]`, on either build. -/
theorem sd_product_close (fused : Bool) (ts : List Int) (M : Int) (hne : ts ≠ [])
    (hts : ∀ t ∈ ts, 0 ≤ t ∧ t ≤ M) (hsize : ((ts.length : Int) + 4) * (M + 1) ≤ 2 ^ 52) :
    Real.sqrt ((ts.map (fun t : Int =>
        ((t : ℝ) - ((ts.sum : Int) : ℝ) / (ts.length : ℝ)) ^ 2)).sum / (ts.length : ℝ)) - 3 / 2 ≤
        ((fmul (sdSecondsOn fused ts) (ofInt Second) : ℚ) : ℝ) ∧
      ((fmul (sdSecondsOn fused ts) (ofInt Second) : ℚ) : ℝ) ≤
        Real.sqrt ((ts.map (fun t : Int =>
          ((t : ℝ) - ((ts.sum : Int) : ℝ) / (ts.length : ℝ)) ^ 2)).sum / (ts.length : ℝ)) + 2 := by
  obtain ⟨hM0, hNpos, hN52, h5, hM64⟩ := size_facts ts M hne hts hsize
  obtain ⟨k, hk⟩ : ∃ k : Nat, k = (ts.length + 8) / 2 := ⟨_, rfl⟩
  obtain ⟨h1, h2⟩ := sd_product_close_of fused ts M hne hts hN52 hM64 1
    (dev_err ts M hne hts hsize) k (by omega) (by omega)
  have hκM : (k : ℚ) / 2 ^ 53 * ((M : ℚ) + 1) ≤ 1 / 2 := by
    have h3 : (k : Int) * (M + 1) ≤ ((ts.length : Int) + 4) * (M + 1) :=
      Int.mul_le_mul_of_nonneg_right (by omega) (by omega)
    have h4 : (k : Int) * (M + 1) ≤ 2 ^ 52 := le_trans h3 hsize
    have h5 : (k : ℚ) * ((M : ℚ) + 1) ≤ 2 ^ 52 := by exact_mod_cast h4
    rw [div_mul_eq_mul_div, div_le_iff₀ (by norm_num)]
    linarith
  have e1 : ((1 + (k : ℚ) / 2 ^ 53 * ((M : ℚ) + 1) : ℚ) : ℝ) ≤ 3 / 2 := by
    have h3 : (1 + (k : ℚ) / 2 ^ 53 * ((M : ℚ) + 1) : ℚ) ≤ 3 / 2 := by linarith
    have := Rat.cast_le (K := ℝ).mpr h3
    rw [show (((3 / 2 : ℚ)) : ℝ) = 3 / 2 by norm_num] at this
    exact this
  have e2 : ((1 + 2 * ((k : ℚ) / 2 ^ 53) * ((M : ℚ) + 1) : ℚ) : ℝ) ≤ 2 := by
    have h3 : (1 + 2 * ((k : ℚ) / 2 ^ 53) * ((M : ℚ) + 1) : ℚ) ≤ 2 := by linarith
    have := Rat.cast_le (K := ℝ).mpr h3
    rw [show (((2 : ℚ)) : ℝ) = 2 by norm_num] at this
    exact this
  constructor <;> linarith

/-- In general the float64 deviation, back in nanoseconds and before truncation, is
within `(N + 8) * M / 2^51` of the exact population standard deviation, on either build. -/
theorem sd_product_close_gen (fused : Bool) (ts : List Int) (M : Int) (hne : ts ≠ [])
    (hts : ∀ t ∈ ts, 0 ≤ t ∧ t ≤ M) (hN : ts.length + 8 ≤ 2 ^ 51) (hM64 : M ≤ maxInt64) :
    Real.sqrt ((ts.map (fun t : Int =>
        ((t : ℝ) - ((ts.sum : Int) : ℝ) / (ts.length : ℝ)) ^ 2)).sum / (ts.length : ℝ)) -
        (((ts.length : ℚ) + 8) * (M : ℚ) / 2 ^ 51 : ℚ) ≤
        ((fmul (sdSecondsOn fused ts) (ofInt Second) : ℚ) : ℝ) ∧
      ((fmul (sdSecondsOn fused ts) (ofInt Second) : ℚ) : ℝ) ≤
        Real.sqrt ((ts.map (fun t : Int =>
          ((t : ℝ) - ((ts.sum : Int) : ℝ) / (ts.length : ℝ)) ^ 2)).sum / (ts.length : ℝ)) +
        (((ts.length : ℚ) + 8) * (M : ℚ) / 2 ^ 51 : ℚ) := by
  obtain ⟨t0, ht0⟩ := List.exists_mem_of_ne_nil ts hne
  have hM0 : 0 ≤ M := le_trans (hts t0 ht0).1 (hts t0 ht0).2
  have hN52 : ts.length + 4 ≤ 2 ^ 52 := by omega
  obtain ⟨k, hk⟩ : ∃ k : Nat, k = (ts.length + 8) / 2 := ⟨_, rfl⟩
  obtain ⟨h1, h2⟩ := sd_product_close_of fused ts M hne hts hN52 hM64 _
    (dev_err_gen ts M hne hts hN52 hM64) k (by omega) (by omega)
  have hMq : (0 : ℚ) ≤ (M : ℚ) := by exact_mod_cast hM0
  have hN0 : (0 : ℚ) ≤ (ts.length : ℚ) := Nat.cast_nonneg _
  have hNle : (ts.length : ℚ) + 8 ≤ 2 ^ 51 := by exact_mod_cast hN
  have hk2 : 2 * (k : ℚ) ≤ (ts.length : ℚ) + 8 := by
    have : 2 * k ≤ ts.length + 8 := by omega
    exact_mod_cast this
  have hk0 : (0 : ℚ) ≤ (k : ℚ) := Nat.cast_nonneg _
  have hbound : ((ts.length : ℚ) + 6) * (M : ℚ) / 2 ^ 52 +
      2 * ((k : ℚ) / 2 ^ 53) * ((M : ℚ) + ((ts.length : ℚ) + 6) * (M : ℚ) / 2 ^ 52) ≤
      ((ts.length : ℚ) + 8) * (M : ℚ) / 2 ^ 51 := by
    generalize (ts.length : ℚ) = N at hN0 hNle hk2 ⊢
    generalize (M : ℚ) = Mq at hMq ⊢
    generalize (k : ℚ) = kq at hk2 hk0 ⊢
    have hη : (N + 6) * Mq / 2 ^ 52 ≤ Mq := by
      rw [div_le_iff₀ (by norm_num)]
      have : (N + 6) * Mq ≤ 2 ^ 52 * Mq := mul_le_mul_of_nonneg_right (by linarith) hMq
      linarith
    have h3 : 2 * (kq / 2 ^ 53) * (Mq + (N + 6) * Mq / 2 ^ 52) ≤
        2 * (kq / 2 ^ 53) * (2 * Mq) :=
      mul_le_mul_of_nonneg_left (by linarith) (by positivity)
    have h4 : 2 * (kq / 2 ^ 53) * (2 * Mq) ≤ (N + 8) * Mq / 2 ^ 52 := by
      have e : 2 * (kq / 2 ^ 53) * (2 * Mq) = (2 * kq) * Mq / 2 ^ 52 := by ring
      rw [e]
      exact div_le_div_of_nonneg_right (mul_le_mul_of_nonneg_right hk2 hMq) (by norm_num)
    have h5 : (N + 6) * Mq / 2 ^ 52 ≤ (N + 8) * Mq / 2 ^ 52 :=
      div_le_div_of_nonneg_right (mul_le_mul_of_nonneg_right (by linarith) hMq) (by norm_num)
    have e : (N + 8) * Mq / 2 ^ 51 = (N + 8) * Mq / 2 ^ 52 + (N + 8) * Mq / 2 ^ 52 := by ring
    rw [e]
    linarith
  have hbound1 : ((ts.length : ℚ) + 6) * (M : ℚ) / 2 ^ 52 +
      (k : ℚ) / 2 ^ 53 * ((M : ℚ) + ((ts.length : ℚ) + 6) * (M : ℚ) / 2 ^ 52) ≤
      ((ts.length : ℚ) + 8) * (M : ℚ) / 2 ^ 51 := by
    refine le_trans ?_ hbound
    have h0 : 0 ≤ (k : ℚ) / 2 ^ 53 * ((M : ℚ) + ((ts.length : ℚ) + 6) * (M : ℚ) / 2 ^ 52) := by
      positivity
    linarith
  have c1 := Rat.cast_le (K := ℝ).mpr hbound1
  have c2 := Rat.cast_le (K := ℝ).mpr hbound
  constructor <;> linarith

/-- The float64 mean, back in nanoseconds and before truncation, carries `N + 4` relative
roundings of the exact mean. -/
theorem mean_product_rel (ts : List Int) (hne : ts ≠ [])
    (hts64 : ∀ t ∈ ts, 0 ≤ t ∧ t ≤ maxInt64) (hN52 : ts.length + 4 ≤ 2 ^ 52) :
    0 ≤ fmul (avgSeconds ts) (ofInt Second) ∧
      (1 - 1 / 2 ^ 53 : ℚ) ^ (ts.length + 4) * (((ts.sum : Int) : ℚ) / (ts.length : ℚ)) ≤
        fmul (avgSeconds ts) (ofInt Second) ∧
      fmul (avgSeconds ts) (ofInt Second) ≤
        (1 + 1 / 2 ^ 53 : ℚ) ^ (ts.length + 4) * (((ts.sum : Int) : ℚ) / (ts.length : ℚ)) := by
  obtain ⟨hAlo, hAhi⟩ := avgSeconds_rel_gen ts hne hts64 hN52
  have hNpos : 0 < ts.length := List.length_pos.mpr hne
  have hsum0 : 0 ≤ ts.sum := List.sum_nonneg (fun t ht => (hts64 t ht).1)
  unfold fmul
  rw [ofInt_Second]
  have hNq : (0 : ℚ) < (ts.length : ℚ) := by exact_mod_cast hNpos
  have hNle : (ts.length : ℚ) ≤ 2 ^ 52 := by
    have : (ts.length : ℚ) + 4 ≤ 2 ^ 52 := by exact_mod_cast hN52
    linarith
  have hS0 : (0 : ℚ) ≤ ((ts.sum : Int) : ℚ) := by exact_mod_cast hsum0
  have hS01 : ((ts.sum : Int) : ℚ) = 0 ∨ (1 : ℚ) ≤ ((ts.sum : Int) : ℚ) := by
    rcases (by omega : ts.sum = 0 ∨ 1 ≤ ts.sum) with h | h
    · left
      exact_mod_cast h
    · right
      exact_mod_cast h
  generalize ((ts.sum : Int) : ℚ) = Sg at hAlo hAhi hS0 hS01 ⊢
  generalize avgSeconds ts = A at hAlo hAhi ⊢
  obtain ⟨N, hN⟩ : ∃ N : Nat, ts.length = N := ⟨_, rfl⟩
  rw [hN] at hAlo hAhi hNq hNle hN52 ⊢
  clear hN hNpos
  have hμ : Sg / 1000000000 / N * 1000000000 = Sg / N := by
    rw [div_div, mul_comm (1000000000 : ℚ), ← div_div, div_mul_cancel₀ _ (by norm_num)]
  have hL3 := lo_pow_pos (N + 3)
  have hL3h := lo_pow_ge_half (N + 3) (by omega)
  have hz2lo : (1 - 1 / 2 ^ 53 : ℚ) ^ (N + 3) * (Sg / N) ≤ A * 1000000000 := by
    rw [← hμ, ← mul_assoc]
    exact mul_le_mul_of_nonneg_right hAlo (by norm_num)
  have hz2hi : A * 1000000000 ≤ (1 + 1 / 2 ^ 53 : ℚ) ^ (N + 3) * (Sg / N) := by
    rw [← hμ, ← mul_assoc]
    exact mul_le_mul_of_nonneg_right hAhi (by norm_num)
  have hμ0 : 0 ≤ Sg / N := by positivity
  have hz20 : 0 ≤ A * 1000000000 := le_trans (mul_nonneg (le_of_lt hL3) hμ0) hz2lo
  have hz2 : A * 1000000000 = 0 ∨ (2 : ℚ) ^ (-1022 : Int) ≤ A * 1000000000 := by
    rcases hS01 with h | h
    · left
      rw [h] at hz2hi
      simp only [zero_div, mul_zero] at hz2hi
      exact le_antisymm hz2hi hz20
    · right
      apply tiny_le_of_le_200
      have h1 : (1 : ℚ) / 2 ^ 52 ≤ Sg / N := div_le_div₀ (by positivity) h hNq hNle
      have h3 : (1 / 2 : ℚ) * (1 / 2 ^ 52) ≤ (1 - 1 / 2 ^ 53 : ℚ) ^ (N + 3) * (Sg / N) :=
        mul_le_mul hL3h h1 (by norm_num) (le_of_lt hL3)
      have h4 : (1 : ℚ) / 2 ^ 200 ≤ 1 / 2 * (1 / 2 ^ 52) := by norm_num
      linarith
  obtain ⟨hP1, hP2⟩ := rnd_rel hz20 hz2
  refine ⟨rnd_nonneg hz20, ?_, ?_⟩
  · rw [pow_succ, mul_comm ((1 - 1 / 2 ^ 53 : ℚ) ^ (N + 3)), mul_assoc]
    exact le_trans (mul_le_mul_of_nonneg_left hz2lo (by norm_num)) hP1
  · rw [pow_succ, mul_comm ((1 + 1 / 2 ^ 53 : ℚ) ^ (N + 3)), mul_assoc]
    exact le_trans hP2 (mul_le_mul_of_nonneg_left hz2hi (by norm_num))

/-- In general the float64 mean, back in nanoseconds and before truncation, is
non-negative and within `(N + 4) * M / 2^52` of the exact mean. -/
theorem mean_product_gen (ts : List Int) (M : Int) (hne : ts ≠ [])
    (hts : ∀ t ∈ ts, 0 ≤ t ∧ t ≤ M) (hN52 : ts.length + 4 ≤ 2 ^ 52) (hM64 : M ≤ maxInt64) :
    0 ≤ fmul (avgSeconds ts) (ofInt Second) ∧
      |fmul (avgSeconds ts) (ofInt Second) - ((ts.sum : Int) : ℚ) / (ts.length : ℚ)| ≤
        ((ts.length : ℚ) + 4) * (M : ℚ) / 2 ^ 52 := by
  have hts64 : ∀ t ∈ ts, 0 ≤ t ∧ t ≤ maxInt64 := fun t ht =>
    ⟨(hts t ht).1, le_trans (hts t ht).2 hM64⟩
  obtain ⟨hP0, h1, h2⟩ := mean_product_rel ts hne hts64 hN52
  obtain ⟨_, _, hμ0, hμM⟩ := avgSeconds_ns_rel ts M hne hts hN52 hM64
  refine ⟨hP0, ?_⟩
  have hL := lo_pow_ge (ts.length + 4)
  have hN4 : ((ts.length + 4 : Nat) : ℚ) = (ts.length : ℚ) + 4 := by push_cast; ring
  have hNle : (ts.length : ℚ) + 4 ≤ 2 ^ 52 := by exact_mod_cast hN52
  have hU := hi_pow_mul_le (ts.length + 4) (by
    rw [hN4]
    linarith)
  rw [hN4] at hL hU
  have hN0 : (0 : ℚ) ≤ (ts.length : ℚ) := Nat.cast_nonneg _
  generalize fmul (avgSeconds ts) (ofInt Second) = P at hP0 h1 h2 ⊢
  generalize ((ts.sum : Int) : ℚ) / (ts.length : ℚ) = μ at h1 h2 hμ0 hμM ⊢
  generalize (1 - 1 / 2 ^ 53 : ℚ) ^ (ts.length + 4) = L at hL h1
  generalize (1 + 1 / 2 ^ 53 : ℚ) ^ (ts.length + 4) = U at hU h2
  generalize (ts.length : ℚ) = N at hL hU hNle hN0 ⊢
  generalize (M : ℚ) = Mq at hμM ⊢
  have ha0 : 0 ≤ (N + 4) / 2 ^ 53 := by positivity
  have ha2 : (N + 4) / 2 ^ 53 ≤ 1 / 2 := by
    rw [div_le_iff₀ (by norm_num)]
    linarith
  have haμ : (N + 4) / 2 ^ 53 * μ ≤ (N + 4) / 2 ^ 53 * Mq :=
    mul_le_mul_of_nonneg_left hμM ha0
  have e : (N + 4) * Mq / 2 ^ 52 = 2 * ((N + 4) / 2 ^ 53 * Mq) := by ring
  have hM0 : 0 ≤ (N + 4) / 2 ^ 53 * Mq := le_trans (mul_nonneg ha0 hμ0) haμ
  have hlo : (1 - (N + 4) / 2 ^ 53) * μ ≤ P :=
    le_trans (mul_le_mul_of_nonneg_right hL hμ0) h1
  have hhi : P * (1 - (N + 4) / 2 ^ 53) ≤ μ := by
    have h3 : P * (1 - (N + 4) / 2 ^ 53) ≤ U * μ * (1 - (N + 4) / 2 ^ 53) :=
      mul_le_mul_of_nonneg_right h2 (by linarith)
    have h4 : U * (1 - (N + 4) / 2 ^ 53) * μ ≤ 1 * μ := mul_le_mul_of_nonneg_right hU hμ0
    have h5 : U * μ * (1 - (N + 4) / 2 ^ 53) = U * (1 - (N + 4) / 2 ^ 53) * μ := by ring
    linarith
  rw [e, abs_le]
  constructor
  · linarith
  · have hP2 : P * (1 / 2) ≤ P * (1 - (N + 4) / 2 ^ 53) :=
      mul_le_mul_of_nonneg_left (by linarith) hP0
    have hPμ : P ≤ 2 * μ := by linarith
    have h3 : (N + 4) / 2 ^ 53 * P ≤ (N + 4) / 2 ^ 53 * (2 * μ) :=
      mul_le_mul_of_nonneg_left hPμ ha0
    have h4 : P - μ ≤ (N + 4) / 2 ^ 53 * P := by
      have : P * (1 - (N + 4) / 2 ^ 53) = P - (N + 4) / 2 ^ 53 * P := by ring
      linarith
    linarith

/-- The exact population standard deviation of samples in `[0, M]` is at most `M`. -/
theorem exact_sd_le (ts : List Int) (M : Int) (hne : ts ≠ [])
    (hts : ∀ t ∈ ts, 0 ≤ t ∧ t ≤ M) :
    Real.sqrt ((ts.map (fun t : Int =>
      ((t : ℝ) - ((ts.sum : Int) : ℝ) / (ts.length : ℝ)) ^ 2)).sum / (ts.length : ℝ)) ≤
      (M : ℝ) := by
  obtain ⟨t0, ht0⟩ := List.exists_mem_of_ne_nil ts hne
  have hM0 : 0 ≤ M := le_trans (hts t0 ht0).1 (hts t0 ht0).2
  have hNpos : 0 < ts.length := List.length_pos.mpr hne
  have hNr : (0 : ℝ) < (ts.length : ℝ) := by exact_mod_cast hNpos
  have hsum0 : 0 ≤ ts.sum := List.sum_nonneg (fun t ht => (hts t ht).1)
  have hsumM : ts.sum ≤ ts.length * M := by
    have := List.sum_le_card_nsmul ts M (fun t ht => (hts t ht).2)
    simpa using this
  have hμ0r : (0 : ℝ) ≤ ((ts.sum : Int) : ℝ) / (ts.length : ℝ) :=
    div_nonneg (by exact_mod_cast hsum0) (le_of_lt hNr)
  have hμMr : ((ts.sum : Int) : ℝ) / (ts.length : ℝ) ≤ (M : ℝ) := by
    rw [div_le_iff₀ hNr, mul_comm]
    exact_mod_cast hsumM
  have hMr : (0 : ℝ) ≤ (M : ℝ) := by exact_mod_cast hM0
  rw [Real.sqrt_le_left hMr, div_le_iff₀ hNr]
  have h1 : ∀ x ∈ ts.map (fun t : Int =>
      ((t : ℝ) - ((ts.sum : Int) : ℝ) / (ts.length : ℝ)) ^ 2), x ≤ (M : ℝ) ^ 2 := by
    intro x hx
    obtain ⟨t, ht, rfl⟩ := List.mem_map.mp hx
    have ht0 : (0 : ℝ) ≤ (t : ℝ) := by exact_mod_cast (hts t ht).1
    have htM : (t : ℝ) ≤ (M : ℝ) := by exact_mod_cast (hts t ht).2
    apply sq_le_sq'
    · linarith
    · linarith
  have h2 := List.sum_le_card_nsmul _ _ h1
  rw [List.length_map, nsmul_eq_mul] at h2
  rw [mul_comm]
  exact h2

/-! ## A two-sample run: the mean and the deviation both come out one nanosecond low -/

theorem log_eq_of_pos {a : ℚ} {e : Int} (h1 : (2 : ℚ) ^ e ≤ a) (h2 : a < (2 : ℚ) ^ (e + 1)) :
    Int.log 2 a = e := by
  have hpos : 0 < a := lt_of_lt_of_le (two_zpow_pos e) h1
  have habs : |a| = a := abs_of_pos hpos
  have := log_abs_eq (q := a) (e := e) (by rw [habs]; exact h1) (by rw [habs]; exact h2)
  rwa [habs] at this

/-- Evaluating a square root from a certificate: the binade `e` of `a`, the scaled
argument `n = a * 4 ^ k`, and its integer square root `s` when `n` is not a square. -/
theorem fsqrt_eq_of {a v : ℚ} (e k : Int) (n s : Nat) (h1 : (2 : ℚ) ^ e ≤ a)
    (h2 : a < (2 : ℚ) ^ (e + 1)) (hk : 56 - e / 2 = k) (hn : a * (4 : ℚ) ^ k = (n : ℚ))
    (hs1 : s * s ≤ n) (hs2 : n < (s + 1) * (s + 1)) (hne : s * s ≠ n)
    (hv : rnd (((s : ℚ) + 1 / 2) / (2 : ℚ) ^ k) = v) : fsqrt a = v := by
  have hpos : 0 < a := lt_of_lt_of_le (two_zpow_pos e) h1
  have hs : Nat.sqrt n = s := (Nat.eq_sqrt.mpr ⟨hs1, hs2⟩).symm
  unfold fsqrt
  rw [if_neg (not_le.mpr hpos)]
  simp only [log_eq_of_pos h1 h2, hk, hn, Nat.floor_natCast, hs]
  rw [if_neg (by exact_mod_cast hne)]
  exact hv

theorem Seconds_30ns : Seconds 30 = ((4533471823554859 : ℚ) / 151115727451828646838272) := by
  rw [Seconds_of_lt_Second (by decide) (by decide)]
  exact rnd_eq_of_pos_val (-25) 4533471823554859 (by norm_num) (by norm_num) (by norm_num)
        (by norm_num) (by norm_num) (by norm_num)

theorem half_Seconds_30ns :
    rnd (((4533471823554859 : ℚ) / 302231454903657293676544)) = ((4533471823554859 : ℚ) / 302231454903657293676544) :=
  rnd_eq_of_pos_val (-26) 4533471823554859 (by norm_num) (by norm_num) (by norm_num)
        (by norm_num) (by norm_num) (by norm_num)

theorem avgSeconds_0_30 : avgSeconds [0, 30] = ((4533471823554859 : ℚ) / 302231454903657293676544) := by
  have h0 : Seconds 0 = 0 := by
    rw [Seconds_of_lt_Second (le_refl _) (by decide)]
    norm_num [rnd_zero]
  have h2 : ofInt (([0, 30] : List Int).length) = 2 := by
    have := ofInt_exact (n := 2) (by norm_num)
    simpa using this
  unfold avgSeconds
  rw [h2, List.foldl_cons, List.foldl_cons, List.foldl_nil, h0, Seconds_30ns]
  unfold fadd fdiv
  rw [add_zero, rnd_zero, zero_add]
  have hS : rnd (((4533471823554859 : ℚ) / 151115727451828646838272)) = ((4533471823554859 : ℚ) / 151115727451828646838272) := by
    rw [← Seconds_30ns, Seconds_of_lt_Second (by decide) (by decide), rnd_idem]
  rw [hS]
  have hA : ((4533471823554859 : ℚ) / 151115727451828646838272) / 2 = ((4533471823554859 : ℚ) / 302231454903657293676544) := by norm_num
  rw [hA]
  exact half_Seconds_30ns

theorem sq_half_Seconds_30ns :
    rnd (((4533471823554859 : ℚ) / 302231454903657293676544) * ((4533471823554859 : ℚ) / 302231454903657293676544)) = ((4563542160821625 : ℚ) / 20282409603651670423947251286016) :=
  rnd_eq_of_pos_val (-52) 4563542160821625 (by norm_num) (by norm_num) (by norm_num)
        (by norm_num) (by norm_num) (by norm_num)

theorem sqrt_scenario :
    fsqrt (((4563542160821625 : ℚ) / 20282409603651670423947251286016)) = ((4533471823554859 : ℚ) / 302231454903657293676544) := by
  apply fsqrt_eq_of (-52) 82 5261405894391249530867108806656000 72535549176877743
  · norm_num
  · norm_num
  · decide
  · norm_num
  · norm_num
  · norm_num
  · norm_num
  · have hpre : ((72535549176877743 : ℕ) : ℚ) + 1 / 2 = 145071098353755487 / 2 := by norm_num
    rw [hpre]
    exact rnd_eq_of_pos_val (-26) 4533471823554859 (by norm_num) (by norm_num) (by norm_num)
        (by norm_num) (by norm_num) (by norm_num)

theorem sdSeconds_0_30 : sdSeconds [0, 30] = ((4533471823554859 : ℚ) / 302231454903657293676544) := by
  have h0 : Seconds 0 = 0 := by
    rw [Seconds_of_lt_Second (le_refl _) (by decide)]
    norm_num [rnd_zero]
  have h2 : ofInt (([0, 30] : List Int).length) = 2 := by
    have := ofInt_exact (n := 2) (by norm_num)
    simpa using this
  have hd0 : fsub 0 (((4533471823554859 : ℚ) / 302231454903657293676544)) = -((4533471823554859 : ℚ) / 302231454903657293676544) := by
    unfold fsub
    rw [zero_sub, rnd_neg, half_Seconds_30ns]
  have hd1 : fsub (((4533471823554859 : ℚ) / 151115727451828646838272)) (((4533471823554859 : ℚ) / 302231454903657293676544)) = ((4533471823554859 : ℚ) / 302231454903657293676544) := by
    unfold fsub
    have : ((4533471823554859 : ℚ) / 151115727451828646838272) - ((4533471823554859 : ℚ) / 302231454903657293676544) = ((4533471823554859 : ℚ) / 302231454903657293676544) := by norm_num
    rw [this]
    exact half_Seconds_30ns
  have hm0 : fmul (-((4533471823554859 : ℚ) / 302231454903657293676544)) (-((4533471823554859 : ℚ) / 302231454903657293676544)) = ((4563542160821625 : ℚ) / 20282409603651670423947251286016) := by
    unfold fmul
    rw [neg_mul_neg]
    exact sq_half_Seconds_30ns
  have hm1 : fmul (((4533471823554859 : ℚ) / 302231454903657293676544)) (((4533471823554859 : ℚ) / 302231454903657293676544)) = ((4563542160821625 : ℚ) / 20282409603651670423947251286016) := by
    unfold fmul
    exact sq_half_Seconds_30ns
  have hq : rnd (((4563542160821625 : ℚ) / 20282409603651670423947251286016)) = ((4563542160821625 : ℚ) / 20282409603651670423947251286016) :=
    rnd_eq_of_pos_val (-52) 4563542160821625 (by norm_num) (by norm_num) (by norm_num)
        (by norm_num) (by norm_num) (by norm_num)
  have hG : fadd (fadd 0 (((4563542160821625 : ℚ) / 20282409603651670423947251286016))) (((4563542160821625 : ℚ) / 20282409603651670423947251286016)) = 2 * ((4563542160821625 : ℚ) / 20282409603651670423947251286016) := by
    unfold fadd
    rw [zero_add, hq]
    have h3 : ((4563542160821625 : ℚ) / 20282409603651670423947251286016) + ((4563542160821625 : ℚ) / 20282409603651670423947251286016) = 2 * ((4563542160821625 : ℚ) / 20282409603651670423947251286016) := by ring
    rw [h3]
    exact rnd_eq_of_pos_val (-51) 4563542160821625 (by norm_num) (by norm_num) (by norm_num)
        (by norm_num) (by norm_num) (by norm_num)
  have hv : fdiv (2 * ((4563542160821625 : ℚ) / 20282409603651670423947251286016)) 2 = ((4563542160821625 : ℚ) / 20282409603651670423947251286016) := by
    unfold fdiv
    have h3 : 2 * ((4563542160821625 : ℚ) / 20282409603651670423947251286016) / 2 = ((4563542160821625 : ℚ) / 20282409603651670423947251286016) := by norm_num
    rw [h3]
    exact hq
  unfold sdSeconds
  simp only []
  rw [avgSeconds_0_30, h2, List.foldl_cons, List.foldl_cons, List.foldl_nil, h0, Seconds_30ns,
    hd0, hd1, hm0, hm1, hG, hv]
  exact sqrt_scenario

theorem product_0_30 :
    fmul (((4533471823554859 : ℚ) / 302231454903657293676544)) (ofInt Second) = ((8444249301319679 : ℚ) / 562949953421312) := by
  rw [ofInt_Second]
  unfold fmul
  exact rnd_eq_of_pos_val (3) 8444249301319679 (by norm_num) (by norm_num) (by norm_num)
        (by norm_num) (by norm_num) (by norm_num)

theorem sdSecondsOn_0_30 (fused : Bool) :
    sdSecondsOn fused [0, 30] = ((4533471823554859 : ℚ) / 302231454903657293676544) := by
  cases fused with
  | false => exact sdSeconds_0_30
  | true =>
    have h0 : Seconds 0 = 0 := by
      rw [Seconds_of_lt_Second (le_refl _) (by decide)]
      norm_num [rnd_zero]
    have h2 : ofInt (([0, 30] : List Int).length) = 2 := by
      have := ofInt_exact (n := 2) (by norm_num)
      simpa using this
    have hd0 : fsub 0 (((4533471823554859 : ℚ) / 302231454903657293676544)) = -((4533471823554859 : ℚ) / 302231454903657293676544) := by
      unfold fsub
      rw [zero_sub, rnd_neg, half_Seconds_30ns]
    have hd1 : fsub (((4533471823554859 : ℚ) / 151115727451828646838272)) (((4533471823554859 : ℚ) / 302231454903657293676544)) = ((4533471823554859 : ℚ) / 302231454903657293676544) := by
      unfold fsub
      have : ((4533471823554859 : ℚ) / 151115727451828646838272) - ((4533471823554859 : ℚ) / 302231454903657293676544) = ((4533471823554859 : ℚ) / 302231454903657293676544) := by norm_num
      rw [this]
      exact half_Seconds_30ns
    have hm0 : fma (-((4533471823554859 : ℚ) / 302231454903657293676544)) (-((4533471823554859 : ℚ) / 302231454903657293676544)) 0 = ((4563542160821625 : ℚ) / 20282409603651670423947251286016) := by
      unfold fma
      rw [neg_mul_neg, add_zero]
      exact sq_half_Seconds_30ns
    have hm1 : fma (((4533471823554859 : ℚ) / 302231454903657293676544)) (((4533471823554859 : ℚ) / 302231454903657293676544)) (((4563542160821625 : ℚ) / 20282409603651670423947251286016)) = 2 * ((4563542160821625 : ℚ) / 20282409603651670423947251286016) := by
      unfold fma
      exact rnd_eq_of_pos_val (-51) 4563542160821625 (by norm_num) (by norm_num) (by norm_num)
        (by norm_num) (by norm_num) (by norm_num)
    have hq : rnd (((4563542160821625 : ℚ) / 20282409603651670423947251286016)) = ((4563542160821625 : ℚ) / 20282409603651670423947251286016) :=
      rnd_eq_of_pos_val (-52) 4563542160821625 (by norm_num) (by norm_num) (by norm_num)
        (by norm_num) (by norm_num) (by norm_num)
    have hv : fdiv (2 * ((4563542160821625 : ℚ) / 20282409603651670423947251286016)) 2 = ((4563542160821625 : ℚ) / 20282409603651670423947251286016) := by
      unfold fdiv
      have h3 : 2 * ((4563542160821625 : ℚ) / 20282409603651670423947251286016) / 2 = ((4563542160821625 : ℚ) / 20282409603651670423947251286016) := by norm_num
      rw [h3]
      exact hq
    unfold sdSecondsOn
    simp only [if_true]
    rw [avgSeconds_0_30, h2, List.foldl_cons, List.foldl_cons, List.foldl_nil, h0, Seconds_30ns,
      hd0, hd1, hm0, hm1, hv]
    exact sqrt_scenario

/-! ## Mean and deviation without overflow -/

/-- C13, amended. No overflow in mean and deviation, on either build (line 69 compiled
with or without a fused multiply-add) and whatever the platform's out-of-range
conversion: for every sequence of `N ≥ 1` non-negative samples, all at most `M`, with
`M + 4096 * (N + 8) < 2^63` (for instance up to `2^49` samples of up to `2^62` ns each;
two samples of `2^62` ns already have an integer sum beyond `int64`), `avg` and `sd`
are the float64 evaluations, in seconds over the stored samples, of the arithmetic mean
and of the population standard deviation (square root of the sum of squared deviations
from the mean divided by `N`), each multiplied by one second and truncated to whole
nanoseconds, the truncation being inside the `int64` range; both are non-negative;
with `E = (N + 8) * M / 2^51`, `avg` is within `E + 1` of the exact arithmetic mean `μ`
(`μ - E - 1 < avg ≤ μ + E`) and `sd` within `E + 1` of the exact population standard
deviation `σ` (`σ - E - 1 < sd ≤ σ + E`), neither always equal to it; and when moreover
`(N + 4) * (M + 1) ≤ 2^52` (for instance 10,000 samples of up to 450 seconds each),
`μ - 3/2 < avg < μ + 1`, `avg ≤ M` and `σ - 5/2 < sd ≤ σ + 2`. -/
theorem C13_mean_and_deviation_in_range (fused : Bool) (conv : ℚ → Int) (ts : List Int)
    (M : Int) (hne : ts ≠ []) (hts : ∀ t ∈ ts, 0 ≤ t ∧ t ≤ M)
    (hrange : M + 4096 * ((ts.length : Int) + 8) < 2 ^ 63) :
    ∃ s, feedOn fused conv newStats ts = some s ∧
      s.avg = ⌊fmul (avgSeconds s.times) (ofInt Second)⌋ ∧
      avgSeconds s.times =
        fdiv (s.times.foldl (fun acc t => fadd acc (Seconds t)) 0) (ofInt s.times.length) ∧
      s.sd = ⌊fmul (sdSecondsOn fused s.times) (ofInt Second)⌋ ∧
      sdSecondsOn fused s.times =
        fsqrt (fdiv
          (s.times.foldl
            (fun acc t =>
              if fused then
                fma (fsub (Seconds t) (avgSeconds s.times))
                  (fsub (Seconds t) (avgSeconds s.times)) acc
              else
                fadd acc (fmul (fsub (Seconds t) (avgSeconds s.times))
                  (fsub (Seconds t) (avgSeconds s.times)))) 0)
          (ofInt s.times.length)) ∧
      0 ≤ s.avg ∧ s.avg ≤ maxInt64 ∧ 0 ≤ s.sd ∧ s.sd ≤ maxInt64 ∧
      ((ts.sum : Int) : ℚ) / (ts.length : ℚ) - ((ts.length : ℚ) + 8) * (M : ℚ) / 2 ^ 51 - 1 <
        (s.avg : ℚ) ∧
      (s.avg : ℚ) ≤
        ((ts.sum : Int) : ℚ) / (ts.length : ℚ) + ((ts.length : ℚ) + 8) * (M : ℚ) / 2 ^ 51 ∧
      Real.sqrt ((ts.map (fun t : Int =>
          ((t : ℝ) - ((ts.sum : Int) : ℝ) / (ts.length : ℝ)) ^ 2)).sum / (ts.length : ℝ)) -
          ((ts.length : ℝ) + 8) * (M : ℝ) / 2 ^ 51 - 1 < (s.sd : ℝ) ∧
      (s.sd : ℝ) ≤ Real.sqrt ((ts.map (fun t : Int =>
          ((t : ℝ) - ((ts.sum : Int) : ℝ) / (ts.length : ℝ)) ^ 2)).sum / (ts.length : ℝ)) +
          ((ts.length : ℝ) + 8) * (M : ℝ) / 2 ^ 51 ∧
      (((ts.length : Int) + 4) * (M + 1) ≤ 2 ^ 52 →
        ((ts.sum : Int) : ℚ) / (ts.length : ℚ) - 3 / 2 < (s.avg : ℚ) ∧
        (s.avg : ℚ) < ((ts.sum : Int) : ℚ) / (ts.length : ℚ) + 1 ∧ s.avg ≤ M ∧
        Real.sqrt ((ts.map (fun t : Int =>
          ((t : ℝ) - ((ts.sum : Int) : ℝ) / (ts.length : ℝ)) ^ 2)).sum / (ts.length : ℝ)) -
          5 / 2 < (s.sd : ℝ) ∧
        (s.sd : ℝ) ≤ Real.sqrt ((ts.map (fun t : Int =>
          ((t : ℝ) - ((ts.sum : Int) : ℝ) / (ts.length : ℝ)) ^ 2)).sum / (ts.length : ℝ)) +
          2) := by
  obtain ⟨s, s1, _, hf, hr, d, htimes, havg1, hsd1⟩ := feedOn_newStats fused conv ts hne
  obtain ⟨hM0, hNpos, hN51, hM64⟩ := range_facts ts M hne hts hrange
  have hperm : s.times.Perm ts := by rw [htimes]; exact hr.perm
  have hne1 : s.times ≠ [] := fun h => hne (List.Perm.eq_nil (h ▸ hperm.symm))
  have hts1 : ∀ t ∈ s.times, 0 ≤ t ∧ t ≤ M := fun t ht => hts t (hperm.mem_iff.mp ht)
  have hts64 : ∀ t ∈ s.times, 0 ≤ t ∧ t ≤ maxInt64 := fun t ht =>
    ⟨(hts1 t ht).1, le_trans (hts1 t ht).2 hM64⟩
  have hlen : s.times.length = ts.length := hperm.length_eq
  have hN52 : s.times.length + 4 ≤ 2 ^ 52 := by omega
  -- the two products, before truncation
  obtain ⟨hP0, hPabs⟩ := mean_product_gen s.times M hne1 hts1 hN52 hM64
  obtain ⟨hQ0, _, _⟩ := sd_product_sq_bounds fused s.times hne1 hts64 hN52
  obtain ⟨hQ1, hQ2⟩ := sd_product_close_gen fused s.times M hne1 hts1 (by omega) hM64
  have hσM := exact_sd_le s.times M hne1 hts1
  rw [hperm.sum_eq, hlen] at hPabs
  rw [hperm.sum_eq, hlen, (hperm.map _).sum_eq] at hQ1 hQ2 hσM
  rw [abs_le] at hPabs
  -- sizes
  have hMq0 : (0 : ℚ) ≤ (M : ℚ) := by exact_mod_cast hM0
  have hN0 : (0 : ℚ) ≤ (ts.length : ℚ) := Nat.cast_nonneg _
  have hrangeq : (M : ℚ) + 4096 * ((ts.length : ℚ) + 8) < 2 ^ 63 := by exact_mod_cast hrange
  have hE : ((ts.length : ℚ) + 8) * (M : ℚ) / 2 ^ 51 ≤ 4096 * ((ts.length : ℚ) + 8) := by
    rw [div_le_iff₀ (by norm_num)]
    have h1 : ((ts.length : ℚ) + 8) * (M : ℚ) ≤ ((ts.length : ℚ) + 8) * 2 ^ 63 :=
      mul_le_mul_of_nonneg_left (by linarith) (by linarith)
    linarith
  have hE4 : ((ts.length : ℚ) + 4) * (M : ℚ) / 2 ^ 52 ≤
      ((ts.length : ℚ) + 8) * (M : ℚ) / 2 ^ 51 := by
    rw [div_le_div_iff₀ (by norm_num) (by norm_num)]
    have h1 : ((ts.length : ℚ) + 4) * (M : ℚ) ≤ ((ts.length : ℚ) + 8) * (M : ℚ) :=
      mul_le_mul_of_nonneg_right (by linarith) hMq0
    have h2 : 0 ≤ ((ts.length : ℚ) + 8) * (M : ℚ) := by positivity
    linarith
  have hsumM : ts.sum ≤ ts.length * M := by
    have := List.sum_le_card_nsmul ts M (fun t ht => (hts t ht).2)
    simpa using this
  have hNq : (0 : ℚ) < (ts.length : ℚ) := by exact_mod_cast hNpos
  have hμM : ((ts.sum : Int) : ℚ) / (ts.length : ℚ) ≤ (M : ℚ) := by
    rw [div_le_iff₀ hNq, mul_comm]
    exact_mod_cast hsumM
  -- the mean is inside `int64`
  have hPlt : fmul (avgSeconds s.times) (ofInt Second) < 2 ^ 63 := by linarith
  have hfl1 := Int.floor_le (fmul (avgSeconds s.times) (ofInt Second))
  have hfl2 := Int.lt_floor_add_one (fmul (avgSeconds s.times) (ofInt Second))
  have hflP0 : 0 ≤ ⌊fmul (avgSeconds s.times) (ofInt Second)⌋ := Int.floor_nonneg.mpr hP0
  have hflP1 : ⌊fmul (avgSeconds s.times) (ofInt Second)⌋ ≤ maxInt64 := by
    have : ⌊fmul (avgSeconds s.times) (ofInt Second)⌋ < 2 ^ 63 := by
      apply Int.floor_lt.mpr
      push_cast
      exact hPlt
    unfold maxInt64
    omega
  have havg : s.avg = ⌊fmul (avgSeconds s.times) (ofInt Second)⌋ := by
    rw [havg1, d.avg, ← htimes,
      toDuration_of_floor hP0 ⟨by unfold minInt64; omega, hflP1⟩]
  -- the deviation is inside `int64`
  have hEr : (((((ts.length : ℚ) + 8) * (M : ℚ) / 2 ^ 51 : ℚ)) : ℝ) =
      ((ts.length : ℝ) + 8) * (M : ℝ) / 2 ^ 51 := by
    push_cast
    ring
  rw [hEr] at hQ1 hQ2
  have hErle : ((ts.length : ℝ) + 8) * (M : ℝ) / 2 ^ 51 ≤ 4096 * ((ts.length : ℝ) + 8) := by
    have := Rat.cast_le (K := ℝ).mpr hE
    rw [hEr] at this
    push_cast at this
    exact this
  have hrange_r : (M : ℝ) + 4096 * ((ts.length : ℝ) + 8) < 2 ^ 63 := by exact_mod_cast hrange
  have hQlt : fmul (sdSecondsOn fused s.times) (ofInt Second) < 2 ^ 63 := by
    have h1 : ((fmul (sdSecondsOn fused s.times) (ofInt Second) : ℚ) : ℝ) < 2 ^ 63 := by
      linarith
    exact_mod_cast h1
  have hflQ0 : 0 ≤ ⌊fmul (sdSecondsOn fused s.times) (ofInt Second)⌋ :=
    Int.floor_nonneg.mpr hQ0
  have hflQ1 : ⌊fmul (sdSecondsOn fused s.times) (ofInt Second)⌋ ≤ maxInt64 := by
    have : ⌊fmul (sdSecondsOn fused s.times) (ofInt Second)⌋ < 2 ^ 63 := by
      apply Int.floor_lt.mpr
      push_cast
      exact hQlt
    unfold maxInt64
    omega
  have hsd : s.sd = ⌊fmul (sdSecondsOn fused s.times) (ofInt Second)⌋ := by
    rw [hsd1, toDuration_of_floor hQ0 ⟨by unfold minInt64; omega, hflQ1⟩]
  have hsdr1 : ((⌊fmul (sdSecondsOn fused s.times) (ofInt Second)⌋ : Int) : ℝ) ≤
      ((fmul (sdSecondsOn fused s.times) (ofInt Second) : ℚ) : ℝ) := by
    have := Int.floor_le (fmul (sdSecondsOn fused s.times) (ofInt Second))
    exact_mod_cast this
  have hsdr2 : ((fmul (sdSecondsOn fused s.times) (ofInt Second) : ℚ) : ℝ) <
      ((⌊fmul (sdSecondsOn fused s.times) (ofInt Second)⌋ : Int) : ℝ) + 1 := by
    have := Int.lt_floor_add_one (fmul (sdSecondsOn fused s.times) (ofInt Second))
    exact_mod_cast this
  refine ⟨s, hf, havg, rfl, hsd, rfl, ?_, ?_, ?_, ?_, ?_, ?_, ?_, ?_, ?_⟩
  · rw [havg]
    exact hflP0
  · rw [havg]
    exact hflP1
  · rw [hsd]
    exact hflQ0
  · rw [hsd]
    exact hflQ1
  · rw [havg]
    linarith
  · rw [havg]
    linarith
  · rw [hsd]
    linarith
  · rw [hsd]
    linarith
  · intro hsize
    have hsize1 : ((s.times.length : Int) + 4) * (M + 1) ≤ 2 ^ 52 := by rw [hlen]; exact hsize
    obtain ⟨_, hm1, hm2⟩ := mean_product_bounds s.times M hne1 hts1 hsize1
    obtain ⟨hc1, hc2⟩ := sd_product_close fused s.times M hne1 hts1 hsize1
    rw [hperm.sum_eq, hlen] at hm1 hm2
    rw [hperm.sum_eq, hlen, (hperm.map _).sum_eq] at hc1 hc2
    have havgM : ⌊fmul (avgSeconds s.times) (ofInt Second)⌋ ≤ M := by
      have : ⌊fmul (avgSeconds s.times) (ofInt Second)⌋ < M + 1 := by
        apply Int.floor_lt.mpr
        push_cast
        linarith
      omega
    refine ⟨?_, ?_, ?_, ?_, ?_⟩
    · rw [havg]
      linarith
    · rw [havg]
      linarith
    · rw [havg]
      exact havgM
    · rw [hsd]
      linarith
    · rw [hsd]
      linarith

/-- C13 at a concrete input: three samples of `2^62` ns with the bound `M = 2^62`, whose
integer sum `3 * 2^62` exceeds `math.MaxInt64`, on the build with a fused multiply-add. -/
theorem C13_mean_and_deviation_in_range_witness :
    maxInt64 < ([4611686018427387904, 4611686018427387904, 4611686018427387904] : List Int).sum ∧
    ([4611686018427387904, 4611686018427387904, 4611686018427387904] : List Int) ≠ [] ∧
    (∀ t ∈ ([4611686018427387904, 4611686018427387904, 4611686018427387904] : List Int), 0 ≤ t ∧ t ≤ 4611686018427387904) ∧
    (4611686018427387904 : Int) + 4096 * ((([4611686018427387904, 4611686018427387904, 4611686018427387904] : List Int).length : Int) + 8) < 2 ^ 63 ∧
    ∃ s, feedOn true (fun _ => 0) newStats [4611686018427387904, 4611686018427387904, 4611686018427387904] = some s ∧
      s.avg = ⌊fmul (avgSeconds s.times) (ofInt Second)⌋ ∧
      avgSeconds s.times =
        fdiv (s.times.foldl (fun acc t => fadd acc (Seconds t)) 0) (ofInt s.times.length) ∧
      s.sd = ⌊fmul (sdSecondsOn true s.times) (ofInt Second)⌋ ∧
      sdSecondsOn true s.times =
        fsqrt (fdiv
          (s.times.foldl
            (fun acc t =>
              if true then
                fma (fsub (Seconds t) (avgSeconds s.times))
                  (fsub (Seconds t) (avgSeconds s.times)) acc
              else
                fadd acc (fmul (fsub (Seconds t) (avgSeconds s.times))
                  (fsub (Seconds t) (avgSeconds s.times)))) 0)
          (ofInt s.times.length)) ∧
      0 ≤ s.avg ∧ s.avg ≤ maxInt64 ∧ 0 ≤ s.sd ∧ s.sd ≤ maxInt64 ∧
      ((([4611686018427387904, 4611686018427387904, 4611686018427387904] : List Int).sum : Int) : ℚ) / (([4611686018427387904, 4611686018427387904, 4611686018427387904] : List Int).length : ℚ) -
          ((([4611686018427387904, 4611686018427387904, 4611686018427387904] : List Int).length : ℚ) + 8) * ((4611686018427387904 : Int) : ℚ) / 2 ^ 51 - 1 < (s.avg : ℚ) ∧
      (s.avg : ℚ) ≤ ((([4611686018427387904, 4611686018427387904, 4611686018427387904] : List Int).sum : Int) : ℚ) / (([4611686018427387904, 4611686018427387904, 4611686018427387904] : List Int).length : ℚ) +
          ((([4611686018427387904, 4611686018427387904, 4611686018427387904] : List Int).length : ℚ) + 8) * ((4611686018427387904 : Int) : ℚ) / 2 ^ 51 ∧
      Real.sqrt ((([4611686018427387904, 4611686018427387904, 4611686018427387904] : List Int).map (fun t : Int =>
          ((t : ℝ) - ((([4611686018427387904, 4611686018427387904, 4611686018427387904] : List Int).sum : Int) : ℝ) / (([4611686018427387904, 4611686018427387904, 4611686018427387904] : List Int).length : ℝ)) ^ 2)).sum /
          (([4611686018427387904, 4611686018427387904, 4611686018427387904] : List Int).length : ℝ)) -
          ((([4611686018427387904, 4611686018427387904, 4611686018427387904] : List Int).length : ℝ) + 8) * ((4611686018427387904 : Int) : ℝ) / 2 ^ 51 - 1 < (s.sd : ℝ) ∧
      (s.sd : ℝ) ≤ Real.sqrt ((([4611686018427387904, 4611686018427387904, 4611686018427387904] : List Int).map (fun t : Int =>
          ((t : ℝ) - ((([4611686018427387904, 4611686018427387904, 4611686018427387904] : List Int).sum : Int) : ℝ) / (([4611686018427387904, 4611686018427387904, 4611686018427387904] : List Int).length : ℝ)) ^ 2)).sum /
          (([4611686018427387904, 4611686018427387904, 4611686018427387904] : List Int).length : ℝ)) +
          ((([4611686018427387904, 4611686018427387904, 4611686018427387904] : List Int).length : ℝ) + 8) * ((4611686018427387904 : Int) : ℝ) / 2 ^ 51 ∧
      (((([4611686018427387904, 4611686018427387904, 4611686018427387904] : List Int).length : Int) + 4) * (4611686018427387904 + 1) ≤ 2 ^ 52 →
        ((([4611686018427387904, 4611686018427387904, 4611686018427387904] : List Int).sum : Int) : ℚ) / (([4611686018427387904, 4611686018427387904, 4611686018427387904] : List Int).length : ℚ) - 3 / 2 < (s.avg : ℚ) ∧
        (s.avg : ℚ) < ((([4611686018427387904, 4611686018427387904, 4611686018427387904] : List Int).sum : Int) : ℚ) / (([4611686018427387904, 4611686018427387904, 4611686018427387904] : List Int).length : ℚ) + 1 ∧ s.avg ≤ 4611686018427387904 ∧
        Real.sqrt ((([4611686018427387904, 4611686018427387904, 4611686018427387904] : List Int).map (fun t : Int =>
          ((t : ℝ) - ((([4611686018427387904, 4611686018427387904, 4611686018427387904] : List Int).sum : Int) : ℝ) / (([4611686018427387904, 4611686018427387904, 4611686018427387904] : List Int).length : ℝ)) ^ 2)).sum /
          (([4611686018427387904, 4611686018427387904, 4611686018427387904] : List Int).length : ℝ)) - 5 / 2 < (s.sd : ℝ) ∧
        (s.sd : ℝ) ≤ Real.sqrt ((([4611686018427387904, 4611686018427387904, 4611686018427387904] : List Int).map (fun t : Int =>
          ((t : ℝ) - ((([4611686018427387904, 4611686018427387904, 4611686018427387904] : List Int).sum : Int) : ℝ) / (([4611686018427387904, 4611686018427387904, 4611686018427387904] : List Int).length : ℝ)) ^ 2)).sum /
          (([4611686018427387904, 4611686018427387904, 4611686018427387904] : List Int).length : ℝ)) + 2) :=
  ⟨by decide, by decide, by decide, by decide,
    C13_mean_and_deviation_in_range true (fun _ => 0) [4611686018427387904, 4611686018427387904, 4611686018427387904] 4611686018427387904
      (by decide) (by decide) (by decide)⟩

/-- C13 as stated fails three times, on either build. The single sample `1.001 s` has the
arithmetic mean `1001000000` ns, but `avg = 1000999999` (the float64 product is
`1001000000 - 2^-23`). For the single sample `math.MaxInt64` the float64 product is
`2^63`, which no `int64` holds: the conversion result is then implementation-dependent,
and where it is `math.MinInt64` (as the amd64 instruction gives) `avg` is negative. And
the run `[0, 30]` has the mean `15` and the population standard deviation `15` (the
squared deviations are `225` and `225`), but `avg = 14` and `sd = 14`. -/
theorem C13_counterexample_mean :
    (∀ fused : Bool, ∃ s, feedOn fused (fun _ => 0) newStats [1001000000] = some s ∧
      s.avg = 1000999999 ∧ s.avg ≠ 1001000000) ∧
    (∀ fused : Bool, ∃ s, feedOn fused (fun _ => minInt64) newStats [maxInt64] = some s ∧
      fmul (avgSeconds s.times) (ofInt Second) = 9223372036854775808 ∧
      s.avg = minInt64 ∧ s.avg < 0) ∧
    (∀ fused : Bool, ∃ s, feedOn fused (fun _ => 0) newStats [0, 30] = some s ∧
      s.avg = 14 ∧ s.sd = 14 ∧ ((0 : ℚ) + 30) / 2 = 15 ∧
      (((0 : ℚ) - 15) ^ 2 + ((30 : ℚ) - 15) ^ 2) / 2 = 15 ^ 2) := by
  refine ⟨fun fused => ?_, fun fused => ?_, fun fused => ?_⟩
  · obtain ⟨s, s1, _, hf, hr, d, htimes, havg, _⟩ :=
      feedOn_newStats fused (fun _ => 0) [1001000000] (by decide)
    have ht : s1.times = [1001000000] := List.perm_singleton.mp hr.perm
    have h1 : s.avg = 1000999999 := by
      rw [havg, d.avg, ht, avgSeconds_singleton, round_trip_1001ms]
      have hfl : ⌊(8396996607999999 : ℚ) / 8388608⌋ = 1000999999 := by
        rw [Int.floor_eq_iff]
        norm_num
      rw [toDuration_of_floor (by norm_num) (by rw [hfl]; decide), hfl]
    exact ⟨s, hf, h1, by rw [h1]; decide⟩
  · obtain ⟨s, s1, _, hf, hr, d, htimes, havg, _⟩ :=
      feedOn_newStats fused (fun _ => minInt64) [maxInt64] (by decide)
    have ht : s1.times = [maxInt64] := List.perm_singleton.mp hr.perm
    have hP : fmul (Seconds maxInt64) (ofInt Second) = 9223372036854775808 := by
      have := round_trip_maxInt64
      unfold maxInt64
      exact this
    have h1 : s.avg = minInt64 := by
      rw [havg, d.avg, ht, avgSeconds_singleton, hP]
      unfold toDuration
      have hfl : ⌊(9223372036854775808 : ℚ)⌋ = 9223372036854775808 := by
        have := Int.floor_intCast (α := ℚ) 9223372036854775808
        simp
      simp only [hfl]
      norm_num [minInt64, maxInt64]
    refine ⟨s, hf, ?_, h1, by rw [h1]; decide⟩
    rw [htimes, ht, avgSeconds_singleton]
    exact hP
  · obtain ⟨s, s1, _, hf, hr, d, htimes, havg, hsd⟩ :=
      feedOn_newStats fused (fun _ => 0) [0, 30] (by decide)
    have ht1 : s1.times = [0, 30] :=
      List.eq_of_perm_of_sorted hr.perm hr.sorted (by decide)
    have ht : s.times = [0, 30] := by rw [htimes, ht1]
    have hfl : ⌊(8444249301319679 : ℚ) / 562949953421312⌋ = 14 := by
      rw [Int.floor_eq_iff]
      norm_num
    have h1 : s.avg = 14 := by
      rw [havg, d.avg, ht1, avgSeconds_0_30, product_0_30,
        toDuration_of_floor (by norm_num) (by rw [hfl]; decide), hfl]
    have h2 : s.sd = 14 := by
      rw [hsd, ht, sdSecondsOn_0_30, product_0_30,
        toDuration_of_floor (by norm_num) (by rw [hfl]; decide), hfl]
    exact ⟨s, hf, h1, h2, by norm_num, by norm_num⟩

end HttpLatencyTest
